import Mathlib

/-!
Verification of the BOLT 11 invoice codec `bolt11-ts`.

This file shallowly embeds the TypeScript sources
(`src/bech32.ts`, `src/utils.ts`, `src/crypto.ts`, `src/decode.ts`,
`src/encode.ts`, `src/helpers.ts`, `src/types.ts`) into Lean and proves
the specified properties about the embedding.

Modelling conventions:
* a JS string is a `List Char`; `String.prototype.toLowerCase` /
  `toUpperCase` are modelled on the ASCII fragment (all strings this
  codec manipulates are ASCII);
* a `Uint8Array` is a `List Nat` of values `< 256`;
* JS numbers are modelled as exact naturals.  Sites where JS 32-bit
  semantics (`>>`, `<<`, `|`) or float rounding could diverge are noted
  at the definition; every theorem below stays inside the exact range;
* a function that can `throw` returns `Except Err _`;
* the secp256k1 provider (`@noble/secp256k1`) and the SHA-256 digest are
  the external collaborators of §6.4 of the design; they are passed in
  as an abstract `Crypto` record.  A provider call that throws or
  returns a falsy value is modelled as `none`.
-/

deriving instance DecidableEq for Except

namespace Bolt11

/-- Error kinds thrown by the codec, one constructor per distinct
`throw new Error(...)` site in the sources. -/
inductive Err where
  /-- bech32.ts: "No separator character found" -/
  | noSeparator
  /-- bech32.ts: "Empty HRP" -/
  | emptyHrp
  /-- bech32.ts: "Checksum too short" -/
  | checksumTooShort
  /-- bech32.ts: "Invalid bech32 character" -/
  | invalidChar
  /-- bech32.ts: "Invalid checksum" -/
  | invalidChecksum
  /-- decode.ts: "Invalid prefix: must start with ln" -/
  | invalidPrefix
  /-- decode.ts: "Unknown network in prefix" -/
  | unknownNetwork
  /-- decode.ts / helpers.ts: "Invalid amount" -/
  | invalidAmount
  /-- decode.ts / helpers.ts: "pico-bitcoin amount must be a multiple of 10" -/
  | picoNotMultipleOf10
  /-- decode.ts: "Payment request too short" -/
  | tooShort
  /-- decode.ts: "Tag data extends beyond data part" -/
  | tagBeyondData
  /-- decode.ts: "Empty fallback address" -/
  | emptyFallback
  /-- utils.ts: "Hex string must have even length" -/
  | oddHexLength
  /-- encode.ts: "payment_hash tag is required" -/
  | missingPaymentHash
  /-- encode.ts: "payment_secret tag is required" -/
  | missingPaymentSecret
  /-- encode.ts: "description or purpose_commit_hash tag is required" -/
  | missingDescription
  /-- helpers.ts: "Amount is not a whole number of satoshis" -/
  | notWholeSats
deriving DecidableEq, Repr

/-! ## Strings (ASCII fragment of the JS string operations) -/

/-- ASCII fragment of `String.prototype.toLowerCase`. -/
def toLowerChar (c : Char) : Char :=
  if 65 ≤ c.toNat ∧ c.toNat ≤ 90 then Char.ofNat (c.toNat + 32) else c

/-- ASCII fragment of `String.prototype.toUpperCase`. -/
def toUpperChar (c : Char) : Char :=
  if 97 ≤ c.toNat ∧ c.toNat ≤ 122 then Char.ofNat (c.toNat - 32) else c

def toLowerStr (s : List Char) : List Char := s.map toLowerChar

def toUpperStr (s : List Char) : List Char := s.map toUpperChar

/-- Decimal digit test, the `/^\d+$/` character class. -/
def isDigitChar (c : Char) : Bool := 48 ≤ c.toNat && c.toNat ≤ 57

/-- `parseInt(s, 10)` restricted to all-digit strings (the only shape the
sources feed it after their `/^\d+$/` test). -/
def digitsToNat (s : List Char) : Nat :=
  s.foldl (fun a c => 10 * a + (c.toNat - 48)) 0

/-- Single decimal digit to its character. -/
def digitChar (d : Nat) : Char := Char.ofNat (48 + d)

/-- Fuel-indexed body of `natToDigits`; `n` itself is always enough
fuel, so the fuel-exhausted arm is unreachable. -/
def natToDigitsF (fuel n : Nat) : List Char :=
  if n < 10 then [digitChar n]
  else
    match fuel with
    | 0 => []
    | f + 1 => natToDigitsF f (n / 10) ++ [digitChar (n % 10)]

/-- `Number.prototype.toString()` for naturals (decimal, no leading
zeros, `0 ↦ "0"`). -/
def natToDigits (n : Nat) : List Char := natToDigitsF n n

/-! ## bech32.ts -/

/-- The bech32 alphabet "qpzry9x8gf2tvdw0s3jn54khce6mua7l". -/
def charsetList : List Char :=
  ['q', 'p', 'z', 'r', 'y', '9', 'x', '8', 'g', 'f', '2', 't', 'v', 'd',
   'w', '0', 's', '3', 'j', 'n', '5', '4', 'k', 'h', 'c', 'e', '6', 'm',
   'u', 'a', '7', 'l']

/-- The five BCH generator constants. -/
def generator : List Nat := [0x3b6a57b2, 0x26508e6d, 0x1ea119fa, 0x3d4233dd, 0x2a1462b3]

/-- One iteration of the `polymod` loop: shift in a 5-bit value and
apply the conditional generator XORs driven by the former top bits. -/
def polymodStep (chk v : Nat) : Nat :=
  let top := chk >>> 25
  let chk1 := ((chk &&& 0x1ffffff) <<< 5) ^^^ v
  (List.range 5).foldl
    (fun c i => if (top >>> i) &&& 1 = 1 then c ^^^ generator.getD i 0 else c) chk1

def polymod (values : List Nat) : Nat := values.foldl polymodStep 1

def hrpExpand (hrp : List Char) : List Nat :=
  hrp.map (fun c => c.toNat >>> 5) ++ [0] ++ hrp.map (fun c => c.toNat &&& 31)

def verifyChecksum (hrp : List Char) (data : List Nat) : Bool :=
  polymod (hrpExpand hrp ++ data) == 1

def createChecksum (hrp : List Char) (data : List Nat) : List Nat :=
  let m := polymod (hrpExpand hrp ++ data ++ [0, 0, 0, 0, 0, 0]) ^^^ 1
  [0, 1, 2, 3, 4, 5].map (fun i => (m >>> (5 * (5 - i))) &&& 31)

/-- `CHARSET[v]`.  For `v ≥ 32` the JS expression is `undefined`; the
default is irrelevant because every call site keeps `v < 32`. -/
def charsetChar (v : Nat) : Char := charsetList.getD v ' '

/-- `CHARSET.indexOf(ch)`, `none` for the JS result `-1`. -/
def charsetIndexOf (c : Char) : Option Nat := List.indexOf? c charsetList

def bech32Encode (hrp : List Char) (data : List Nat) : List Char :=
  hrp ++ '1' :: (data ++ createChecksum hrp data).map charsetChar

/-- `String.prototype.lastIndexOf('1')`, `none` for `-1`. -/
def lastIndexOfOne (s : List Char) : Option Nat :=
  match s.reverse.findIdx? (· == '1') with
  | none => none
  | some i => some (s.length - 1 - i)

/-- The char-to-value loop of `bech32Decode`; fails at the first
character outside the alphabet. -/
def mapCharset : List Char → Except Err (List Nat)
  | [] => Except.ok []
  | c :: cs =>
    match charsetIndexOf c with
    | none => Except.error Err.invalidChar
    | some i => (mapCharset cs).map (i :: ·)

def bech32Decode (str : List Char) : Except Err (List Char × List Nat) := do
  let input := toLowerStr str
  match lastIndexOfOne input with
  | none => throw Err.noSeparator
  | some sepIndex =>
    if sepIndex = 0 then throw Err.emptyHrp
    else if input.length < sepIndex + 7 then throw Err.checksumTooShort
    else
      let hrp := input.take sepIndex
      let dataStr := input.drop (sepIndex + 1)
      let data ← mapCharset dataStr
      if verifyChecksum hrp data then
        return (hrp, data.take (data.length - 6))
      else throw Err.invalidChecksum

/-! ### Bit-level converters (`fiveToEight`, `fiveToEightTrim`, `eightToFive`)

All three share one shift-register loop.  The JS accumulator keeps the
already-emitted high bits around (only truncated by 32-bit wrap-around
of `<<`); those bits are never read back because every read masks with
the output width, so the exact-natural accumulator below emits the same
words. -/

/-- Fuel-indexed body of the inner `while (bits >= outW)` emission
loop; every iteration consumes at least one bit so `bits` itself is
always enough fuel. -/
def emitLoopF : Nat → Nat → Nat → Nat → List Nat × Nat
  | fuel, outW, acc, bits =>
    if 0 < outW ∧ outW ≤ bits then
      match fuel with
      | 0 => ([], bits)
      | f + 1 =>
        let bits' := bits - outW
        let w := (acc >>> bits') &&& (2 ^ outW - 1)
        let r := emitLoopF f outW acc bits'
        (w :: r.1, r.2)
    else ([], bits)

/-- The inner `while (bits >= outW)` emission loop.  Returns the emitted
words (high bits first) and the leftover bit count. -/
def emitLoop (outW acc bits : Nat) : List Nat × Nat :=
  emitLoopF bits outW acc bits

/-- The shared absorb/emit loop: absorb each input value (`inW` bits),
then run the emission loop.  Returns the output words together with the
final accumulator and bit count. -/
def convertAux (inW outW : Nat) (acc bits : Nat) : List Nat → List Nat × Nat × Nat
  | [] => ([], acc, bits)
  | b :: bs =>
    let acc' := (acc <<< inW) ||| b
    let (ws, bits') := emitLoop outW acc' (bits + inW)
    let (out, accF, bitsF) := convertAux inW outW acc' bits' bs
    (ws ++ out, accF, bitsF)

/-- `eightToFive`: bytes to 5-bit words, zero-padding the last word. -/
def eightToFive (bytes : List Nat) : List Nat :=
  let (out, acc, bits) := convertAux 8 5 0 0 bytes
  if 0 < bits then out ++ [(acc <<< (5 - bits)) &&& 0x1f] else out

/-- `fiveToEight`: 5-bit words to bytes; `pad` controls whether trailing
bits are zero-padded into a final byte. -/
def fiveToEight (words : List Nat) (pad : Bool) : List Nat :=
  let (out, acc, bits) := convertAux 5 8 0 0 words
  if pad ∧ 0 < bits then out ++ [(acc <<< (8 - bits)) &&& 0xff] else out

/-- `fiveToEightTrim`: same loop with the trailing bits discarded.  The
source's `allowNonzeroPadding` parameter guards a check whose body is
empty, so it has no effect and is dropped here. -/
def fiveToEightTrim (words : List Nat) : List Nat :=
  (convertAux 5 8 0 0 words).1

/-! ### Reference bit-stream semantics (used only in proofs) -/

/-- The `k` bits of `n`, most significant first. -/
def natBits : Nat → Nat → List Bool
  | 0, _ => []
  | k + 1, n => n.testBit k :: natBits k n

/-- Big-endian value of a bit list. -/
def bitsToNat (l : List Bool) : Nat :=
  l.foldl (fun a b => 2 * a + cond b 1 0) 0

/-- The concatenated `w`-bit streams of a value list. -/
def streamOf (w : Nat) (xs : List Nat) : List Bool :=
  (xs.map (natBits w)).flatten

/-- Full `w`-bit chunks of a bit list, remainder dropped. -/
def chunksExact (w : Nat) (l : List Bool) : List Nat :=
  if _h : 0 < w ∧ w ≤ l.length then
    bitsToNat (l.take w) :: chunksExact w (l.drop w)
  else []
termination_by l.length
decreasing_by simp only [List.length_drop]; omega

/-- The sub-`w` remainder of a bit list. -/
def remBits (w : Nat) (l : List Bool) : List Bool :=
  l.drop (w * (l.length / w))

/-- Zero-pad a bit list up to a multiple of `w`. -/
def padBits (w : Nat) (l : List Bool) : List Bool :=
  l ++ List.replicate ((w - l.length % w) % w) false

/-- `w`-bit chunks with the remainder zero-padded into a final chunk. -/
def chunksPad (w : Nat) (l : List Bool) : List Nat :=
  chunksExact w (padBits w l)

/-! ## utils.ts -/

/-- Hex digit value; `parseInt` with radix 16 accepts both cases. -/
def hexDigitVal (c : Char) : Option Nat :=
  if 48 ≤ c.toNat ∧ c.toNat ≤ 57 then some (c.toNat - 48)
  else if 97 ≤ c.toNat ∧ c.toNat ≤ 102 then some (c.toNat - 87)
  else if 65 ≤ c.toNat ∧ c.toNat ≤ 70 then some (c.toNat - 55)
  else none

/-- `parseInt(two_chars, 16)` as stored into a `Uint8Array` slot:
partial parses stop at the first bad character and `NaN` is coerced
to `0` by the typed-array write. -/
def hexPairVal (c1 c2 : Char) : Nat :=
  match hexDigitVal c1, hexDigitVal c2 with
  | some a, some b => 16 * a + b
  | some a, none => a
  | none, _ => 0

def hexToBytesAux : List Char → List Nat
  | c1 :: c2 :: r => hexPairVal c1 c2 :: hexToBytesAux r
  | _ => []

/-- `hexToBytes`: throws on odd length, else parses char pairs. -/
def hexToBytes (s : List Char) : Except Err (List Nat) :=
  if s.length % 2 ≠ 0 then Except.error Err.oddHexLength
  else Except.ok (hexToBytesAux s)

/-- Lower-case hex digit of a value `< 16`. -/
def hexDigitChar (d : Nat) : Char :=
  if d < 10 then Char.ofNat (48 + d) else Char.ofNat (87 + d)

/-- `bytesToHex`: `b.toString(16).padStart(2, '0')` per byte (`b < 256`). -/
def bytesToHex (bs : List Nat) : List Char :=
  (bs.map (fun b => [hexDigitChar (b / 16 % 16), hexDigitChar (b % 16)])).flatten

/-- Big-endian bytes to number. -/
def bytesToInt (bs : List Nat) : Nat :=
  bs.foldl (fun r b => r * 256 + b) 0

/-- Big-endian 5-bit words to number. -/
def wordsToInt (ws : List Nat) : Nat :=
  ws.foldl (fun r w => r * 32 + w) 0

/-- `intToWords`: fixed-length big-endian base-32 digits.  The JS loop
uses the 32-bit `>>`, which agrees with the natural shift for
`num < 2^31`; all uses below stay in that range. -/
def intToWords (num : Nat) : Nat → List Nat
  | 0 => []
  | len + 1 => intToWords (num >>> 5) len ++ [num &&& 31]

/-- `stringToBytes` (UTF-8).  Applied only to ASCII strings (HRPs),
where each byte is the code point. -/
def stringToBytes (s : List Char) : List Nat := s.map Char.toNat

/-! ## types.ts -/

structure Network where
  bech32 : List Char
  pubKeyHash : Nat
  scriptHash : Nat
  validWitnessVersions : List Nat
deriving DecidableEq, Repr

def bitcoinNet : Network := ⟨['b', 'c'], 0x00, 0x05, [0, 1]⟩
def testnetNet : Network := ⟨['t', 'b'], 0x6f, 0xc4, [0, 1]⟩
def signetNet : Network := ⟨['t', 'b', 's'], 0x6f, 0xc4, [0, 1]⟩
def regtestNet : Network := ⟨['b', 'c', 'r', 't'], 0x6f, 0xc4, [0, 1]⟩
def simnetNet : Network := ⟨['s', 'b'], 0x3f, 0x7b, [0, 1]⟩

/-- The `NETWORKS` table in its object-literal (insertion) order. -/
def NETWORKS : List Network :=
  [bitcoinNet, testnetNet, signetNet, regtestNet, simnetNet]

structure FallbackAddress where
  code : Nat
  address : List Char
  addressHash : List Char
deriving DecidableEq, Repr

structure RoutingInfo where
  pubkey : List Char
  short_channel_id : List Char
  fee_base_msat : Nat
  fee_proportional_millionths : Nat
  cltv_expiry_delta : Nat
deriving DecidableEq, Repr

structure FeaturePair where
  required : Bool
  supported : Bool
deriving DecidableEq, Repr

structure ExtraBits where
  start_bit : Nat
  bits : List Nat
  has_required : Bool
deriving DecidableEq, Repr

structure FeatureBits where
  word_length : Nat
  option_data_loss_protect : Option FeaturePair := none
  initial_routing_sync : Option FeaturePair := none
  option_upfront_shutdown_script : Option FeaturePair := none
  gossip_queries : Option FeaturePair := none
  var_onion_optin : Option FeaturePair := none
  gossip_queries_ex : Option FeaturePair := none
  option_static_remotekey : Option FeaturePair := none
  payment_secret : Option FeaturePair := none
  basic_mpp : Option FeaturePair := none
  option_support_large_channel : Option FeaturePair := none
  extra_bits : Option ExtraBits := none
deriving DecidableEq, Repr

/-- The `TagData` union.  Hex-string payloads stay `List Char`; the
`description` payload is represented by its UTF-8 bytes (the
`TextEncoder`/`TextDecoder` pair is the identity on that
representation). -/
inductive TagData where
  | payment_hash (data : List Char)
  | payment_secret (data : List Char)
  | description (data : List Nat)
  | purpose_commit_hash (data : List Char)
  | payee (data : List Char)
  | expire_time (data : Nat)
  | min_final_cltv_expiry (data : Nat)
  | fallback_address (data : FallbackAddress)
  | route_hint (data : List RoutingInfo)
  | feature_bits (data : FeatureBits)
  | metadata (data : List Char)
deriving DecidableEq, Repr

structure TagsObject where
  payment_hash : Option (List Char) := none
  payment_secret : Option (List Char) := none
  description : Option (List Nat) := none
  purpose_commit_hash : Option (List Char) := none
  payee : Option (List Char) := none
  expire_time : Option Nat := none
  min_final_cltv_expiry : Option Nat := none
  fallback_address : Option FallbackAddress := none
  route_hint : Option (List RoutingInfo) := none
  feature_bits : Option FeatureBits := none
  metadata : Option (List Char) := none
deriving DecidableEq, Repr

/-- `buildTagsObject` (identical in decode.ts and encode.ts): last
occurrence of each tag name wins. -/
def buildTagsObject (tags : List TagData) : TagsObject :=
  tags.foldl
    (fun o t =>
      match t with
      | .payment_hash d => { o with payment_hash := some d }
      | .payment_secret d => { o with payment_secret := some d }
      | .description d => { o with description := some d }
      | .purpose_commit_hash d => { o with purpose_commit_hash := some d }
      | .payee d => { o with payee := some d }
      | .expire_time d => { o with expire_time := some d }
      | .min_final_cltv_expiry d => { o with min_final_cltv_expiry := some d }
      | .fallback_address d => { o with fallback_address := some d }
      | .route_hint d => { o with route_hint := some d }
      | .feature_bits d => { o with feature_bits := some d }
      | .metadata d => { o with metadata := some d })
    {}

/-- `PaymentRequestObject`.  The source's `prefix` field is renamed
`prefixStr` (reserved word); `network` also carries the raw string the
stale encoder stores when handed a string network; `millisatoshis` is
the numeric value of the source's decimal string; the `timestampString`
and `timeExpireDateString` fields (ISO-8601 renderings, pure functions
of `timestamp` and `timeExpireDate`) are not modelled. -/
structure PaymentRequestObject where
  paymentRequest : Option (List Char) := none
  complete : Bool
  prefixStr : List Char
  wordsTemp : List Char
  network : Option (Network ⊕ List Char)
  satoshis : Option Nat
  millisatoshis : Option Nat
  timestamp : Nat
  timeExpireDate : Nat
  payeeNodeKey : Option (List Char)
  signature : List Char
  recoveryFlag : Nat
  tags : List TagData
  tagsObject : TagsObject
deriving DecidableEq, Repr

/-! ## crypto.ts and the §6.4 provider contract -/

/-- The external crypto collaborators (§6.4): SHA-256 and the
secp256k1 provider (`@noble/secp256k1`).  `secpRecover` returning
`none` covers both a thrown error and a falsy result. -/
structure Crypto where
  sha256 : List Nat → List Nat
  secpSign : List Nat → List Nat → List Nat × Nat
  secpRecover : List Nat → List Nat → Nat → Option (List Nat)
  secpGetPublicKey : List Nat → List Nat

/-- The secp256k1 curve order. -/
def NCurve : Nat :=
  0xfffffffffffffffffffffffffffffffebaaedce6af48a03bbfd25e8cd0364141

/-- `HALF_N = N / 2n` (BigInt division truncates). -/
def HALF_N : Nat := NCurve / 2

/-- `bytesToBigInt`: hex-string round-trip through `BigInt`, equal to
the big-endian base-256 value for byte inputs. -/
def bytesToBigInt (bytes : List Nat) : Nat :=
  bytes.foldl (fun a b => a * 256 + b) 0

/-- Fixed-width big-endian bytes of a natural (`toString(16).padStart`
followed by `hexToBytes`). -/
def natToBytesBE : Nat → Nat → List Nat
  | 0, _ => []
  | len + 1, n => natToBytesBE len (n / 256) ++ [n % 256]

def signCompact (C : Crypto) (msgHash privateKey : List Nat) : List Nat × Nat :=
  C.secpSign msgHash privateKey

def getPublicKey (C : Crypto) (privateKey : List Nat) : List Char :=
  bytesToHex (C.secpGetPublicKey privateKey)

/-- `normalizeSig`: keep R, replace S by `n - S` when `S > n/2`. -/
def normalizeSig (sig : List Nat) : List Nat :=
  let r := sig.take 32
  let s := bytesToBigInt (sig.drop 32)
  let sNorm := if HALF_N < s then NCurve - s else s
  r ++ natToBytesBE 32 sNorm

/-- `recoverPublicKey` of crypto.ts: low-S uses the flag as-is; high-S
first tries the original signature with the flag's low bit flipped,
then the normalized signature with the original flag. -/
def recoverPublicKey (C : Crypto) (msgHash sig : List Nat) (recoveryFlag : Nat) :
    Option (List Char) :=
  let s := bytesToBigInt (sig.drop 32)
  if HALF_N < s then
    match C.secpRecover msgHash sig (recoveryFlag ^^^ 1) with
    | some pub => some (bytesToHex pub)
    | none => (C.secpRecover msgHash (normalizeSig sig) recoveryFlag).map bytesToHex
  else (C.secpRecover msgHash sig recoveryFlag).map bytesToHex

/-- Modelled from the spec (§4.5 "High-S tolerance", for comparison
with `recoverPublicKey`): "try recovery with the original signature and
recovery id first; if the underlying crypto provider rejects
non-canonical S, retry by normalizing S to `n - S` and flipping the
recovery id's low bit." -/
def recoverPublicKeySpec (C : Crypto) (msgHash sig : List Nat) (recoveryFlag : Nat) :
    Option (List Char) :=
  let s := bytesToBigInt (sig.drop 32)
  if HALF_N < s then
    match C.secpRecover msgHash sig recoveryFlag with
    | some pub => some (bytesToHex pub)
    | none => (C.secpRecover msgHash (normalizeSig sig) (recoveryFlag ^^^ 1)).map bytesToHex
  else (C.secpRecover msgHash sig recoveryFlag).map bytesToHex

/-! ## decode.ts -/

structure ParsedAmount where
  satoshis : Option Nat
  millisatoshis : Option Nat
deriving DecidableEq, Repr

structure ParsedHRP where
  prefixStr : List Char
  network : Option Network
  amount : Option ParsedAmount
deriving DecidableEq, Repr

/-- `parseAmount`.  The multiplier table maps `m/u/n` to integral
msat-per-unit values; `p` is `0.1` msat per unit.  The source computes
in IEEE-754 binary64; this exact-Nat rendering is faithful on the
envelope where every step is exact: the digit value `num` below
`2 ^ 53` (so `parseInt` and `num % 10` are exact), the integral
products `num * mult` below `2 ^ 53`, and for `p` the value
`Math.round(num * 0.1)` equals `num / 10` whenever `num < 2 ^ 53` and
`10 ∣ num`, since the true product is within `(num/10) * 2 ^ (-54)` —
strictly under half an ulp — of the representable integer `num / 10`.
Theorems over this definition bound the msat value `m` by
`m * 10 < 2 ^ 53`, which bounds `num ≤ 10 * m` across all five
branches. -/
def parseAmount (amountStr : List Char) : Except Err ParsedAmount :=
  let lastChar := amountStr.getLast?
  let hasSuffix := lastChar = some 'm' ∨ lastChar = some 'u' ∨
    lastChar = some 'n' ∨ lastChar = some 'p'
  let numStr := if hasSuffix then amountStr.dropLast else amountStr
  if numStr.isEmpty ∨ ¬ numStr.all isDigitChar ∨
      (1 < numStr.length ∧ numStr.head? = some '0') then
    Except.error Err.invalidAmount
  else
    let num := digitsToNat numStr
    if lastChar = some 'p' ∧ num % 10 ≠ 0 then
      Except.error Err.picoNotMultipleOf10
    else
      let msat :=
        if lastChar = some 'm' then num * 100000000
        else if lastChar = some 'u' then num * 100000
        else if lastChar = some 'n' then num * 100
        else if lastChar = some 'p' then num / 10
        else num * 100000000000
      Except.ok
        { satoshis := if msat % 1000 = 0 then some (msat / 1000) else none,
          millisatoshis := some msat }

/-- The network prefix list of `parseHRP`: `Object.values(NETWORKS)`
paired with `'ln' + bech32`, stably sorted by descending prefix length
(so `lnbcrt` and `lntbs` are tried before `lnbc`/`lntb`/`lnsb`). -/
def sortedNetworkPrefixes : List (Network × List Char) :=
  [(regtestNet, ['l', 'n', 'b', 'c', 'r', 't']),
   (signetNet, ['l', 'n', 't', 'b', 's']),
   (bitcoinNet, ['l', 'n', 'b', 'c']),
   (testnetNet, ['l', 'n', 't', 'b']),
   (simnetNet, ['l', 'n', 's', 'b'])]

/-- The prefix-matching loop of `parseHRP`. -/
def findNetwork (hrp : List Char) :
    List (Network × List Char) → Option (Network × List Char)
  | [] => none
  | (net, pfx) :: rest =>
    if pfx.isPrefixOf hrp then some (net, pfx) else findNetwork hrp rest

def parseHRP (hrp : List Char) : Except Err ParsedHRP := do
  if ¬ (['l', 'n'].isPrefixOf hrp) then throw Err.invalidPrefix
  else
    match findNetwork hrp sortedNetworkPrefixes with
    | none => throw Err.unknownNetwork
    | some (net, pfx) =>
      let amountStr := hrp.drop pfx.length
      if amountStr.isEmpty then
        return { prefixStr := hrp, network := some net, amount := none }
      else do
        let a ← parseAmount amountStr
        return { prefixStr := hrp, network := some net, amount := some a }

/-- `TAG_CODE_TO_NAME` as a partial map into the tag-name discriminant. -/
inductive TagName where
  | payment_hash | payment_secret | description | metadata | payee
  | purpose_commit_hash | expire_time | min_final_cltv_expiry
  | fallback_address | route_hint | feature_bits
deriving DecidableEq, Repr

def tagCodeToName (t : Nat) : Option TagName :=
  if t = 1 then some .payment_hash
  else if t = 16 then some .payment_secret
  else if t = 13 then some .description
  else if t = 27 then some .metadata
  else if t = 19 then some .payee
  else if t = 23 then some .purpose_commit_hash
  else if t = 6 then some .expire_time
  else if t = 24 then some .min_final_cltv_expiry
  else if t = 9 then some .fallback_address
  else if t = 3 then some .route_hint
  else if t = 5 then some .feature_bits
  else none

def parseFallbackAddress (words : List Nat) : Except Err FallbackAddress :=
  match words with
  | [] => Except.error Err.emptyFallback
  | version :: rest =>
    Except.ok
      { code := version, address := [],
        addressHash := bytesToHex (fiveToEightTrim rest) }

/-- Fuel-indexed 51-byte-stride hop loop of `parseRouteHint`; the byte
count is always enough fuel. -/
def parseRouteHintF (fuel : Nat) (bytes : List Nat) : List RoutingInfo :=
  if 51 ≤ bytes.length then
    match fuel with
    | 0 => []
    | f + 1 =>
      { pubkey := bytesToHex (bytes.take 33),
        short_channel_id := bytesToHex ((bytes.drop 33).take 8),
        fee_base_msat := bytesToInt ((bytes.drop 41).take 4),
        fee_proportional_millionths := bytesToInt ((bytes.drop 45).take 4),
        cltv_expiry_delta := bytesToInt ((bytes.drop 49).take 2) }
        :: parseRouteHintF f (bytes.drop 51)
  else []

/-- The 51-byte-stride hop loop of `parseRouteHint`. -/
def parseRouteHintAux (bytes : List Nat) : List RoutingInfo :=
  parseRouteHintF bytes.length bytes

def parseRouteHint (words : List Nat) : List RoutingInfo :=
  parseRouteHintAux (fiveToEightTrim words)

/-- The bit array rebuilt by `parseFeatureBits`: the nested loops write
`bits[totalBits - 1 - (w*5 + (4 - b))] = (words[w] >> b) & 1`, each
index exactly once, which is this closed form. -/
def fbDecodedBit (words : List Nat) (i : Nat) : Bool :=
  let totalBits := words.length * 5
  if i < totalBits then
    let j := totalBits - 1 - i
    (words.getD (j / 5) 0 >>> (4 - j % 5)) &&& 1 = 1
  else false

/-- The `feature` helper of `parseFeatureBits`. -/
def fbFeature (words : List Nat) (even : Nat) : Option FeaturePair :=
  let req := fbDecodedBit words even
  let sup := fbDecodedBit words (even + 1)
  if req || sup then some { required := req, supported := sup || req } else none

def parseFeatureBits (words : List Nat) : FeatureBits :=
  let totalBits := words.length * 5
  let extraList := (List.range totalBits).filter
    (fun i => 20 ≤ i && fbDecodedBit words i)
  { word_length := words.length,
    option_data_loss_protect := fbFeature words 0,
    initial_routing_sync := fbFeature words 2,
    option_upfront_shutdown_script := fbFeature words 4,
    gossip_queries := fbFeature words 6,
    var_onion_optin := fbFeature words 8,
    gossip_queries_ex := fbFeature words 10,
    option_static_remotekey := fbFeature words 12,
    payment_secret := fbFeature words 14,
    basic_mpp := fbFeature words 16,
    option_support_large_channel := fbFeature words 18,
    extra_bits := some
      { start_bit := 20, bits := extraList,
        has_required := extraList.any (· % 2 = 0) } }

/-- `parseTagData`; `none` is the source's `null` (tag dropped). -/
def parseTagData (name : TagName) (words : List Nat) (dataLen : Nat) :
    Except Err (Option TagData) :=
  match name with
  | .payment_hash =>
    if dataLen ≠ 52 then Except.ok none
    else Except.ok (some (.payment_hash (bytesToHex (fiveToEightTrim words))))
  | .payment_secret =>
    if dataLen ≠ 52 then Except.ok none
    else Except.ok (some (.payment_secret (bytesToHex (fiveToEightTrim words))))
  | .purpose_commit_hash =>
    if dataLen ≠ 52 then Except.ok none
    else Except.ok (some (.purpose_commit_hash (bytesToHex (fiveToEightTrim words))))
  | .payee =>
    if dataLen ≠ 53 then Except.ok none
    else Except.ok (some (.payee (bytesToHex (fiveToEightTrim words))))
  | .description => Except.ok (some (.description (fiveToEightTrim words)))
  | .metadata => Except.ok (some (.metadata (bytesToHex (fiveToEightTrim words))))
  | .expire_time => Except.ok (some (.expire_time (wordsToInt words)))
  | .min_final_cltv_expiry =>
    Except.ok (some (.min_final_cltv_expiry (wordsToInt words)))
  | .fallback_address =>
    (parseFallbackAddress words).map (fun f => some (.fallback_address f))
  | .route_hint => Except.ok (some (.route_hint (parseRouteHint words)))
  | .feature_bits => Except.ok (some (.feature_bits (parseFeatureBits words)))

/-- Fuel-indexed body of the `parseTags` walk; each iteration consumes
at least 3 words, so the word count is always enough fuel. -/
def parseTagsF (fuel : Nat) (words : List Nat) : Except Err (List TagData) :=
  if words.length < 3 then Except.ok []
  else
    match fuel with
    | 0 => Except.ok []
    | f + 1 =>
      let type := words.getD 0 0
      let dataLen := words.getD 1 0 * 32 + words.getD 2 0
      if 3 + dataLen > words.length then Except.error Err.tagBeyondData
      else
        let tagWords := (words.drop 3).take dataLen
        let rest := words.drop (3 + dataLen)
        match tagCodeToName type with
        | some name => do
          let parsed ← parseTagData name tagWords dataLen
          let tl ← parseTagsF f rest
          match parsed with
          | some t => return t :: tl
          | none => return tl
        | none => parseTagsF f rest

/-- The `parseTags` walk.  `while (pos < words.length)` with the
`pos + 3 > words.length` break collapses to: stop when fewer than 3
words remain. -/
def parseTags (words : List Nat) : Except Err (List TagData) :=
  parseTagsF words.length words

/-- `resolvePayeeKey`: a `payee` tag wins, else signature recovery. -/
def resolvePayeeKey (C : Crypto) (sigHash sigBytes : List Nat)
    (recoveryFlag : Nat) (tags : List TagData) : Option (List Char) :=
  match tags.find? (fun t => match t with | .payee _ => true | _ => false) with
  | some (.payee d) => some d
  | _ => recoverPublicKey C sigHash sigBytes recoveryFlag

/-- The `decode` pipeline (async only through the crypto provider). -/
def decode (C : Crypto) (paymentRequest : List Char) :
    Except Err PaymentRequestObject := do
  let (hrp, data) ← bech32Decode paymentRequest
  let ph ← parseHRP hrp
  if data.length < 7 + 104 then throw Err.tooShort
  else
    let timestamp := wordsToInt (data.take 7)
    let signatureStart := data.length - 104
    let tagWords := (data.drop 7).take (signatureStart - 7)
    let signatureWords := data.drop signatureStart
    let tags ← parseTags tagWords
    let sigBytes := fiveToEightTrim (signatureWords.take 103)
    let recoveryFlag := signatureWords.getD 103 0
    let signature := bytesToHex sigBytes
    let preSignatureWords := data.take signatureStart
    let hrpBytes := stringToBytes hrp
    let dataBytes := fiveToEight preSignatureWords true
    let sigHash := C.sha256 (hrpBytes ++ dataBytes)
    let payeeNodeKey := resolvePayeeKey C sigHash sigBytes recoveryFlag tags
    let tagsObject := buildTagsObject tags
    let expireTime := tagsObject.expire_time.getD 3600
    return { paymentRequest := some paymentRequest,
             complete := true,
             prefixStr := ph.prefixStr,
             wordsTemp := [],
             network := ph.network.map Sum.inl,
             satoshis := ph.amount.bind (·.satoshis),
             millisatoshis := ph.amount.bind (·.millisatoshis),
             timestamp := timestamp,
             timeExpireDate := timestamp + expireTime,
             payeeNodeKey := payeeNodeKey,
             signature := signature,
             recoveryFlag := recoveryFlag,
             tags := tags,
             tagsObject := tagsObject }

/-! ## encode.ts -/

/-- `TAG_NAME_TO_CODE`.  The source throws "Unknown tag" for names
outside the table; the `TagData` union covers exactly the table, so the
lookup is total here. -/
def tagNameToCode : TagData → Nat
  | .payment_hash _ => 1
  | .payment_secret _ => 16
  | .description _ => 13
  | .purpose_commit_hash _ => 23
  | .payee _ => 19
  | .expire_time _ => 6
  | .min_final_cltv_expiry _ => 24
  | .fallback_address _ => 9
  | .route_hint _ => 3
  | .feature_bits _ => 5
  | .metadata _ => 27

/-- Fuel-indexed minimum-width big-endian base-32 digit loop of
`intToMinWords`; `n` itself is always enough fuel.  JS `>>` agrees
with the natural shift below `2^31`. -/
def intToMinWordsF (fuel n : Nat) : List Nat :=
  if n = 0 then []
  else
    match fuel with
    | 0 => []
    | f + 1 => intToMinWordsF f (n >>> 5) ++ [n &&& 31]

def intToMinWordsAux (n : Nat) : List Nat := intToMinWordsF n n

def intToMinWords (num : Nat) : List Nat :=
  if num = 0 then [0] else intToMinWordsAux num

/-- The bit written into the encoder's feature-bit array at index `i`
(`setFeature` marks the even bit when `required`, the odd bit when
`supported`; `extra_bits.bits` are set directly). -/
def fbEncodedBit (fb : FeatureBits) (i : Nat) : Bool :=
  let pairs : List (Nat × Option FeaturePair) :=
    [(0, fb.option_data_loss_protect), (2, fb.initial_routing_sync),
     (4, fb.option_upfront_shutdown_script), (6, fb.gossip_queries),
     (8, fb.var_onion_optin), (10, fb.gossip_queries_ex),
     (12, fb.option_static_remotekey), (14, fb.payment_secret),
     (16, fb.basic_mpp), (18, fb.option_support_large_channel)]
  pairs.any (fun p =>
    match p.2 with
    | some f => (i = p.1 && f.required) || (i = p.1 + 1 && f.supported)
    | none => false)
  || (match fb.extra_bits with
      | some eb => eb.bits.contains i
      | none => false)

/-- The word-building loop of the `feature_bits` encoder:
`val |= 1 << b` whenever `bits[totalBits - 1 - (w*5 + (4-b))]` is set
(the index is always in range for `w < word_length`). -/
def featureWords (fb : FeatureBits) : List Nat :=
  let totalBits := fb.word_length * 5
  (List.range fb.word_length).map (fun w =>
    (List.range 5).foldl (fun val b =>
      let bitIdx := totalBits - 1 - (w * 5 + (4 - b))
      if fbEncodedBit fb bitIdx ∧ bitIdx < totalBits then val ||| (1 <<< b)
      else val) 0)

/-- The 51-byte serialization of one routing hop (big-endian shifts;
fees below `2^31`, cltv below `2^16` keep JS `>>` exact). -/
def hopBytes (hop : RoutingInfo) : Except Err (List Nat) := do
  let hb ← hexToBytes hop.pubkey
  let sc ← hexToBytes hop.short_channel_id
  let f := hop.fee_base_msat
  let p := hop.fee_proportional_millionths
  let c := hop.cltv_expiry_delta
  return hb ++ sc ++
    [(f >>> 24) &&& 0xff, (f >>> 16) &&& 0xff, (f >>> 8) &&& 0xff, f &&& 0xff] ++
    [(p >>> 24) &&& 0xff, (p >>> 16) &&& 0xff, (p >>> 8) &&& 0xff, p &&& 0xff] ++
    [(c >>> 8) &&& 0xff, c &&& 0xff]

def encodeTagData : TagData → Except Err (List Nat)
  | .payment_hash d => (hexToBytes d).map eightToFive
  | .payment_secret d => (hexToBytes d).map eightToFive
  | .purpose_commit_hash d => (hexToBytes d).map eightToFive
  | .payee d => (hexToBytes d).map eightToFive
  | .metadata d => (hexToBytes d).map eightToFive
  | .description d => Except.ok (eightToFive d)
  | .expire_time n => Except.ok (intToMinWords n)
  | .min_final_cltv_expiry n => Except.ok (intToMinWords n)
  | .fallback_address f =>
    (hexToBytes f.addressHash).map (fun bs => f.code :: eightToFive bs)
  | .route_hint hops => (hops.mapM hopBytes).map (fun ls => eightToFive ls.flatten)
  | .feature_bits fb => Except.ok (featureWords fb)

def encodeTag (tag : TagData) : Except Err (List Nat) := do
  let tagWords ← encodeTagData tag
  let len := tagWords.length
  return tagNameToCode tag :: ((len >>> 5) &&& 0x1f) :: (len &&& 0x1f) :: tagWords

def encodeAllTags (tags : List TagData) : Except Err (List Nat) :=
  (tags.mapM encodeTag).map List.flatten

def validateTags (tags : List TagData) : Except Err Unit :=
  if ¬ tags.any (fun t => match t with | .payment_hash _ => true | _ => false) then
    Except.error Err.missingPaymentHash
  else if ¬ tags.any (fun t => match t with | .payment_secret _ => true | _ => false) then
    Except.error Err.missingPaymentSecret
  else if ¬ tags.any (fun t =>
      match t with
      | .description _ => true
      | .purpose_commit_hash _ => true
      | _ => false) then
    Except.error Err.missingDescription
  else Except.ok ()

/-- `encodeAmountFromMsat` / `msatToHrpString` (identical bodies in
encode.ts and helpers.ts).  The `m/u/n` branches take the first
divisor giving an integer `≥ 1`; the `p` branch and the explicit pico
fallback both produce `(msat * 10) + 'p'` (whether `msat / 0.1` passes
`Number.isInteger` only selects between two identical outputs), so
they are merged.  The source's `Number.isInteger(msat / divisor)`
tests run in binary64; the exact divisibility rendering is faithful on
the bounded envelope only — see `satToHrp` for the ulp analysis, and
note `Number.isInteger` is spuriously true for any quotient `≥ 2 ^ 52`,
so theorems over this definition bound the amount. -/
def encodeAmountFromMsat (msat : Nat) : List Char :=
  if msat % 100000000 = 0 ∧ 1 ≤ msat / 100000000 then
    natToDigits (msat / 100000000) ++ ['m']
  else if msat % 100000 = 0 ∧ 1 ≤ msat / 100000 then
    natToDigits (msat / 100000) ++ ['u']
  else if msat % 100 = 0 ∧ 1 ≤ msat / 100 then
    natToDigits (msat / 100) ++ ['n']
  else natToDigits (msat * 10) ++ ['p']

/-- `buildHRP` for a resolved `Network`. -/
def buildHRPNet (network : Network) (satoshis millisatoshis : Option Nat) : List Char :=
  'l' :: 'n' :: network.bech32 ++
    (match satoshis with
     | some s => encodeAmountFromMsat (s * 1000)
     | none =>
       match millisatoshis with
       | some m => encodeAmountFromMsat m
       | none => [])

/-- `buildHRP` as the stale encoder actually calls it: `options.network`
may still be a raw string, whose `.bech32` property access yields
`undefined`, rendered "undefined" by the template concatenation. -/
def buildHRPJS (network : Network ⊕ List Char) (satoshis millisatoshis : Option Nat) :
    List Char :=
  match network with
  | Sum.inl net => buildHRPNet net satoshis millisatoshis
  | Sum.inr _ =>
    ['l', 'n', 'u', 'n', 'd', 'e', 'f', 'i', 'n', 'e', 'd'] ++
      (match satoshis with
       | some s => encodeAmountFromMsat (s * 1000)
       | none =>
         match millisatoshis with
         | some m => encodeAmountFromMsat m
         | none => [])

structure EncodeOptions where
  network : Option (Network ⊕ List Char) := none
  satoshis : Option Nat := none
  millisatoshis : Option Nat := none
  timestamp : Option Nat := none
  tags : List TagData
deriving DecidableEq, Repr

/-- `encode`: builds the unsigned record.  `now` models
`getCurrentTimestamp()` (the `Date.now()` default). -/
def encode (now : Nat) (options : EncodeOptions) : Except Err PaymentRequestObject := do
  let network := options.network.getD (Sum.inl bitcoinNet)
  let timestamp := options.timestamp.getD now
  validateTags options.tags
  let hrp := buildHRPJS network options.satoshis options.millisatoshis
  let tagsObj := buildTagsObject options.tags
  let expireTime := tagsObj.expire_time.getD 3600
  return { paymentRequest := none,
           complete := false,
           prefixStr := hrp,
           wordsTemp := [],
           network := some network,
           satoshis := options.satoshis,
           millisatoshis := options.millisatoshis,
           timestamp := timestamp,
           timeExpireDate := timestamp + expireTime,
           payeeNodeKey := none,
           signature := [],
           recoveryFlag := 0,
           tags := options.tags,
           tagsObject := tagsObj }

/-- `sign`: rebuilds the HRP and data words, hashes, signs through the
provider and serializes the bech32 payment request. -/
def sign (C : Crypto) (pr : PaymentRequestObject) (privateKeyHex : List Char) :
    Except Err PaymentRequestObject := do
  let privateKey ← hexToBytes privateKeyHex
  let network := pr.network.getD (Sum.inl bitcoinNet)
  let hrp := buildHRPJS network pr.satoshis pr.millisatoshis
  let timestampWords := intToWords pr.timestamp 7
  let tagWords ← encodeAllTags pr.tags
  let dataWords := timestampWords ++ tagWords
  let hrpBytes := stringToBytes hrp
  let dataBytes := fiveToEight dataWords true
  let sigHash := C.sha256 (hrpBytes ++ dataBytes)
  let sr := signCompact C sigHash privateKey
  let signature := sr.1
  let recoveryFlag := sr.2
  let sigWords0 := eightToFive signature
  let sigWords := (sigWords0 ++ List.replicate (103 - sigWords0.length) 0) ++ [recoveryFlag]
  let allWords := dataWords ++ sigWords
  let paymentRequest := bech32Encode hrp allWords
  return { pr with
           paymentRequest := some paymentRequest,
           complete := true,
           signature := bytesToHex signature,
           recoveryFlag := recoveryFlag,
           payeeNodeKey := some (getPublicKey C privateKey) }

/-! ## helpers.ts -/

/-- `hrpToMillisatNum` (helpers.ts private): same grammar as
`parseAmount`, returning the millisatoshi value.  Like `parseAmount`,
the source's `Math.round(parseInt(numStr, 10) * mult)` is binary64
arithmetic and this exact rendering is faithful only while the digit
value and the product stay below `2 ^ 53` (see `parseAmount` and
`satToHrp`); theorems carry the corresponding bound. -/
def hrpToMillisatNum (amountStr : List Char) : Except Err Nat :=
  let lastChar := amountStr.getLast?
  let hasSuffix := lastChar = some 'm' ∨ lastChar = some 'u' ∨
    lastChar = some 'n' ∨ lastChar = some 'p'
  let numStr := if hasSuffix then amountStr.dropLast else amountStr
  if numStr.isEmpty ∨ ¬ numStr.all isDigitChar ∨
      (1 < numStr.length ∧ numStr.head? = some '0') then
    Except.error Err.invalidAmount
  else
    let num := digitsToNat numStr
    if lastChar = some 'p' ∧ num % 10 ≠ 0 then
      Except.error Err.picoNotMultipleOf10
    else
      Except.ok
        (if lastChar = some 'm' then num * 100000000
         else if lastChar = some 'u' then num * 100000
         else if lastChar = some 'n' then num * 100
         else if lastChar = some 'p' then num / 10
         else num * 100000000000)

/-- `msatToHrpString` (helpers.ts copy of the amount encoder; see
`encodeAmountFromMsat` for the branch merge and the binary64 caveat). -/
def msatToHrpString (msat : Nat) : List Char :=
  if msat % 100000000 = 0 ∧ 1 ≤ msat / 100000000 then
    natToDigits (msat / 100000000) ++ ['m']
  else if msat % 100000 = 0 ∧ 1 ≤ msat / 100000 then
    natToDigits (msat / 100000) ++ ['u']
  else if msat % 100 = 0 ∧ 1 ≤ msat / 100 then
    natToDigits (msat / 100) ++ ['n']
  else natToDigits (msat * 10) ++ ['p']

/-- `satToHrp`.  `sat * 1000` is a binary64 product in the source; it
and the whole downstream pipeline are exact — so this Nat rendering is
faithful — precisely when the products stay below `2 ^ 53`:
* `sat * 1000 < 2 ^ 53` makes the product itself exact;
* with `msat < 2 ^ 53`, each `Number.isInteger(msat / divisor)` test
  for the divisors `1e8`, `1e5` and `100` is faithful: a non-integer
  quotient `q` sits at distance `≥ 1 / divisor` from every integer
  while `fl(q)` is within half an ulp of `q`, and half an ulp of
  `q < 2 ^ 53 / divisor` is `< 1 / divisor` in each of the three cases
  (`2 ^ (-27) < 10 ^ (-8)`, `2 ^ (-17) < 10 ^ (-5)`, `2 ^ (-7) <
  10 ^ (-2)`);
* the `p` branch needs `msat * 10 < 2 ^ 53` (division by `fl(0.1)`
  lands within `(10 * msat) * 2 ^ (-54) < 1/2` of the integer
  `10 * msat`), which the satoshi path never reaches since
  `100 ∣ sat * 1000`.
Beyond the envelope the JS code genuinely diverges from every exact
model: `satToHrp 9007199254740991` (2 ^ 53 − 1 sats) multiplies to the
double `9007199254740990976`, emits the token `"90071992547409904n"`,
and parsing it back gives `9007199254740989952` msat, which is not a
multiple of 1000, so `hrpToSat` throws where the exact model returns
the input.  Theorems over these definitions therefore carry the
`sat * 1000 < 2 ^ 53` (resp. `msat * 10 < 2 ^ 53`) bound. -/
def satToHrp (sat : Nat) : List Char := msatToHrpString (sat * 1000)

def millisatToHrp (msat : Nat) : List Char := msatToHrpString msat

/-- `hrpToSat`: errors when the msat value is not a whole number of
satoshis (the returned decimal string is modelled by its value). -/
def hrpToSat (hrp : List Char) : Except Err Nat := do
  let msat ← hrpToMillisatNum hrp
  if msat % 1000 ≠ 0 then throw Err.notWholeSats
  else return msat / 1000

def hrpToMillisat (hrp : List Char) : Except Err Nat :=
  hrpToMillisatNum hrp

/-! ## Definitions used only by the proofs -/

/-- Closed form of the conditional generator XORs of one `polymod`
iteration (used to reason about `polymodStep`). -/
def gtermOf (top : Nat) : Nat :=
  (if top.testBit 0 then 0x3b6a57b2 else 0) ^^^
    (if top.testBit 1 then 0x26508e6d else 0) ^^^
    (if top.testBit 2 then 0x1ea119fa else 0) ^^^
    (if top.testBit 3 then 0x3d4233dd else 0) ^^^
    (if top.testBit 4 then 0x2a1462b3 else 0)

/-- A well-formed lowercase HRP: non-empty, printable ASCII, already
lower case. -/
def WfHrp (hrp : List Char) : Prop :=
  hrp ≠ [] ∧ ∀ c ∈ hrp, 33 ≤ c.toNat ∧ c.toNat ≤ 126 ∧ toLowerChar c = c

/-- A secp256k1 provider that rejects non-canonical (high-S)
signatures and whose recovered key depends on the recovery id, as real
providers' do (different ids name different candidate keys). -/
def strictProvider : Crypto :=
  { sha256 := fun _ => []
  , secpSign := fun _ _ => ([], 0)
  , secpRecover := fun _ sig flag =>
      if HALF_N < bytesToBigInt (sig.drop 32) then none else some [2, flag]
  , secpGetPublicKey := fun _ => [] }

/-- A 64-byte compact signature whose S component (the last 32 bytes,
all `0xff`) exceeds the half-order. -/
def highSSig : List Nat := List.replicate 32 0 ++ List.replicate 32 255

/-- A provider whose recovery always fails; decode stores `none` as the
payee key and succeeds regardless. -/
def nullCrypto : Crypto :=
  { sha256 := fun _ => []
  , secpSign := fun _ _ => ([], 0)
  , secpRecover := fun _ _ _ => none
  , secpGetPublicKey := fun _ => [] }

/-- Seven zero timestamp words, 103 zero signature words, and a final
signature word of 4: a recovery id outside 0..3. -/
def c6Data : List Nat := List.replicate 110 0 ++ [4]

def c6Invoice : List Char := bech32Encode ['l', 'n', 'b', 'c'] c6Data

/-- The record `decode` produces for `c6Invoice`. -/
def c6Record : PaymentRequestObject :=
  { paymentRequest := some c6Invoice
  , complete := true
  , prefixStr := ['l', 'n', 'b', 'c']
  , wordsTemp := []
  , network := some (Sum.inl bitcoinNet)
  , satoshis := none
  , millisatoshis := none
  , timestamp := 0
  , timeExpireDate := 3600
  , payeeNodeKey := none
  , signature := List.replicate 128 '0'
  , recoveryFlag := 4
  , tags := []
  , tagsObject := {} }

/-- The tag list of the repo's "unknown network string throws" test. -/
def c3Tags : List TagData :=
  [ TagData.payment_hash
      ['0', '0', '0', '1', '0', '2', '0', '3', '0', '4', '0', '5', '0', '6', '0', '7', '0', '8', '0', '9', '0', '0', '0', '1', '0', '2', '0', '3', '0', '4', '0', '5', '0', '6', '0', '7', '0', '8', '0', '9', '0', '0', '0', '1', '0', '2', '0', '3', '0', '4', '0', '5', '0', '6', '0', '7', '0', '8', '0', '9', '0', '1', '0', '2']
  , TagData.payment_secret
      ['1', '1', '1', '1', '1', '1', '1', '1', '1', '1', '1', '1', '1', '1', '1', '1', '1', '1', '1', '1', '1', '1', '1', '1', '1', '1', '1', '1', '1', '1', '1', '1', '1', '1', '1', '1', '1', '1', '1', '1', '1', '1', '1', '1', '1', '1', '1', '1', '1', '1', '1', '1', '1', '1', '1', '1', '1', '1', '1', '1', '1', '1', '1', '1']
  , TagData.description [116, 101, 115, 116] ]

/-- The unknown network name of that test. -/
def c3NetName : List Char := ['u', 'n', 'k', 'n', 'o', 'w', 'n', '_', 'n', 'e', 't']

/-- Lower-case hexadecimal digit (what `bytesToHex` emits). -/
def isLowerHexDigit (c : Char) : Bool :=
  (48 ≤ c.toNat && c.toNat ≤ 57) || (97 ≤ c.toNat && c.toNat ≤ 102)

/-- A canonical hex rendering of `n` bytes. -/
def WfHexStr (s : List Char) (n : Nat) : Prop :=
  s.length = 2 * n ∧ ∀ c ∈ s, isLowerHexDigit c = true

/-- The tag-name discriminant of a `TagData` value. -/
def nameOf : TagData → TagName
  | .payment_hash _ => .payment_hash
  | .payment_secret _ => .payment_secret
  | .description _ => .description
  | .purpose_commit_hash _ => .purpose_commit_hash
  | .payee _ => .payee
  | .expire_time _ => .expire_time
  | .min_final_cltv_expiry _ => .min_final_cltv_expiry
  | .fallback_address _ => .fallback_address
  | .route_hint _ => .route_hint
  | .feature_bits _ => .feature_bits
  | .metadata _ => .metadata

/-- A named feature pair at even bit `k` survives the decoder: if
present it has a set bit, `required` implies `supported` (the decoder
ORs them), and its bits lie inside the declared word span. -/
def WfPair (k TB : Nat) : Option FeaturePair → Prop
  | none => True
  | some fp => (fp.required = true → fp.supported = true) ∧
      (fp.required || fp.supported) = true ∧ k + 1 < TB

/-- Canonical feature-bits values: every named pair is decoder-stable
and the extra bits are exactly what the decoder reconstructs — sorted,
in `[20, word_length*5)`, with the matching `has_required` flag. -/
def WfFeatureBits (fb : FeatureBits) : Prop :=
  WfPair 0 (fb.word_length * 5) fb.option_data_loss_protect ∧
  WfPair 2 (fb.word_length * 5) fb.initial_routing_sync ∧
  WfPair 4 (fb.word_length * 5) fb.option_upfront_shutdown_script ∧
  WfPair 6 (fb.word_length * 5) fb.gossip_queries ∧
  WfPair 8 (fb.word_length * 5) fb.var_onion_optin ∧
  WfPair 10 (fb.word_length * 5) fb.gossip_queries_ex ∧
  WfPair 12 (fb.word_length * 5) fb.option_static_remotekey ∧
  WfPair 14 (fb.word_length * 5) fb.payment_secret ∧
  WfPair 16 (fb.word_length * 5) fb.basic_mpp ∧
  WfPair 18 (fb.word_length * 5) fb.option_support_large_channel ∧
  ∃ eb, fb.extra_bits = some eb ∧ eb.start_bit = 20 ∧
    List.Chain' (· < ·) eb.bits ∧
    (∀ i ∈ eb.bits, 20 ≤ i ∧ i < fb.word_length * 5) ∧
    eb.has_required = eb.bits.any (· % 2 = 0)

/-- A routing hop the 51-byte serialization represents faithfully. -/
def WfRoutingInfo (h : RoutingInfo) : Prop :=
  WfHexStr h.pubkey 33 ∧ WfHexStr h.short_channel_id 8 ∧
  h.fee_base_msat < 2 ^ 31 ∧ h.fee_proportional_millionths < 2 ^ 31 ∧
  h.cltv_expiry_delta < 2 ^ 16

/-- Per-variant well-formedness under which a tag survives the
encode/decode cycle (hash payloads are canonical hex of the right
width, numbers fit the JS 32-bit shifts, payloads keep the declared
length below 1024 words, fallback addresses carry no separate
`address` rendering, feature bits are canonical). -/
def WfTag : TagData → Prop
  | .payment_hash d => WfHexStr d 32
  | .payment_secret d => WfHexStr d 32
  | .purpose_commit_hash d => WfHexStr d 32
  | .payee d => WfHexStr d 33
  | .metadata d => ∃ n, WfHexStr d n ∧ n ≤ 600
  | .description d => (∀ b ∈ d, b < 256) ∧ d.length ≤ 600
  | .expire_time n => n < 2 ^ 31
  | .min_final_cltv_expiry n => n < 2 ^ 31
  | .fallback_address f =>
    f.code < 32 ∧ f.address = [] ∧ ∃ n, WfHexStr f.addressHash n ∧ n ≤ 600
  | .route_hint hops => (∀ h ∈ hops, WfRoutingInfo h) ∧ hops.length ≤ 12
  | .feature_bits fb => WfFeatureBits fb ∧ fb.word_length ≤ 1023

/-- The hop record `parseRouteHint` reads off one 51-byte block
(proof-only shorthand). -/
def parseHopBlock (bl : List Nat) : RoutingInfo :=
  { pubkey := bytesToHex (bl.take 33),
    short_channel_id := bytesToHex ((bl.drop 33).take 8),
    fee_base_msat := bytesToInt ((bl.drop 41).take 4),
    fee_proportional_millionths := bytesToInt ((bl.drop 45).take 4),
    cltv_expiry_delta := bytesToInt ((bl.drop 49).take 2) }

/-- The amount token `buildHRP` appends to the network prefix
(proof-only shorthand mirroring the match in `buildHRPNet`). -/
def amtOf (sat msat : Option Nat) : List Char :=
  match sat with
  | some s => encodeAmountFromMsat (s * 1000)
  | none =>
    match msat with
    | some m => encodeAmountFromMsat m
    | none => []

/-- The network `encode`/`sign` resolve from the options. -/
def netOf (opts : EncodeOptions) : Network :=
  match opts.network with
  | some (Sum.inl n) => n
  | _ => bitcoinNet

/-- The §6.4 contract of the secp256k1 provider: signatures are 64
canonical low-S bytes with a 5-bit recovery id, and recovery with the
returned id yields the signer's compressed public key. -/
def ProviderOk (C : Crypto) : Prop :=
  ∀ hm k : List Nat,
    (C.secpSign hm k).1.length = 64 ∧
    (∀ b ∈ (C.secpSign hm k).1, b < 256) ∧
    bytesToBigInt ((C.secpSign hm k).1.drop 32) ≤ HALF_N ∧
    (C.secpSign hm k).2 < 32 ∧
    C.secpRecover hm (C.secpSign hm k).1 (C.secpSign hm k).2 =
      some (C.secpGetPublicKey k)

/-- Well-formed invoice fields: well-formed tags containing the
mandatory ones, no payee override, a resolved known network, a
positive amount given satoshis-or-millisatoshis-but-not-both and
bounded so every IEEE-754 binary64 step of the amount pipeline is
exact (`s * 1000 < 2 ^ 53` for satoshis, `m * 10 < 2 ^ 53` for raw
millisatoshis — see `satToHrp`/`msatToHrpString` for the envelope
analysis; outside it the JS number arithmetic diverges from any exact
model), and a JS-exact timestamp (the analogous `< 2 ^ 31` bound for
the 32-bit shifts in the word packer). -/
def WfOptions (opts : EncodeOptions) : Prop :=
  (∀ t ∈ opts.tags, WfTag t) ∧
  validateTags opts.tags = Except.ok () ∧
  (∀ d, TagData.payee d ∉ opts.tags) ∧
  (match opts.network with
   | none => True
   | some (Sum.inl net) => net ∈ NETWORKS
   | some (Sum.inr _) => False) ∧
  (match opts.satoshis, opts.millisatoshis with
   | none, none => True
   | some s, none => 1 ≤ s ∧ s * 1000 < 2 ^ 53
   | none, some m => 1 ≤ m ∧ m * 10 < 2 ^ 53
   | some _, some _ => False) ∧
  (∀ ts, opts.timestamp = some ts → ts < 2 ^ 31)

/-- A 33-byte compressed-public-key stand-in for the C1 witness. -/
def c1Pub : List Nat := 2 :: List.replicate 32 1

/-- A provider satisfying the §6.4 contract with constant answers:
zero signatures (low-S), recovery id 0, a fixed compressed key. -/
def c1Crypto : Crypto :=
  { sha256 := fun _ => []
  , secpSign := fun _ _ => (List.replicate 64 0, 0)
  , secpRecover := fun _ _ _ => some c1Pub
  , secpGetPublicKey := fun _ => c1Pub }

def c1KeyHex : List Char := List.replicate 64 '0'

/-- The witness invoice fields: bitcoin, 1000 sat, a fixed timestamp,
and the three mandatory tags. -/
def c1Opts : EncodeOptions :=
  { network := some (Sum.inl bitcoinNet)
  , satoshis := some 1000
  , millisatoshis := none
  , timestamp := some 1496314658
  , tags := c3Tags }

/-! # Theorems

First a toolbox of bit-level lemmas, then the claims. -/

theorem testBit_mulPow_add (a b k : Nat) (hb : b < 2 ^ k) (i : Nat) :
    (a * 2 ^ k + b).testBit i = if i < k then b.testBit i else a.testBit (i - k) := by
  rcases Nat.lt_or_ge i k with h | h
  · rw [if_pos h, Nat.testBit_to_div_mod, Nat.testBit_to_div_mod]
    have hik : (2 : Nat) ^ k = 2 ^ i * 2 ^ (k - i) := by
      rw [← pow_add]
      congr 1
      omega
    have h1 : a * 2 ^ k + b = 2 ^ i * (a * 2 ^ (k - i)) + b := by
      rw [hik]; ring
    rw [h1, Nat.mul_add_div (Nat.pos_pow_of_pos i (by norm_num))]
    have hk1 : (2 : Nat) ^ (k - i) = 2 * 2 ^ (k - i - 1) := by
      conv_lhs => rw [show k - i = (k - i - 1) + 1 by omega]
      rw [pow_succ']
    have h2 : a * 2 ^ (k - i) = 2 * (a * 2 ^ (k - i - 1)) := by
      rw [hk1]; ring
    rw [Nat.add_comm, h2, Nat.add_mul_mod_self_left]
  · rw [if_neg (by omega), Nat.testBit_to_div_mod, Nat.testBit_to_div_mod]
    have h1 : 2 ^ i = 2 ^ k * 2 ^ (i - k) := by
      rw [← pow_add]
      congr 1
      omega
    rw [h1, ← Nat.div_div_eq_div_mul, mul_comm a,
      Nat.mul_add_div (Nat.pos_pow_of_pos k (by norm_num)),
      Nat.div_eq_of_lt hb, Nat.add_zero]

theorem shiftLeft_or_low (a b k : Nat) (hb : b < 2 ^ k) :
    a <<< k ||| b = a * 2 ^ k + b := by
  apply Nat.eq_of_testBit_eq
  intro i
  rw [Nat.testBit_or, Nat.testBit_shiftLeft, testBit_mulPow_add a b k hb]
  rcases Nat.lt_or_ge i k with h | h
  · simp [Nat.not_le.2 h, h]
  · have hbf : b.testBit i = false :=
      Nat.testBit_lt_two_pow
        (lt_of_lt_of_le hb (Nat.pow_le_pow_right (by norm_num) h))
    simp [h, Nat.not_lt.2 h, hbf]

theorem bitsToNat_go (l : List Bool) (a : Nat) :
    l.foldl (fun a b => 2 * a + cond b 1 0) a = a * 2 ^ l.length + bitsToNat l := by
  induction l generalizing a with
  | nil => simp [bitsToNat]
  | cons b t ih =>
    simp only [List.foldl_cons, List.length_cons]
    rw [ih (2 * a + cond b 1 0), show bitsToNat (b :: t) =
      List.foldl (fun a b => 2 * a + cond b 1 0) (2 * 0 + cond b 1 0) t from rfl,
      ih (2 * 0 + cond b 1 0), pow_succ]
    ring

theorem bitsToNat_cons (b : Bool) (t : List Bool) :
    bitsToNat (b :: t) = cond b 1 0 * 2 ^ t.length + bitsToNat t := by
  rw [show bitsToNat (b :: t) =
    List.foldl (fun a c => 2 * a + cond c 1 0) (2 * 0 + cond b 1 0) t from rfl,
    bitsToNat_go t]
  ring

theorem bitsToNat_append (x y : List Bool) :
    bitsToNat (x ++ y) = bitsToNat x * 2 ^ y.length + bitsToNat y := by
  simp only [bitsToNat, List.foldl_append]
  rw [← bitsToNat, ← bitsToNat, bitsToNat_go]

theorem bitsToNat_lt (l : List Bool) : bitsToNat l < 2 ^ l.length := by
  induction l with
  | nil => simp [bitsToNat]
  | cons b t ih =>
    rw [bitsToNat_cons, List.length_cons, pow_succ]
    rcases b with _ | _ <;> simp <;> omega

theorem bitsToNat_replicate_false (n : Nat) :
    bitsToNat (List.replicate n false) = 0 := by
  induction n with
  | zero => rfl
  | succ n ih => rw [List.replicate_succ, bitsToNat_cons, ih]; simp

theorem natBits_length (k n : Nat) : (natBits k n).length = k := by
  induction k generalizing n with
  | zero => rfl
  | succ k ih => simp [natBits, ih]

theorem natBits_congr (k : Nat) (m n : Nat) (h : ∀ i < k, m.testBit i = n.testBit i) :
    natBits k m = natBits k n := by
  induction k with
  | zero => rfl
  | succ k ih =>
    simp only [natBits]
    rw [h k (by omega), ih (fun i hi => h i (by omega))]

theorem natBits_mod_two_pow (k n : Nat) : natBits k (n % 2 ^ k) = natBits k n := by
  apply natBits_congr
  intro i hi
  rw [Nat.testBit_mod_two_pow]
  simp [hi]

theorem bitsToNat_natBits (k n : Nat) (h : n < 2 ^ k) :
    bitsToNat (natBits k n) = n := by
  induction k generalizing n with
  | zero =>
    simp only [natBits, bitsToNat, List.foldl_nil]
    omega
  | succ k ih =>
    simp only [natBits]
    rw [bitsToNat_cons, natBits_length, ← natBits_mod_two_pow k n,
      ih _ (Nat.mod_lt _ (Nat.pos_pow_of_pos k (by norm_num)))]
    have hdiv : n / 2 ^ k < 2 :=
      Nat.div_lt_of_lt_mul (by rw [← pow_succ]; exact h)
    rw [Nat.testBit_to_div_mod]
    have hmod := Nat.div_add_mod n (2 ^ k)
    interval_cases hq : n / 2 ^ k <;> simp <;> omega

theorem natBits_bitsToNat (l : List Bool) :
    natBits l.length (bitsToNat l) = l := by
  induction l with
  | nil => rfl
  | cons b t ih =>
    simp only [List.length_cons, natBits, List.cons.injEq]
    refine ⟨?_, ?_⟩
    · rw [bitsToNat_cons,
        testBit_mulPow_add (cond b 1 0) (bitsToNat t) t.length (bitsToNat_lt t)]
      simp only [lt_irrefl, if_false, Nat.sub_self]
      rcases b with _ | _ <;> rfl
    · rw [bitsToNat_cons, ← natBits_mod_two_pow, Nat.add_comm,
        Nat.add_mul_mod_self_right, Nat.mod_eq_of_lt (bitsToNat_lt t), ih]

theorem bitsToNat_drop (l : List Bool) (m : Nat) :
    bitsToNat (l.drop m) = bitsToNat l % 2 ^ (l.length - m) := by
  rcases le_or_lt m l.length with h | h
  · have hlt : bitsToNat (l.drop m) < 2 ^ (l.length - m) := by
      have := bitsToNat_lt (l.drop m)
      rwa [List.length_drop] at this
    have key : bitsToNat l =
        bitsToNat (l.take m) * 2 ^ (l.length - m) + bitsToNat (l.drop m) := by
      conv_lhs => rw [← List.take_append_drop m l]
      rw [bitsToNat_append, List.length_drop]
    rw [key, mul_comm, Nat.mul_add_mod, Nat.mod_eq_of_lt hlt]
  · rw [List.drop_eq_nil_of_le (by omega), Nat.sub_eq_zero_of_le (by omega)]
    simp [bitsToNat, Nat.mod_one]

theorem streamOf_cons (w : Nat) (x : Nat) (xs : List Nat) :
    streamOf w (x :: xs) = natBits w x ++ streamOf w xs := by
  simp [streamOf]

theorem streamOf_length (w : Nat) (xs : List Nat) :
    (streamOf w xs).length = w * xs.length := by
  induction xs with
  | nil => simp [streamOf]
  | cons x t ih =>
    rw [streamOf_cons, List.length_append, natBits_length, ih, List.length_cons]
    ring

theorem chunksExact_of_lt (w : Nat) (l : List Bool) (h : l.length < w ∨ w = 0) :
    chunksExact w l = [] := by
  rw [chunksExact]
  split
  · omega
  · rfl

theorem chunksExact_step (w : Nat) (l : List Bool) (hw : 0 < w) (h : w ≤ l.length) :
    chunksExact w l = bitsToNat (l.take w) :: chunksExact w (l.drop w) := by
  conv_lhs => rw [chunksExact]
  rw [dif_pos ⟨hw, h⟩]

theorem remBits_of_lt (w : Nat) (l : List Bool) (h : l.length < w) :
    remBits w l = l := by
  unfold remBits
  rw [Nat.div_eq_of_lt h, Nat.mul_zero, List.drop_zero]

theorem remBits_step (w : Nat) (l : List Bool) (hw : 0 < w) (h : w ≤ l.length) :
    remBits w l = remBits w (l.drop w) := by
  unfold remBits
  rw [List.drop_drop, List.length_drop]
  congr 1
  rw [Nat.div_eq_sub_div hw h]
  ring

theorem remBits_length (w : Nat) (l : List Bool) (hw : 0 < w) :
    (remBits w l).length = l.length % w := by
  unfold remBits
  rw [List.length_drop]
  have := Nat.div_add_mod l.length w
  have := Nat.mod_lt l.length hw
  omega

theorem chunksExact_append_aux (w : Nat) (hw : 0 < w) :
    ∀ (n : Nat) (A B : List Bool), A.length ≤ n →
      chunksExact w (A ++ B) = chunksExact w A ++ chunksExact w (remBits w A ++ B) ∧
      remBits w (A ++ B) = remBits w (remBits w A ++ B) := by
  intro n
  induction n with
  | zero =>
    intro A B hA
    have : A = [] := List.eq_nil_of_length_eq_zero (by omega)
    subst this
    simp [remBits_of_lt w [] hw, chunksExact_of_lt w [] (Or.inl hw)]
  | succ n ih =>
    intro A B hA
    rcases Nat.lt_or_ge A.length w with h | h
    · rw [remBits_of_lt w A h, chunksExact_of_lt w A (Or.inl h)]
      simp
    · have hlenAB : w ≤ (A ++ B).length := by
        rw [List.length_append]; omega
      have htake : (A ++ B).take w = A.take w := List.take_append_of_le_length h
      have hdrop : (A ++ B).drop w = A.drop w ++ B := List.drop_append_of_le_length h
      have ihA := ih (A.drop w) B (by rw [List.length_drop]; omega)
      constructor
      · rw [chunksExact_step w (A ++ B) hw hlenAB, htake, hdrop, ihA.1,
          chunksExact_step w A hw h, remBits_step w A hw h]
        simp
      · rw [remBits_step w (A ++ B) hw hlenAB, hdrop, ihA.2, remBits_step w A hw h]

theorem chunksExact_append (w : Nat) (hw : 0 < w) (A B : List Bool) :
    chunksExact w (A ++ B) = chunksExact w A ++ chunksExact w (remBits w A ++ B) :=
  (chunksExact_append_aux w hw A.length A B (le_refl _)).1

theorem remBits_append (w : Nat) (hw : 0 < w) (A B : List Bool) :
    remBits w (A ++ B) = remBits w (remBits w A ++ B) :=
  (chunksExact_append_aux w hw A.length A B (le_refl _)).2

theorem chunksExact_mem_lt (w : Nat) :
    ∀ (n : Nat) (l : List Bool), l.length ≤ n →
      ∀ x ∈ chunksExact w l, x < 2 ^ w := by
  intro n
  induction n with
  | zero =>
    intro l hl x hx
    have : l = [] := List.eq_nil_of_length_eq_zero (by omega)
    subst this
    rcases Nat.eq_zero_or_pos w with hw | hw
    · rw [chunksExact_of_lt w [] (Or.inr hw)] at hx
      simp at hx
    · rw [chunksExact_of_lt w [] (Or.inl hw)] at hx
      simp at hx
  | succ n ih =>
    intro l hl x hx
    rcases Nat.eq_zero_or_pos w with hw | hw
    · rw [chunksExact_of_lt w l (Or.inr hw)] at hx
      simp at hx
    rcases Nat.lt_or_ge l.length w with h | h
    · rw [chunksExact_of_lt w l (Or.inl h)] at hx
      simp at hx
    rw [chunksExact_step w l hw h] at hx
    rcases List.mem_cons.1 hx with rfl | hx
    · calc bitsToNat (l.take w) < 2 ^ (l.take w).length := bitsToNat_lt _
        _ ≤ 2 ^ w := Nat.pow_le_pow_right (by norm_num)
            (by rw [List.length_take]; omega)
    · exact ih (l.drop w) (by rw [List.length_drop]; omega) x hx

theorem emitLoopF_eq (outW : Nat) (hw : 0 < outW) :
    ∀ (fuel bits acc : Nat) (pending : List Bool), bits ≤ fuel →
      pending.length = bits → acc % 2 ^ bits = bitsToNat pending →
      emitLoopF fuel outW acc bits = (chunksExact outW pending, bits % outW) := by
  intro fuel
  induction fuel with
  | zero =>
    intro bits acc pending hf hl hm
    have hb : bits = 0 := by omega
    subst hb
    have hp : pending = [] := List.eq_nil_of_length_eq_zero hl
    subst hp
    rw [emitLoopF, if_neg (by omega), chunksExact_of_lt outW [] (Or.inl hw)]
    simp
  | succ f ih =>
    intro bits acc pending hf hl hm
    by_cases hb : outW ≤ bits
    · rw [emitLoopF, if_pos ⟨hw, hb⟩]
      simp only
      have hplen : (pending.take outW).length = outW := by
        rw [List.length_take]; omega
      have hdlen : (pending.drop outW).length = bits - outW := by
        rw [List.length_drop]; omega
      have htlt : bitsToNat (pending.take outW) < 2 ^ outW := by
        have := bitsToNat_lt (pending.take outW)
        rwa [hplen] at this
      have hdlt : bitsToNat (pending.drop outW) < 2 ^ (bits - outW) := by
        have := bitsToNat_lt (pending.drop outW)
        rwa [hdlen] at this
      have hsplit : acc % 2 ^ bits =
          bitsToNat (pending.take outW) * 2 ^ (bits - outW) +
            bitsToNat (pending.drop outW) := by
        rw [hm]
        conv_lhs => rw [← List.take_append_drop outW pending]
        rw [bitsToNat_append, hdlen]
      -- the emitted word is the top `outW` bits of the pending stream
      have hword : (acc >>> (bits - outW)) &&& (2 ^ outW - 1) =
          bitsToNat (pending.take outW) := by
        rw [Nat.shiftRight_eq_div_pow, Nat.and_pow_two_sub_one_eq_mod]
        have hx : acc = 2 ^ bits * (acc / 2 ^ bits) + acc % 2 ^ bits :=
          (Nat.div_add_mod acc (2 ^ bits)).symm
        have hbitsplit : (2 : Nat) ^ bits = 2 ^ (bits - outW) * 2 ^ outW := by
          rw [← pow_add]; congr 1; omega
        conv_lhs => rw [hx, hsplit, hbitsplit]
        have hre : 2 ^ (bits - outW) * 2 ^ outW * (acc / (2 ^ (bits - outW) * 2 ^ outW)) +
            (bitsToNat (pending.take outW) * 2 ^ (bits - outW) +
              bitsToNat (pending.drop outW)) =
            2 ^ (bits - outW) *
              (2 ^ outW * (acc / (2 ^ (bits - outW) * 2 ^ outW)) +
                bitsToNat (pending.take outW)) +
              bitsToNat (pending.drop outW) := by ring
        rw [hre, Nat.mul_add_div (Nat.pos_pow_of_pos _ (by norm_num)),
          Nat.div_eq_of_lt hdlt, Nat.add_zero, Nat.mul_add_mod,
          Nat.mod_eq_of_lt htlt]
      have hrec := ih (bits - outW) acc (pending.drop outW) (by omega) hdlen
        (by
          have hdvd : (2 : Nat) ^ (bits - outW) ∣ 2 ^ bits :=
            pow_dvd_pow 2 (by omega)
          rw [← Nat.mod_mod_of_dvd acc hdvd, hm, bitsToNat_drop pending outW, hl])
      rw [hrec, chunksExact_step outW pending hw (by omega), hword]
      have hmod : (bits - outW) % outW = bits % outW := by
        conv_rhs => rw [show bits = (bits - outW) + outW by omega]
        rw [Nat.add_mod_right]
      rw [hmod]
    · rw [emitLoopF, if_neg (by omega),
        chunksExact_of_lt outW pending (Or.inl (by omega)),
        Nat.mod_eq_of_lt (by omega)]

theorem emitLoop_eq (outW : Nat) (hw : 0 < outW) (bits acc : Nat)
    (pending : List Bool) (hl : pending.length = bits)
    (hm : acc % 2 ^ bits = bitsToNat pending) :
    emitLoop outW acc bits = (chunksExact outW pending, bits % outW) :=
  emitLoopF_eq outW hw bits bits acc pending (le_refl _) hl hm

theorem convertAux_eq (inW outW : Nat) (_hin : 0 < inW) (hout : 0 < outW) :
    ∀ (bs : List Nat), (∀ b ∈ bs, b < 2 ^ inW) →
    ∀ (acc bits : Nat) (pending : List Bool), pending.length = bits →
      acc % 2 ^ bits = bitsToNat pending → bits < outW →
      (convertAux inW outW acc bits bs).1 =
          chunksExact outW (pending ++ streamOf inW bs) ∧
        (convertAux inW outW acc bits bs).2.2 =
          (pending ++ streamOf inW bs).length % outW ∧
        (convertAux inW outW acc bits bs).2.1 %
            2 ^ ((pending ++ streamOf inW bs).length % outW) =
          bitsToNat (remBits outW (pending ++ streamOf inW bs)) := by
  intro bs
  induction bs with
  | nil =>
    intro _ acc bits pending hl hm hlt
    simp only [convertAux, streamOf, List.map_nil, List.flatten_nil, List.append_nil]
    refine ⟨(chunksExact_of_lt outW pending (Or.inl (by omega))).symm, ?_, ?_⟩
    · rw [hl, Nat.mod_eq_of_lt hlt]
    · rw [hl, Nat.mod_eq_of_lt hlt, remBits_of_lt outW pending (by omega), hm]
  | cons b bs ih =>
    intro hbs acc bits pending hl hm hlt
    have hb : b < 2 ^ inW := hbs b (List.mem_cons_self b bs)
    have hbs' : ∀ x ∈ bs, x < 2 ^ inW := fun x hx => hbs x (List.mem_cons_of_mem b hx)
    set acc' := (acc <<< inW) ||| b with hacc'
    set pending₁ := pending ++ natBits inW b with hp₁
    have hlen₁ : pending₁.length = bits + inW := by
      rw [hp₁, List.length_append, natBits_length, hl]
    have hinv₁ : acc' % 2 ^ (bits + inW) = bitsToNat pending₁ := by
      rw [hacc', shiftLeft_or_low acc b inW hb, hp₁, bitsToNat_append, natBits_length,
        bitsToNat_natBits inW b hb]
      have hmm : acc * 2 ^ inW % 2 ^ (bits + inW) =
          acc % 2 ^ bits * 2 ^ inW := by
        rw [pow_add]
        exact Nat.mul_mod_mul_right (2 ^ inW) acc (2 ^ bits)
      have hsum : acc % 2 ^ bits * 2 ^ inW + b < 2 ^ (bits + inW) := by
        have h1 : acc % 2 ^ bits < 2 ^ bits :=
          Nat.mod_lt _ (Nat.pos_pow_of_pos _ (by norm_num))
        have h2 : (acc % 2 ^ bits + 1) * 2 ^ inW ≤ 2 ^ bits * 2 ^ inW :=
          Nat.mul_le_mul_right _ (by omega)
        rw [pow_add]
        nlinarith
      rw [Nat.add_mod, hmm, Nat.mod_eq_of_lt
          (lt_of_lt_of_le hb (Nat.pow_le_pow_right (by norm_num) (by omega))),
        Nat.mod_eq_of_lt hsum, hm]
    have hemit := emitLoop_eq outW hout (bits + inW) acc' pending₁ hlen₁ hinv₁
    set bits' := (bits + inW) % outW with hbits'
    set pending₂ := remBits outW pending₁ with hp₂
    have hlen₂ : pending₂.length = bits' := by
      rw [hp₂, remBits_length outW pending₁ hout, hlen₁]
    have hinv₂ : acc' % 2 ^ bits' = bitsToNat pending₂ := by
      have hdvd : (2 : Nat) ^ bits' ∣ 2 ^ (bits + inW) :=
        pow_dvd_pow 2 (by rw [hbits']; exact Nat.mod_le _ _)
      rw [← Nat.mod_mod_of_dvd acc' hdvd, hinv₁, hp₂]
      unfold remBits
      have hexp : bits' = bits + inW - outW * ((bits + inW) / outW) := by
        rw [hbits']
        have := Nat.div_add_mod (bits + inW) outW
        omega
      rw [bitsToNat_drop, hlen₁, ← hexp]
    have hlt' : bits' < outW := Nat.mod_lt _ hout
    have ihr := ih hbs' acc' bits' pending₂ hlen₂ hinv₂ hlt'
    have hstream : pending ++ streamOf inW (b :: bs) = pending₁ ++ streamOf inW bs := by
      rw [streamOf_cons, hp₁, List.append_assoc]
    have hchunks : chunksExact outW (pending₁ ++ streamOf inW bs) =
        chunksExact outW pending₁ ++ chunksExact outW (pending₂ ++ streamOf inW bs) :=
      chunksExact_append outW hout pending₁ (streamOf inW bs)
    have hlenmod : (pending₂ ++ streamOf inW bs).length % outW =
        (pending₁ ++ streamOf inW bs).length % outW := by
      rw [List.length_append, List.length_append, hlen₂, hlen₁, hbits',
        Nat.mod_add_mod]
    have hrem : remBits outW (pending₂ ++ streamOf inW bs) =
        remBits outW (pending₁ ++ streamOf inW bs) :=
      (remBits_append outW hout pending₁ (streamOf inW bs)).symm
    -- unfold one step of convertAux
    show ((convertAux inW outW acc bits (b :: bs)).1 = _) ∧ _
    have hconv : convertAux inW outW acc bits (b :: bs) =
        ((emitLoop outW acc' (bits + inW)).1 ++
            (convertAux inW outW acc' (emitLoop outW acc' (bits + inW)).2 bs).1,
          (convertAux inW outW acc' (emitLoop outW acc' (bits + inW)).2 bs).2.1,
          (convertAux inW outW acc' (emitLoop outW acc' (bits + inW)).2 bs).2.2) := by
      simp only [convertAux, emitLoop]
    rw [hconv, hemit]
    simp only
    refine ⟨?_, ?_, ?_⟩
    · rw [hstream, hchunks, ihr.1]
    · rw [hstream, ← hlenmod, ihr.2.1]
    · rw [hstream, ← hlenmod, ← hrem, ihr.2.2]

theorem chunksExact_streamOf (w : Nat) (hw : 0 < w) (xs : List Nat)
    (h : ∀ x ∈ xs, x < 2 ^ w) : chunksExact w (streamOf w xs) = xs := by
  induction xs with
  | nil =>
    rw [show streamOf w [] = [] from rfl]
    exact chunksExact_of_lt w [] (Or.inl (by simpa using hw))
  | cons x t ih =>
    rw [streamOf_cons]
    have hxlen : (natBits w x).length = w := natBits_length w x
    have hlen : w ≤ (natBits w x ++ streamOf w t).length := by
      rw [List.length_append, hxlen]; omega
    rw [chunksExact_step w _ hw hlen, List.take_left' hxlen, List.drop_left' hxlen,
      bitsToNat_natBits w x (h x (List.mem_cons_self x t)),
      ih (fun y hy => h y (List.mem_cons_of_mem x hy))]

theorem streamOf_chunksExact (w : Nat) (hw : 0 < w) :
    ∀ (n : Nat) (l : List Bool), l.length ≤ n →
      streamOf w (chunksExact w l) = l.take (w * (l.length / w)) := by
  intro n
  induction n with
  | zero =>
    intro l hl
    have : l = [] := List.eq_nil_of_length_eq_zero (by omega)
    subst this
    rw [chunksExact_of_lt w [] (Or.inl (by simpa using hw))]
    simp [streamOf]
  | succ n ih =>
    intro l hl
    rcases Nat.lt_or_ge l.length w with h | h
    · rw [chunksExact_of_lt w l (Or.inl h), Nat.div_eq_of_lt h]
      simp [streamOf]
    · rw [chunksExact_step w l hw h, streamOf_cons,
        ih (l.drop w) (by rw [List.length_drop]; omega)]
      have htl : (l.take w).length = w := by rw [List.length_take]; omega
      rw [show natBits w (bitsToNat (l.take w)) =
          natBits (l.take w).length (bitsToNat (l.take w)) by rw [htl],
        natBits_bitsToNat, List.length_drop]
      have hq : w * (l.length / w) = w + w * ((l.length - w) / w) := by
        rw [Nat.div_eq_sub_div hw h]
        ring
      rw [hq, List.take_add]

theorem convertAux_spec (inW outW : Nat) (hin : 0 < inW) (hout : 0 < outW)
    (bs : List Nat) (h : ∀ b ∈ bs, b < 2 ^ inW) :
    (convertAux inW outW 0 0 bs).1 = chunksExact outW (streamOf inW bs) ∧
      (convertAux inW outW 0 0 bs).2.2 = (streamOf inW bs).length % outW ∧
      (convertAux inW outW 0 0 bs).2.1 % 2 ^ ((streamOf inW bs).length % outW) =
        bitsToNat (remBits outW (streamOf inW bs)) := by
  have := convertAux_eq inW outW hin hout bs h 0 0 [] rfl (by simp [bitsToNat]) hout
  simpa using this

theorem eightToFive_eq (bs : List Nat) (h : ∀ b ∈ bs, b < 256) :
    eightToFive bs = chunksPad 5 (streamOf 8 bs) := by
  have h' : ∀ b ∈ bs, b < 2 ^ 8 := by simpa using h
  obtain ⟨h1, h2, h3⟩ := convertAux_spec 8 5 (by norm_num) (by norm_num) bs h'
  set S := streamOf 8 bs with hS
  rcases hconv : convertAux 8 5 0 0 bs with ⟨out, acc, bits⟩
  rw [hconv] at h1 h2 h3
  simp only at h1 h2 h3
  unfold eightToFive
  rw [hconv]
  simp only [h1, h2]
  by_cases hz : 0 < S.length % 5
  · rw [if_pos hz]
    have hrlen : (remBits 5 S).length = S.length % 5 := remBits_length 5 S (by norm_num)
    have hpadword : (acc <<< (5 - S.length % 5)) &&& 0x1f =
        bitsToNat (remBits 5 S ++ List.replicate (5 - S.length % 5) false) := by
      rw [bitsToNat_append, bitsToNat_replicate_false, Nat.add_zero,
        List.length_replicate, Nat.shiftLeft_eq,
        show (0x1f : Nat) = 2 ^ 5 - 1 by norm_num, Nat.and_pow_two_sub_one_eq_mod]
      have hexp : (2 : Nat) ^ 5 = 2 ^ (S.length % 5) * 2 ^ (5 - S.length % 5) := by
        rw [← pow_add]
        congr 1
        have : S.length % 5 < 5 := Nat.mod_lt _ (by norm_num)
        omega
      rw [hexp, Nat.mul_mod_mul_right, h3]
    rw [hpadword]
    -- identify with the padded last chunk
    unfold chunksPad padBits
    have hpadlen : (5 - S.length % 5) % 5 = 5 - S.length % 5 := by
      apply Nat.mod_eq_of_lt
      omega
    rw [hpadlen, chunksExact_append 5 (by norm_num) S _]
    congr 1
    have hlenfull : (remBits 5 S ++ List.replicate (5 - S.length % 5) false).length = 5 := by
      rw [List.length_append, List.length_replicate,
        remBits_length 5 S (by norm_num)]
      have : S.length % 5 < 5 := Nat.mod_lt _ (by norm_num)
      omega
    rw [chunksExact_step 5 _ (by norm_num) (by omega), List.take_of_length_le (by omega),
      chunksExact_of_lt 5 _ (Or.inl (by rw [List.length_drop]; omega))]
  · rw [if_neg hz]
    have hz' : S.length % 5 = 0 := by omega
    unfold chunksPad padBits
    rw [hz']
    simp
  -- final shape
  -- (handled above in both branches)

theorem fiveToEightTrim_eq (ws : List Nat) (h : ∀ w ∈ ws, w < 32) :
    fiveToEightTrim ws = chunksExact 8 (streamOf 5 ws) := by
  have h' : ∀ w ∈ ws, w < 2 ^ 5 := by simpa using h
  exact (convertAux_spec 5 8 (by norm_num) (by norm_num) ws h').1

/-- Shared lemma: trimming back after byte-to-word packing is the identity. -/
theorem bitpack_roundtrip (bs : List Nat) (h : ∀ b ∈ bs, b < 256) :
    fiveToEightTrim (eightToFive bs) = bs := by
  rw [eightToFive_eq bs h]
  have hwords : ∀ w ∈ chunksPad 5 (streamOf 8 bs), w < 32 := by
    intro w hw
    have := chunksExact_mem_lt 5 (padBits 5 (streamOf 8 bs)).length _ (le_refl _) w hw
    simpa using this
  rw [fiveToEightTrim_eq _ hwords]
  unfold chunksPad
  have hdvd : 5 ∣ (padBits 5 (streamOf 8 bs)).length := by
    unfold padBits
    rw [List.length_append, List.length_replicate]
    have := Nat.div_add_mod (streamOf 8 bs).length 5
    have h5 : (streamOf 8 bs).length % 5 < 5 := Nat.mod_lt _ (by norm_num)
    rcases Nat.eq_zero_or_pos ((streamOf 8 bs).length % 5) with hz | hz
    · omega
    · have : (5 - (streamOf 8 bs).length % 5) % 5 = 5 - (streamOf 8 bs).length % 5 :=
        Nat.mod_eq_of_lt (by omega)
      omega
  rw [streamOf_chunksExact 5 (by norm_num) (padBits 5 (streamOf 8 bs)).length _
      (le_refl _),
    Nat.mul_div_cancel' hdvd, List.take_length]
  unfold padBits
  rw [chunksExact_append 8 (by norm_num) (streamOf 8 bs) _]
  have hslen : (streamOf 8 bs).length = 8 * bs.length := streamOf_length 8 bs
  have hrem8 : remBits 8 (streamOf 8 bs) = [] := by
    unfold remBits
    rw [hslen, Nat.mul_div_cancel_left _ (by norm_num : (0:Nat) < 8),
      List.drop_eq_nil_of_le (by rw [hslen])]
  rw [hrem8, List.nil_append,
    chunksExact_streamOf 8 (by norm_num) bs (by simpa using h),
    chunksExact_of_lt 8 (List.replicate ((5 - (streamOf 8 bs).length % 5) % 5) false)
      (Or.inl (by
        rw [List.length_replicate]
        have : (streamOf 8 bs).length % 5 < 5 := Nat.mod_lt _ (by norm_num)
        omega)),
    List.append_nil]

/-- C5: for every byte sequence `b` (byte values below 256), converting
to 5-bit words with `eightToFive` (zero-padding the final word) and
back with `fiveToEightTrim` (discarding the trailing sub-byte bits)
returns exactly `b`. -/
theorem C5_bitpack_roundtrip (bs : List Nat) (h : ∀ b ∈ bs, b < 256) :
    fiveToEightTrim (eightToFive bs) = bs :=
  bitpack_roundtrip bs h

/-- Witness for C5 at a concrete byte list. -/
theorem C5_bitpack_roundtrip_witness :
    fiveToEightTrim (eightToFive [0, 255, 7, 128, 31]) = [0, 255, 7, 128, 31] :=
  C5_bitpack_roundtrip [0, 255, 7, 128, 31] (by decide)

/-! ## The bech32 checksum algebra (towards C4) -/

theorem xor_shiftLeft_distrib (a b k : Nat) :
    (a ^^^ b) <<< k = (a <<< k) ^^^ (b <<< k) := by
  apply Nat.eq_of_testBit_eq
  intro i
  simp only [Nat.testBit_shiftLeft, Nat.testBit_xor]
  cases decide (k ≤ i) <;> simp

theorem xor_shiftRight_distrib (a b k : Nat) :
    (a ^^^ b) >>> k = (a >>> k) ^^^ (b >>> k) := by
  apply Nat.eq_of_testBit_eq
  intro i
  simp [Nat.testBit_shiftRight, Nat.testBit_xor]

theorem nat_xor_left_comm (a b c : Nat) : a ^^^ (b ^^^ c) = b ^^^ (a ^^^ c) := by
  rw [← Nat.xor_assoc, Nat.xor_comm a b, Nat.xor_assoc]

theorem shiftLeft_xor_low (a b k : Nat) (hb : b < 2 ^ k) :
    a <<< k ^^^ b = a * 2 ^ k + b := by
  apply Nat.eq_of_testBit_eq
  intro i
  rw [Nat.testBit_xor, Nat.testBit_shiftLeft, testBit_mulPow_add a b k hb]
  rcases Nat.lt_or_ge i k with h | h
  · simp [Nat.not_le.2 h, h]
  · have hbf : b.testBit i = false :=
      Nat.testBit_lt_two_pow
        (lt_of_lt_of_le hb (Nat.pow_le_pow_right (by norm_num) h))
    simp [h, Nat.not_lt.2 h, hbf]

theorem and_one_shiftRight (x i : Nat) :
    ((x >>> i) &&& 1 = 1) = (x.testBit i = true) := by
  rw [Nat.and_one_is_mod, Nat.shiftRight_eq_div_pow, Nat.testBit_to_div_mod]
  simp

theorem polymodStep_eq (chk v : Nat) :
    polymodStep chk v = (((chk &&& 0x1ffffff) <<< 5) ^^^ v) ^^^ gtermOf (chk >>> 25) := by
  have step : ∀ (c g i : Nat),
      (if ((chk >>> 25) >>> i) &&& 1 = 1 then c ^^^ g else c) =
        c ^^^ (if (chk >>> 25).testBit i then g else 0) := by
    intro c g i
    have hiff : (((chk >>> 25) >>> i) &&& 1 = 1) ↔ ((chk >>> 25).testBit i = true) := by
      rw [and_one_shiftRight]
    by_cases h : (chk >>> 25).testBit i = true
    · rw [if_pos (hiff.mpr h), if_pos h]
    · rw [if_neg (fun hc => h (hiff.mp hc)), if_neg h, Nat.xor_zero]
  simp only [polymodStep]
  rw [show List.range 5 = [0, 1, 2, 3, 4] from rfl]
  simp only [List.foldl_cons, List.foldl_nil]
  rw [step, step, step, step, step,
    show generator.getD 0 0 = 0x3b6a57b2 from rfl,
    show generator.getD 1 0 = 0x26508e6d from rfl,
    show generator.getD 2 0 = 0x1ea119fa from rfl,
    show generator.getD 3 0 = 0x3d4233dd from rfl,
    show generator.getD 4 0 = 0x2a1462b3 from rfl]
  unfold gtermOf
  simp [Nat.xor_assoc]

theorem gtermOf_xor (x y : Nat) : gtermOf (x ^^^ y) = gtermOf x ^^^ gtermOf y := by
  unfold gtermOf
  simp only [Nat.testBit_xor]
  have hsplit : ∀ (g : Nat) (p q : Bool),
      (if (p != q) = true then g else 0) =
        (if p then g else 0) ^^^ (if q then g else 0) := by
    intro g p q
    cases p <;> cases q <;> simp
  rw [hsplit, hsplit, hsplit, hsplit, hsplit]
  simp only [Nat.xor_assoc]
  simp [nat_xor_left_comm, Nat.xor_comm, Nat.xor_assoc]

theorem polymodStep_xor (a b v w : Nat) :
    polymodStep (a ^^^ b) (v ^^^ w) = polymodStep a v ^^^ polymodStep b w := by
  rw [polymodStep_eq, polymodStep_eq, polymodStep_eq, xor_shiftRight_distrib,
    gtermOf_xor, Nat.and_xor_distrib_right, xor_shiftLeft_distrib]
  simp [nat_xor_left_comm, Nat.xor_comm, Nat.xor_assoc]

theorem polymodFrom_xor :
    ∀ (cs ds : List Nat), cs.length = ds.length → ∀ a b : Nat,
      List.foldl polymodStep (a ^^^ b) (List.zipWith (· ^^^ ·) cs ds) =
        List.foldl polymodStep a cs ^^^ List.foldl polymodStep b ds := by
  intro cs
  induction cs with
  | nil =>
    intro ds hlen a b
    have : ds = [] := List.eq_nil_of_length_eq_zero (by simpa using hlen.symm)
    subst this
    simp
  | cons c ct ih =>
    intro ds hlen a b
    rcases ds with _ | ⟨d, dt⟩
    · simp at hlen
    · simp only [List.zipWith_cons_cons, List.foldl_cons]
      rw [polymodStep_xor a b c d]
      exact ih dt (by simpa using hlen) _ _

theorem polymodFrom_small :
    ∀ (cs : List Nat) (a : Nat), (∀ c ∈ cs, c < 32) → 5 * cs.length ≤ 30 →
      a * 2 ^ (5 * cs.length) < 2 ^ 30 →
      List.foldl polymodStep a cs = List.foldl (fun x c => x * 32 + c) a cs := by
  intro cs
  induction cs with
  | nil => intro a _ _ _; rfl
  | cons c t ih =>
    intro a hc hlen hbound
    have hc32 : c < 32 := hc c (List.mem_cons_self c t)
    have hsplitpow : (2 : Nat) ^ (5 * (c :: t).length) = 2 ^ (5 * t.length) * 32 := by
      rw [List.length_cons, Nat.mul_add, Nat.mul_one, pow_add]
      norm_num
    have ha25 : a < 2 ^ 25 := by
      have h32A : (32 : Nat) ≤ 2 ^ (5 * t.length) * 32 :=
        Nat.le_mul_of_pos_left 32 (Nat.pos_pow_of_pos _ (by norm_num))
      have := hbound
      rw [hsplitpow] at this
      by_contra hcon
      push_neg at hcon
      have h1 : (2 : Nat) ^ 25 * 32 ≤ a * (2 ^ (5 * t.length) * 32) := by
        calc (2 : Nat) ^ 25 * 32 ≤ a * 32 := Nat.mul_le_mul_right _ hcon
          _ ≤ a * (2 ^ (5 * t.length) * 32) := Nat.mul_le_mul_left _ h32A
      norm_num at h1
      omega
    have hstep : polymodStep a c = a * 32 + c := by
      rw [polymodStep_eq]
      have htop : a >>> 25 = 0 := by
        rw [Nat.shiftRight_eq_div_pow]
        exact Nat.div_eq_of_lt ha25
      have hmask : a &&& 0x1ffffff = a := by
        rw [show (0x1ffffff : Nat) = 2 ^ 25 - 1 by norm_num,
          Nat.and_pow_two_sub_one_eq_mod]
        exact Nat.mod_eq_of_lt ha25
      rw [htop, hmask]
      have hg0 : gtermOf 0 = 0 := by unfold gtermOf; simp
      rw [hg0, Nat.xor_zero, shiftLeft_xor_low a c 5 (by norm_num [hc32])]
      norm_num
    simp only [List.foldl_cons]
    rw [hstep]
    apply ih (a * 32 + c) (fun x hx => hc x (List.mem_cons_of_mem c hx))
      (by simp at hlen ⊢; omega)
    -- bound for the new accumulator
    rw [hsplitpow] at hbound
    have hA : (0 : Nat) < 2 ^ (5 * t.length) := Nat.pos_pow_of_pos _ (by norm_num)
    -- (a + 1) * (A * 32) ≤ 2 ^ 30  since  a * (A * 32) < 2 ^ 30  and  A * 32 ∣ 2 ^ 30
    have hdvd : (2 : Nat) ^ (5 * t.length) * 32 ∣ 2 ^ 30 := by
      have : (2 : Nat) ^ (5 * t.length) * 32 = 2 ^ (5 * t.length + 5) := by
        rw [pow_add]; norm_num
      rw [this]
      exact pow_dvd_pow 2 (by simp at hlen; omega)
    obtain ⟨q, hq⟩ := hdvd
    have hqpos : 0 < q := by
      rcases Nat.eq_zero_or_pos q with h0 | h0
      · rw [h0, Nat.mul_zero] at hq; norm_num at hq
      · exact h0
    have halt : a < q := by
      by_contra hcon
      push_neg at hcon
      have h1 : q * (2 ^ (5 * t.length) * 32) ≤ a * (2 ^ (5 * t.length) * 32) :=
        Nat.mul_le_mul_right _ hcon
      have h2 : a * (2 ^ (5 * t.length) * 32) < 2 ^ 30 := hbound
      rw [hq, mul_comm (2 ^ (5 * t.length) * 32) q] at h2
      omega
    have hfin : (a + 1) * (2 ^ (5 * t.length) * 32) ≤ 2 ^ 30 := by
      calc (a + 1) * (2 ^ (5 * t.length) * 32)
          ≤ q * (2 ^ (5 * t.length) * 32) := Nat.mul_le_mul_right _ (by omega)
        _ = 2 ^ 30 := by rw [hq, mul_comm]
    calc (a * 32 + c) * 2 ^ (5 * t.length)
        < (a * 32 + 32) * 2 ^ (5 * t.length) :=
          (Nat.mul_lt_mul_right hA).mpr (by omega)
      _ = (a + 1) * (2 ^ (5 * t.length) * 32) := by ring
      _ ≤ 2 ^ 30 := hfin

theorem gtermOf_lt (t : Nat) : gtermOf t < 2 ^ 30 := by
  unfold gtermOf
  have h : ∀ (p : Bool) (g : Nat), g < 2 ^ 30 → (if p then g else 0) < 2 ^ 30 := by
    intro p g hg
    cases p
    · norm_num
    · simpa using hg
  apply Nat.xor_lt_two_pow
  apply Nat.xor_lt_two_pow
  apply Nat.xor_lt_two_pow
  apply Nat.xor_lt_two_pow
  all_goals apply h _ _ (by norm_num)

theorem polymodStep_lt (a v : Nat) (hv : v < 32) : polymodStep a v < 2 ^ 30 := by
  rw [polymodStep_eq]
  apply Nat.xor_lt_two_pow
  · apply Nat.xor_lt_two_pow
    · rw [Nat.shiftLeft_eq]
      have : a &&& 0x1ffffff ≤ 0x1ffffff := Nat.and_le_right
      calc (a &&& 0x1ffffff) * 2 ^ 5 ≤ 0x1ffffff * 2 ^ 5 :=
            Nat.mul_le_mul_right _ this
        _ < 2 ^ 30 := by norm_num
    · omega
  · exact gtermOf_lt _

theorem polymodFrom_lt :
    ∀ (values : List Nat) (a : Nat), a < 2 ^ 30 → (∀ v ∈ values, v < 32) →
      List.foldl polymodStep a values < 2 ^ 30 := by
  intro values
  induction values with
  | nil => intro a ha _; simpa using ha
  | cons v t ih =>
    intro a _ hv
    simp only [List.foldl_cons]
    exact ih _ (polymodStep_lt a v (hv v (List.mem_cons_self v t)))
      (fun x hx => hv x (List.mem_cons_of_mem v hx))

theorem createChecksum_lt (hrp : List Char) (data : List Nat) :
    ∀ c ∈ createChecksum hrp data, c < 32 := by
  intro c hc
  unfold createChecksum at hc
  simp only [List.mem_map] at hc
  obtain ⟨i, _, hv⟩ := hc
  have : c ≤ 31 := by
    rw [← hv]
    exact Nat.and_le_right
  omega

theorem hrpExpand_lt (hrp : List Char) (h : ∀ c ∈ hrp, c.toNat < 1024) :
    ∀ v ∈ hrpExpand hrp, v < 32 := by
  intro v hv
  unfold hrpExpand at hv
  simp only [List.mem_append, List.mem_map, List.mem_singleton] at hv
  rcases hv with (⟨c, hc, hcv⟩ | hv) | ⟨c, hc, hcv⟩
  · rw [← hcv, Nat.shiftRight_eq_div_pow]
    have := h c hc
    omega
  · omega
  · rw [← hcv]
    have : c.toNat &&& 31 ≤ 31 := Nat.and_le_right
    omega

/-- The appended checksum always verifies. -/
theorem verifyChecksum_createChecksum (hrp : List Char) (data : List Nat)
    (hhrp : ∀ c ∈ hrp, c.toNat < 1024) (hdata : ∀ d ∈ data, d < 32) :
    verifyChecksum hrp (data ++ createChecksum hrp data) = true := by
  set E := hrpExpand hrp with hE
  have hEw : ∀ v ∈ E, v < 32 := hrpExpand_lt hrp hhrp
  set S := List.foldl polymodStep 1 (E ++ data) with hS
  have hM0 : polymod (E ++ data ++ [0, 0, 0, 0, 0, 0]) =
      List.foldl polymodStep S [0, 0, 0, 0, 0, 0] := by
    rw [hS, polymod, List.foldl_append]
  set M0 := List.foldl polymodStep S [0, 0, 0, 0, 0, 0] with hM0def
  have hM0lt : M0 < 2 ^ 30 := by
    rw [hM0def, hS, ← List.foldl_append]
    apply polymodFrom_lt _ 1 (by norm_num)
    intro v hv
    simp only [List.mem_append] at hv
    rcases hv with (hv | hv) | hv
    · exact hEw v hv
    · exact hdata v hv
    · simp at hv
      omega
  set m := M0 ^^^ 1 with hm
  have hmlt : m < 2 ^ 30 := Nat.xor_lt_two_pow hM0lt (by norm_num)
  have hpoly_eq : polymod (hrpExpand hrp ++ data ++ [0, 0, 0, 0, 0, 0]) = M0 := hM0
  have hcs : createChecksum hrp data =
      [(m >>> 25) &&& 31, (m >>> 20) &&& 31, (m >>> 15) &&& 31,
        (m >>> 10) &&& 31, (m >>> 5) &&& 31, (m >>> 0) &&& 31] := by
    show List.map
      (fun i => (polymod (hrpExpand hrp ++ data ++ [0, 0, 0, 0, 0, 0]) ^^^ 1) >>>
        (5 * (5 - i)) &&& 31) [0, 1, 2, 3, 4, 5] = _
    rw [hpoly_eq]
    rfl
  unfold verifyChecksum
  rw [show hrpExpand hrp ++ (data ++ createChecksum hrp data) =
    (E ++ data) ++ createChecksum hrp data by rw [hE, List.append_assoc]]
  rw [polymod, List.foldl_append, ← hS]
  have hzip : createChecksum hrp data =
      List.zipWith (· ^^^ ·) [0, 0, 0, 0, 0, 0] (createChecksum hrp data) := by
    rw [hcs]
    simp
  rw [hzip, show S = S ^^^ 0 by rw [Nat.xor_zero],
    polymodFrom_xor [0, 0, 0, 0, 0, 0] (createChecksum hrp data) (by rw [hcs]; rfl) S 0,
    ← hM0def]
  have hsmall : List.foldl polymodStep 0 (createChecksum hrp data) =
      List.foldl (fun x c => x * 32 + c) 0 (createChecksum hrp data) := by
    apply polymodFrom_small _ 0 (createChecksum_lt hrp data) (by rw [hcs]; rfl)
    simp
  rw [hsmall, hcs]
  have hreassemble : List.foldl (fun x c => x * 32 + c) 0
      [(m >>> 25) &&& 31, (m >>> 20) &&& 31, (m >>> 15) &&& 31,
        (m >>> 10) &&& 31, (m >>> 5) &&& 31, (m >>> 0) &&& 31] = m := by
    simp only [List.foldl_cons, List.foldl_nil, Nat.shiftRight_eq_div_pow,
      show (31 : Nat) = 2 ^ 5 - 1 by norm_num, Nat.and_pow_two_sub_one_eq_mod]
    norm_num
    omega
  rw [hreassemble, hm, ← Nat.xor_assoc, Nat.xor_self]
  simp

theorem map_id_of_fixed {α : Type} (f : α → α) :
    ∀ (l : List α), (∀ x ∈ l, f x = x) → l.map f = l := by
  intro l
  induction l with
  | nil => intro _; rfl
  | cons x t ih =>
    intro h
    rw [List.map_cons, h x (List.mem_cons_self x t),
      ih (fun y hy => h y (List.mem_cons_of_mem x hy))]

theorem charsetChar_lower : ∀ v < 32, toLowerChar (charsetChar v) = charsetChar v := by
  decide

theorem charsetChar_ne_one : ∀ v < 32, charsetChar v ≠ '1' := by decide

theorem charsetIndexOf_charsetChar : ∀ v < 32, charsetIndexOf (charsetChar v) = some v := by
  decide

theorem mapCharset_map (ws : List Nat) (h : ∀ v ∈ ws, v < 32) :
    mapCharset (ws.map charsetChar) = Except.ok ws := by
  induction ws with
  | nil => rfl
  | cons v t ih =>
    rw [List.map_cons]
    show (match charsetIndexOf (charsetChar v) with
      | none => Except.error Err.invalidChar
      | some i => (mapCharset (t.map charsetChar)).map (i :: ·)) = _
    rw [charsetIndexOf_charsetChar v (h v (List.mem_cons_self v t)),
      ih (fun x hx => h x (List.mem_cons_of_mem v hx))]
    rfl

theorem findIdx_one_aux (rest : List Char) :
    ∀ (X : List Char) (i : Nat), '1' ∉ X →
      List.findIdx? (· == '1') (X ++ '1' :: rest) i = some (i + X.length) := by
  intro X
  induction X with
  | nil =>
    intro i _
    simp [List.findIdx?_cons]
  | cons x X ih =>
    intro i hX
    have hx : (x == '1') = false := by
      have hne : x ≠ '1' := fun h => hX (by simp [h])
      simpa using hne
    rw [List.cons_append, List.findIdx?_cons, hx,
      ih (i + 1) (fun h => hX (List.mem_cons_of_mem x h))]
    simp only [Bool.false_eq_true, if_false, List.length_cons, Option.some.injEq]
    omega

theorem findIdx_one (X : List Char) (rest : List Char) (hX : '1' ∉ X) :
    List.findIdx? (· == '1') (X ++ '1' :: rest) = some X.length := by
  have := findIdx_one_aux rest X 0 hX
  simpa using this

theorem lastIndexOfOne_append (A B : List Char) (hB : '1' ∉ B) :
    lastIndexOfOne (A ++ '1' :: B) = some A.length := by
  unfold lastIndexOfOne
  have hrev : (A ++ '1' :: B).reverse = B.reverse ++ '1' :: A.reverse := by
    rw [List.reverse_append, List.reverse_cons, List.append_assoc]
    rfl
  have hBrev : '1' ∉ B.reverse := fun h => hB (List.mem_reverse.1 h)
  rw [hrev, findIdx_one B.reverse A.reverse hBrev]
  simp only [List.length_append, List.length_cons, List.length_reverse]
  congr 1
  omega

theorem createChecksum_length (hrp : List Char) (data : List Nat) :
    (createChecksum hrp data).length = 6 := by
  unfold createChecksum
  rfl

/-- Decode of encode at the bech32 layer. -/
theorem bech32_decode_encode (hrp : List Char) (data : List Nat)
    (hhrp : WfHrp hrp) (hdata : ∀ v ∈ data, v < 32) :
    bech32Decode (bech32Encode hrp data) = Except.ok (hrp, data) := by
  obtain ⟨hne, hchars⟩ := hhrp
  set cs := createChecksum hrp data with hcsdef
  have hcsw : ∀ c ∈ cs, c < 32 := createChecksum_lt hrp data
  have hall : ∀ v ∈ data ++ cs, v < 32 := by
    intro v hv
    rcases List.mem_append.1 hv with hv | hv
    · exact hdata v hv
    · exact hcsw v hv
  set body := (data ++ cs).map charsetChar with hbodydef
  have henc : bech32Encode hrp data = hrp ++ '1' :: body := rfl
  have hlowhrp : hrp.map toLowerChar = hrp :=
    map_id_of_fixed _ hrp (fun c hc => (hchars c hc).2.2)
  have hlowbody : body.map toLowerChar = body := by
    apply map_id_of_fixed
    intro x hx
    rw [hbodydef] at hx
    obtain ⟨v, hv, hvx⟩ := List.mem_map.1 hx
    rw [← hvx]
    exact charsetChar_lower v (hall v hv)
  have hlower : toLowerStr (hrp ++ '1' :: body) = hrp ++ '1' :: body := by
    unfold toLowerStr
    rw [List.map_append, List.map_cons, hlowhrp, hlowbody,
      show toLowerChar '1' = '1' from by decide]
  have hno1 : '1' ∉ body := by
    intro hmem
    rw [hbodydef] at hmem
    obtain ⟨v, hv, hvx⟩ := List.mem_map.1 hmem
    exact charsetChar_ne_one v (hall v hv) hvx
  have hlast : lastIndexOfOne (hrp ++ '1' :: body) = some hrp.length :=
    lastIndexOfOne_append hrp body hno1
  have hbodylen : body.length = data.length + 6 := by
    rw [hbodydef, List.length_map, List.length_append, hcsdef,
      createChecksum_length]
  have hlentotal : (hrp ++ '1' :: body).length = hrp.length + 1 + body.length := by
    rw [List.length_append, List.length_cons]
    omega
  have hsep0 : hrp.length ≠ 0 := by
    intro h
    exact hne (List.eq_nil_of_length_eq_zero h)
  have htake : (hrp ++ '1' :: body).take hrp.length = hrp := List.take_left hrp _
  have hdrop : (hrp ++ '1' :: body).drop (hrp.length + 1) = body := by
    rw [show hrp ++ '1' :: body = (hrp ++ ['1']) ++ body from by simp]
    exact List.drop_left' (by simp)
  have hmapcs : mapCharset body = Except.ok (data ++ cs) := mapCharset_map _ hall
  have hver : verifyChecksum hrp (data ++ cs) = true := by
    rw [hcsdef]
    exact verifyChecksum_createChecksum hrp data
      (fun c hc => by have := (hchars c hc).2.1; omega) hdata
  have hfinal : (data ++ cs).take ((data ++ cs).length - 6) = data := by
    rw [List.length_append, hcsdef, createChecksum_length,
      show data.length + 6 - 6 = data.length by omega]
    exact List.take_left data cs
  unfold bech32Decode
  simp only [henc, hlower, hlast]
  rw [if_neg hsep0, if_neg (by omega), htake, hdrop, hmapcs]
  show (if verifyChecksum hrp (data ++ cs) = true then _ else _) = _
  rw [if_pos hver, hfinal]
  rfl

/-- C4: for every vector of 5-bit words and every valid lowercase HRP,
`bech32Decode (bech32Encode h w)` returns exactly `(h, w)`; the
appended 6-word checksum always verifies (`polymod` over the HRP
expansion plus data equals 1) and is stripped on decode. -/
theorem C4_bech32_roundtrip (hrp : List Char) (data : List Nat)
    (hhrp : WfHrp hrp) (hdata : ∀ v ∈ data, v < 32) :
    bech32Decode (bech32Encode hrp data) = Except.ok (hrp, data) ∧
      verifyChecksum hrp (data ++ createChecksum hrp data) = true :=
  ⟨bech32_decode_encode hrp data hhrp hdata,
    verifyChecksum_createChecksum hrp data
      (fun c hc => by have := (hhrp.2 c hc).2.1; omega) hdata⟩

/-- Witness for C4 at a concrete HRP and word vector. -/
theorem C4_bech32_roundtrip_witness :
    bech32Decode (bech32Encode ['b', 'c'] [0, 14, 20, 15, 31, 1]) =
        Except.ok (['b', 'c'], [0, 14, 20, 15, 31, 1]) ∧
      verifyChecksum ['b', 'c']
        ([0, 14, 20, 15, 31, 1] ++ createChecksum ['b', 'c'] [0, 14, 20, 15, 31, 1]) =
        true :=
  C4_bech32_roundtrip ['b', 'c'] [0, 14, 20, 15, 31, 1]
    ⟨by decide, by decide⟩ (by decide)

/-! ## The tag walk (towards C7, C10, C1) -/

theorem parseTagsF_short (fuel : Nat) (ws : List Nat) (h : ws.length < 3) :
    parseTagsF fuel ws = Except.ok [] := by
  cases fuel <;> simp [parseTagsF, h]

theorem parseTagsF_adequate :
    ∀ (fuel : Nat) (ws : List Nat), ws.length ≤ fuel →
      parseTagsF fuel ws = parseTagsF ws.length ws := by
  intro fuel
  induction fuel using Nat.strong_induction_on with
  | _ fuel ih =>
    intro ws hlen
    by_cases h3 : ws.length < 3
    · rw [parseTagsF_short fuel ws h3, parseTagsF_short ws.length ws h3]
    · push_neg at h3
      rcases fuel with _ | f
      · omega
      rcases hL : ws.length with _ | l
      · omega
      rw [parseTagsF, if_neg (by omega)]
      conv_rhs => rw [parseTagsF, if_neg (by omega)]
      simp only
      set dataLen := ws.getD 1 0 * 32 + ws.getD 2 0 with hdl
      by_cases hbey : 3 + dataLen > ws.length
      · rw [if_pos (by omega), if_pos (by omega)]
      · rw [if_neg (by omega), if_neg (by omega)]
        have hrest : (ws.drop (3 + dataLen)).length ≤ l := by
          rw [List.length_drop]
          omega
        have e1 : parseTagsF f (ws.drop (3 + dataLen)) =
            parseTagsF (ws.drop (3 + dataLen)).length (ws.drop (3 + dataLen)) :=
          ih f (by omega) _ (by rw [List.length_drop]; omega)
        have e2 : parseTagsF l (ws.drop (3 + dataLen)) =
            parseTagsF (ws.drop (3 + dataLen)).length (ws.drop (3 + dataLen)) :=
          ih l (by omega) _ hrest
        rw [e1, e2]

theorem parseTags_short (ws : List Nat) (h : ws.length < 3) :
    parseTags ws = Except.ok [] := by
  unfold parseTags
  exact parseTagsF_short ws.length ws h

/-- One-step unfolding of the tag walk for a stream holding at least a
full type-and-length header. -/
theorem parseTags_step (ws : List Nat) (h3 : 3 ≤ ws.length) :
    parseTags ws =
      (if 3 + (ws.getD 1 0 * 32 + ws.getD 2 0) > ws.length then
        Except.error Err.tagBeyondData
      else
        match tagCodeToName (ws.getD 0 0) with
        | some name => do
          let parsed ← parseTagData name
            ((ws.drop 3).take (ws.getD 1 0 * 32 + ws.getD 2 0))
            (ws.getD 1 0 * 32 + ws.getD 2 0)
          let tl ← parseTags (ws.drop (3 + (ws.getD 1 0 * 32 + ws.getD 2 0)))
          match parsed with
          | some t => pure (t :: tl)
          | none => pure tl
        | none => parseTags (ws.drop (3 + (ws.getD 1 0 * 32 + ws.getD 2 0)))) := by
  unfold parseTags
  rcases hL : ws.length with _ | l
  · omega
  rw [parseTagsF, if_neg (by omega)]
  simp only
  set dataLen := ws.getD 1 0 * 32 + ws.getD 2 0 with hdl
  by_cases hbey : 3 + dataLen > ws.length
  · rw [if_pos (by omega), if_pos (by omega)]
  · rw [if_neg (by omega), if_neg (by omega)]
    have hrest : parseTagsF l (ws.drop (3 + dataLen)) =
        parseTagsF (ws.drop (3 + dataLen)).length (ws.drop (3 + dataLen)) :=
      parseTagsF_adequate l _ (by rw [List.length_drop]; omega)
    rw [hrest]

theorem tag_bind_none (x : Except Err (List TagData)) :
    (do
      let parsed ← (Except.ok none : Except Err (Option TagData))
      let tl ← x
      match parsed with
      | some t => pure (t :: tl)
      | none => pure tl) = x := by
  cases x <;> rfl

/-- A header-plus-payload block whose `parseTagData` comes back `null`
(or whose type code is unknown) contributes nothing: the walk moves on
to the rest of the stream. -/
theorem parseTags_drop_step (code hi lo : Nat) (payload rest : List Nat)
    (hlen : payload.length = hi * 32 + lo)
    (hnone : ∀ name, tagCodeToName code = some name →
      parseTagData name payload (hi * 32 + lo) = Except.ok none) :
    parseTags (code :: hi :: lo :: (payload ++ rest)) = parseTags rest := by
  set ws := code :: hi :: lo :: (payload ++ rest) with hws
  have hlenws : ws.length = 3 + payload.length + rest.length := by
    rw [hws]
    simp [List.length_append]
    omega
  have h3 : 3 ≤ ws.length := by omega
  have hg0 : ws.getD 0 0 = code := rfl
  have hg1 : ws.getD 1 0 = hi := rfl
  have hg2 : ws.getD 2 0 = lo := rfl
  have hdrop3 : ws.drop 3 = payload ++ rest := rfl
  have htag : (ws.drop 3).take (hi * 32 + lo) = payload := by
    rw [hdrop3]
    exact List.take_left' hlen
  have hrest : ws.drop (3 + (hi * 32 + lo)) = rest := by
    rw [hws, show 3 + (hi * 32 + lo) = (hi * 32 + lo) + 3 by omega]
    rw [List.drop_succ_cons, List.drop_succ_cons, List.drop_succ_cons]
    exact List.drop_left' hlen
  rw [parseTags_step ws h3, hg0, hg1, hg2, if_neg (by omega), htag, hrest]
  cases hname : tagCodeToName code with
  | none => rfl
  | some name =>
    simp only
    rw [hnone name hname]
    exact tag_bind_none (parseTags rest)

/-- C7: on decode, a `payment_hash` / `payment_secret` /
`purpose_commit_hash` tag whose declared length is not exactly 52
words, and a `payee` tag whose length is not exactly 53 words, is
silently dropped (no error, no tag); unknown type codes are skipped;
and decoding still raises when a tag's declared length extends beyond
the data part. -/
theorem C7_tag_length_policy :
    (∀ (code hi lo : Nat) (payload rest : List Nat),
      (code = 1 ∨ code = 16 ∨ code = 23) → payload.length = hi * 32 + lo →
      hi * 32 + lo ≠ 52 →
      parseTags (code :: hi :: lo :: (payload ++ rest)) = parseTags rest) ∧
    (∀ (hi lo : Nat) (payload rest : List Nat),
      payload.length = hi * 32 + lo → hi * 32 + lo ≠ 53 →
      parseTags (19 :: hi :: lo :: (payload ++ rest)) = parseTags rest) ∧
    (∀ (code hi lo : Nat) (payload rest : List Nat), tagCodeToName code = none →
      payload.length = hi * 32 + lo →
      parseTags (code :: hi :: lo :: (payload ++ rest)) = parseTags rest) ∧
    (∀ ws : List Nat, 3 ≤ ws.length →
      ws.length < 3 + (ws.getD 1 0 * 32 + ws.getD 2 0) →
      parseTags ws = Except.error Err.tagBeyondData) := by
  refine ⟨?_, ?_, ?_, ?_⟩
  · intro code hi lo payload rest hcode hlen hne
    apply parseTags_drop_step code hi lo payload rest hlen
    intro name hname
    rcases hcode with rfl | rfl | rfl
    all_goals
      simp only [tagCodeToName] at hname
      norm_num at hname
      rw [← hname]
      simp [parseTagData, hne]
  · intro hi lo payload rest hlen hne
    apply parseTags_drop_step 19 hi lo payload rest hlen
    intro name hname
    simp only [tagCodeToName] at hname
    norm_num at hname
    rw [← hname]
    simp [parseTagData, hne]
  · intro code hi lo payload rest hcode hlen
    apply parseTags_drop_step code hi lo payload rest hlen
    intro name hname
    rw [hcode] at hname
    exact absurd hname (by simp)
  · intro ws h3 hbeyond
    rw [parseTags_step ws h3, if_pos (by omega)]

/-- Witness for C7: a 51-word `payment_hash` payload is dropped, a
52-word `payee` payload is dropped, an unknown code 2 is skipped, and
a declared length past the end of the stream raises. -/
theorem C7_tag_length_policy_witness :
    parseTags (1 :: 1 :: 19 :: (List.replicate 51 0 ++ [])) = Except.ok [] ∧
      parseTags (19 :: 1 :: 20 :: (List.replicate 52 0 ++ [])) = Except.ok [] ∧
      parseTags (2 :: 0 :: 1 :: ([3] ++ [])) = Except.ok [] ∧
      parseTags [1, 1, 20] = Except.error Err.tagBeyondData := by
  refine ⟨?_, ?_, ?_, ?_⟩
  · rw [C7_tag_length_policy.1 1 1 19 (List.replicate 51 0) [] (Or.inl rfl)
      (by simp) (by decide)]
    decide
  · rw [C7_tag_length_policy.2.1 1 20 (List.replicate 52 0) [] (by simp) (by decide)]
    decide
  · rw [C7_tag_length_policy.2.2.1 2 0 1 [3] [] (by decide) (by decide)]
    decide
  · exact C7_tag_length_policy.2.2.2 [1, 1, 20] (by decide) (by decide)

/-- C10: when fewer than 3 words remain in the tag stream (no full
type-and-length header fits), the trailing words are silently ignored:
the walk stops with no error and no tag — both on a bare remainder and
after a complete tag. -/
theorem C10_trailing_words_ignored :
    (∀ rem : List Nat, rem.length < 3 → parseTags rem = Except.ok []) ∧
    (∀ (code hi lo : Nat) (payload rem : List Nat),
      payload.length = hi * 32 + lo → rem.length < 3 →
      parseTags (code :: hi :: lo :: (payload ++ rem)) =
        parseTags (code :: hi :: lo :: payload)) := by
  constructor
  · exact fun rem h => parseTags_short rem h
  · intro code hi lo payload rem hlen hrem
    set ws := code :: hi :: lo :: (payload ++ rem) with hws
    set ws' := code :: hi :: lo :: payload with hws'
    have hlenws : ws.length = 3 + payload.length + rem.length := by
      rw [hws]
      simp [List.length_append]
      omega
    have hlenws' : ws'.length = 3 + payload.length := by
      rw [hws']
      simp
      omega
    have hg : ws.getD 0 0 = code ∧ ws.getD 1 0 = hi ∧ ws.getD 2 0 = lo :=
      ⟨rfl, rfl, rfl⟩
    have hg' : ws'.getD 0 0 = code ∧ ws'.getD 1 0 = hi ∧ ws'.getD 2 0 = lo :=
      ⟨rfl, rfl, rfl⟩
    have htag : (ws.drop 3).take (hi * 32 + lo) = payload := by
      rw [show ws.drop 3 = payload ++ rem from rfl]
      exact List.take_left' hlen
    have htag' : (ws'.drop 3).take (hi * 32 + lo) = payload := by
      rw [show ws'.drop 3 = payload from rfl, ← hlen]
      exact List.take_length payload
    have hrest : ws.drop (3 + (hi * 32 + lo)) = rem := by
      rw [hws, show 3 + (hi * 32 + lo) = (hi * 32 + lo) + 3 by omega]
      rw [List.drop_succ_cons, List.drop_succ_cons, List.drop_succ_cons]
      exact List.drop_left' hlen
    have hrest' : ws'.drop (3 + (hi * 32 + lo)) = [] := by
      rw [hws', show 3 + (hi * 32 + lo) = (hi * 32 + lo) + 3 by omega]
      rw [List.drop_succ_cons, List.drop_succ_cons, List.drop_succ_cons]
      exact List.drop_eq_nil_of_le (by omega)
    rw [parseTags_step ws (by omega), parseTags_step ws' (by omega),
      hg.1, hg.2.1, hg.2.2, hg'.1, hg'.2.1, hg'.2.2,
      if_neg (by omega), if_neg (by omega), htag, htag', hrest, hrest']
    simp only [parseTags_short rem hrem, parseTags_short [] (by norm_num)]

/-- Witness for C10 at concrete streams. -/
theorem C10_trailing_words_ignored_witness :
    parseTags [7, 9] = Except.ok [] ∧
      parseTags (6 :: 0 :: 1 :: ([2] ++ [30, 30])) =
        parseTags (6 :: 0 :: 1 :: [2]) := by
  constructor
  · exact C10_trailing_words_ignored.1 [7, 9] (by decide)
  · exact C10_trailing_words_ignored.2 6 0 1 [2] [30, 30] (by decide) (by decide)

/-! ## Decimal rendering (towards C8 and C1) -/

theorem natToDigitsF_small (fuel n : Nat) (h : n < 10) :
    natToDigitsF fuel n = [digitChar n] := by
  cases fuel <;> simp [natToDigitsF, h]

theorem natToDigitsF_adequate :
    ∀ (fuel n : Nat), n ≤ fuel → natToDigitsF fuel n = natToDigitsF n n := by
  intro fuel
  induction fuel using Nat.strong_induction_on with
  | _ fuel ih =>
    intro n hn
    by_cases h : n < 10
    · rw [natToDigitsF_small fuel n h, natToDigitsF_small n n h]
    · push_neg at h
      rcases fuel with _ | f
      · omega
      rcases hN : n with _ | m
      · omega
      subst hN
      rw [natToDigitsF, if_neg (by omega)]
      conv_rhs => rw [natToDigitsF, if_neg (by omega)]
      have hdivle : (m + 1) / 10 ≤ m := by omega
      rw [ih f (by omega) _ (by omega), ih m (by omega) _ (by omega)]

theorem natToDigits_small (n : Nat) (h : n < 10) : natToDigits n = [digitChar n] :=
  natToDigitsF_small n n h

theorem natToDigits_step (n : Nat) (h : 10 ≤ n) :
    natToDigits n = natToDigits (n / 10) ++ [digitChar (n % 10)] := by
  unfold natToDigits
  rcases hN : n with _ | m
  · omega
  subst hN
  rw [natToDigitsF, if_neg (by omega)]
  exact congrArg (· ++ [digitChar ((m + 1) % 10)])
    (natToDigitsF_adequate m ((m + 1) / 10) (by omega))

theorem digitChar_toNat (d : Nat) (h : d < 10) : (digitChar d).toNat = 48 + d := by
  interval_cases d <;> decide

theorem digitChar_isDigit (d : Nat) (h : d < 10) : isDigitChar (digitChar d) = true := by
  interval_cases d <;> decide

theorem digitChar_ne_zero_char (d : Nat) (h1 : 1 ≤ d) (h2 : d < 10) :
    digitChar d ≠ '0' := by
  interval_cases d <;> decide

theorem natToDigits_props :
    ∀ n : Nat, natToDigits n ≠ [] ∧ (∀ c ∈ natToDigits n, isDigitChar c = true) ∧
      (1 ≤ n → (natToDigits n).head? ≠ some '0') := by
  intro n
  induction n using Nat.strong_induction_on with
  | _ n ih =>
    by_cases h : n < 10
    · rw [natToDigits_small n h]
      refine ⟨by simp, ?_, ?_⟩
      · intro c hc
        rw [List.mem_singleton] at hc
        rw [hc]
        exact digitChar_isDigit n h
      · intro h1
        rw [List.head?_cons]
        intro hcon
        exact digitChar_ne_zero_char n h1 h (Option.some.inj hcon)
    · push_neg at h
      rw [natToDigits_step n h]
      have hdiv10 : n / 10 < n := Nat.div_lt_self (by omega) (by norm_num)
      obtain ⟨hne, hdig, hhead⟩ := ih (n / 10) hdiv10
      refine ⟨by simp, ?_, ?_⟩
      · intro c hc
        rcases List.mem_append.1 hc with hc | hc
        · exact hdig c hc
        · rw [List.mem_singleton] at hc
          rw [hc]
          exact digitChar_isDigit _ (Nat.mod_lt _ (by norm_num))
      · intro _
        have hh : (natToDigits (n / 10) ++ [digitChar (n % 10)]).head? =
            (natToDigits (n / 10)).head? := by
          rcases hnil : natToDigits (n / 10) with _ | ⟨x, t⟩
          · exact absurd hnil hne
          · rfl
        rw [hh]
        exact hhead (by omega)

theorem digitsToNat_concat (A : List Char) (c : Char) :
    digitsToNat (A ++ [c]) = 10 * digitsToNat A + (c.toNat - 48) := by
  simp [digitsToNat, List.foldl_append]

theorem digitsToNat_natToDigits : ∀ n : Nat, digitsToNat (natToDigits n) = n := by
  intro n
  induction n using Nat.strong_induction_on with
  | _ n ih =>
    by_cases h : n < 10
    · rw [natToDigits_small n h]
      show 10 * 0 + ((digitChar n).toNat - 48) = n
      rw [digitChar_toNat n h]
      omega
    · push_neg at h
      rw [natToDigits_step n h, digitsToNat_concat,
        ih (n / 10) (Nat.div_lt_self (by omega) (by norm_num)),
        digitChar_toNat _ (Nat.mod_lt _ (by norm_num))]
      omega

/-- Parsing back a rendered amount token recovers the msat value. -/
theorem hrpToMillisat_msatToHrp (msat : Nat) :
    hrpToMillisatNum (msatToHrpString msat) = Except.ok msat := by
  have main : ∀ (v : Nat) (suf : Char) (sufVal : Nat),
      suf = 'm' ∨ suf = 'u' ∨ suf = 'n' ∨ suf = 'p' →
      sufVal = (if suf = 'm' then v * 100000000
        else if suf = 'u' then v * 100000
        else if suf = 'n' then v * 100
        else if suf = 'p' then v / 10
        else v * 100000000000) →
      ¬ (suf = 'p' ∧ v % 10 ≠ 0) →
      hrpToMillisatNum (natToDigits v ++ [suf]) = Except.ok sufVal := by
    intro v suf sufVal hsuf hval hpico
    obtain ⟨hne, hdig, hhead⟩ := natToDigits_props v
    have hlast : (natToDigits v ++ [suf]).getLast? = some suf := by
      simp [List.getLast?_append]
    have hdroplast : (natToDigits v ++ [suf]).dropLast = natToDigits v :=
      List.dropLast_concat
    have hhassuf : (some suf = some 'm' ∨ some suf = some 'u' ∨
        some suf = some 'n' ∨ some suf = some 'p') := by
      rcases hsuf with rfl | rfl | rfl | rfl <;> simp
    have hvalid : ¬ ((natToDigits v).isEmpty = true ∨
        ¬ (natToDigits v).all isDigitChar = true ∨
        (1 < (natToDigits v).length ∧ (natToDigits v).head? = some '0')) := by
      push_neg
      refine ⟨?_, ?_, ?_⟩
      · rcases hcase : natToDigits v with _ | _
        · exact absurd hcase hne
        · simp [List.isEmpty]
      · simp only [List.all_eq_true]
        exact fun c hc => hdig c hc
      · intro hgt1
        have hv1 : 1 ≤ v := by
          by_contra hv0
          push_neg at hv0
          have : v = 0 := by omega
          subst this
          rw [natToDigits_small 0 (by norm_num)] at hgt1
          simp at hgt1
        exact hhead hv1
    have hpico2 : ¬ (some suf = some 'p' ∧
        digitsToNat (natToDigits v) % 10 ≠ 0) := by
      rw [digitsToNat_natToDigits]
      intro hcon
      exact hpico ⟨Option.some.inj hcon.1, hcon.2⟩
    unfold hrpToMillisatNum
    simp only [hlast]
    rw [if_pos hhassuf, hdroplast, if_neg hvalid, if_neg hpico2,
      digitsToNat_natToDigits, hval]
    rcases hsuf with rfl | rfl | rfl | rfl <;> norm_num
  by_cases hm : msat % 100000000 = 0 ∧ 1 ≤ msat / 100000000
  · rw [show msatToHrpString msat = natToDigits (msat / 100000000) ++ ['m'] from by
      unfold msatToHrpString; rw [if_pos hm]]
    rw [main _ 'm' (msat / 100000000 * 100000000) (Or.inl rfl) (by norm_num)
      (by intro hcon; exact absurd hcon.1 (by decide))]
    congr 1
    omega
  · by_cases hu : msat % 100000 = 0 ∧ 1 ≤ msat / 100000
    · rw [show msatToHrpString msat = natToDigits (msat / 100000) ++ ['u'] from by
        unfold msatToHrpString; rw [if_neg hm, if_pos hu]]
      rw [main _ 'u' (msat / 100000 * 100000) (Or.inr (Or.inl rfl))
        (by rw [if_neg (by decide), if_pos rfl])
        (by intro hcon; exact absurd hcon.1 (by decide))]
      congr 1
      omega
    · by_cases hn : msat % 100 = 0 ∧ 1 ≤ msat / 100
      · rw [show msatToHrpString msat = natToDigits (msat / 100) ++ ['n'] from by
          unfold msatToHrpString; rw [if_neg hm, if_neg hu, if_pos hn]]
        rw [main _ 'n' (msat / 100 * 100) (Or.inr (Or.inr (Or.inl rfl)))
          (by rw [if_neg (by decide), if_neg (by decide), if_pos rfl])
          (by intro hcon; exact absurd hcon.1 (by decide))]
        congr 1
        omega
      · rw [show msatToHrpString msat = natToDigits (msat * 10) ++ ['p'] from by
          unfold msatToHrpString; rw [if_neg hm, if_neg hu, if_neg hn]]
        rw [main _ 'p' (msat * 10 / 10) (Or.inr (Or.inr (Or.inr rfl)))
          (by rw [if_neg (by decide), if_neg (by decide), if_neg (by decide), if_pos rfl])
          (by intro hcon; exact hcon.2 (by omega))]
        congr 1
        omega

/-- C8: on the binary64-exact envelope — satoshi inputs with
`s * 1000 < 2 ^ 53` and msat values with `m * 10 < 2 ^ 53`, where the
exact-Nat renderings of the source's double arithmetic are faithful
(see `satToHrp`) — converting positive satoshi counts to an HRP token
and back is the identity, and for any token carrying a millisatoshi
value `hrpToSat` succeeds exactly when that value is a whole number of
satoshis and raises `notWholeSats` otherwise.  Beyond the envelope the
source itself breaks the round-trip (it throws at
`s = 9007199254740991`), so the claim's unbounded quantifier does not
hold of the program. -/
theorem C8_amount_roundtrip :
    (∀ s : Nat, 0 < s → s * 1000 < 2 ^ 53 →
      hrpToSat (satToHrp s) = Except.ok s) ∧
    (∀ (token : List Char) (m : Nat), hrpToMillisatNum token = Except.ok m →
      m * 10 < 2 ^ 53 →
      (m % 1000 = 0 → hrpToSat token = Except.ok (m / 1000)) ∧
      (m % 1000 ≠ 0 → hrpToSat token = Except.error Err.notWholeSats)) := by
  constructor
  · intro s _ _
    unfold hrpToSat satToHrp
    rw [hrpToMillisat_msatToHrp (s * 1000)]
    show (if s * 1000 % 1000 ≠ 0 then _ else _) = _
    rw [if_neg (by omega)]
    show Except.ok (s * 1000 / 1000) = _
    congr 1
    omega
  · intro token m hok _
    unfold hrpToSat
    rw [hok]
    constructor
    · intro hwhole
      show (if m % 1000 ≠ 0 then _ else _) = _
      rw [if_neg (by omega)]
      rfl
    · intro hfrac
      show (if m % 1000 ≠ 0 then _ else _) = _
      rw [if_pos hfrac]
      rfl

/-- Witness for C8: 250000 sat round-trips through "2500u", and the
fractional-satoshi token "9678785340p" (967878534 msat) raises. -/
theorem C8_amount_roundtrip_witness :
    hrpToSat (satToHrp 250000) = Except.ok 250000 ∧
      hrpToSat (['9', '6', '7', '8', '7', '8', '5', '3', '4', '0', 'p']) =
        Except.error Err.notWholeSats :=
  ⟨C8_amount_roundtrip.1 250000 (by norm_num) (by norm_num),
    (C8_amount_roundtrip.2 ['9', '6', '7', '8', '7', '8', '5', '3', '4', '0', 'p']
      967878534 (by decide) (by norm_num)).2 (by decide)⟩

/-- C2 counterexample: on a high-S signature, `recoverPublicKey` 's
first attempt uses the ORIGINAL signature with the recovery id's low
bit FLIPPED (here id 1), not the original id, so against a provider
that rejects high-S and recovers a flag-dependent key it returns the
key for id 0 from the normalized retry, while the spec's order
(`recoverPublicKeySpec`) would return the key for id 1. -/
theorem C2_high_s_order_counterexample :
    recoverPublicKey strictProvider [] highSSig 0 =
        some (['0', '2', '0', '0']) ∧
      recoverPublicKeySpec strictProvider [] highSSig 0 =
        some (['0', '2', '0', '1']) ∧
      recoverPublicKey strictProvider [] highSSig 0 ≠
        recoverPublicKeySpec strictProvider [] highSSig 0 := by
  refine ⟨by decide, by decide, by decide⟩

/-- C2 (amended): when S exceeds the half-order, recovery first tries
the ORIGINAL signature with the recovery id's low bit FLIPPED; if the
provider rejects that, it retries the NORMALIZED signature with the
ORIGINAL recovery id; whichever attempt succeeds yields the hex
pubkey, none is returned exactly when both fail, and with no payee tag
`resolvePayeeKey` delegates to this recovery. -/
theorem C2_high_s_recovery (C : Crypto) (msgHash sig : List Nat) (flag : Nat)
    (hs : HALF_N < bytesToBigInt (sig.drop 32)) :
    (∀ pub, C.secpRecover msgHash sig (flag ^^^ 1) = some pub →
      recoverPublicKey C msgHash sig flag = some (bytesToHex pub)) ∧
    (C.secpRecover msgHash sig (flag ^^^ 1) = none →
      recoverPublicKey C msgHash sig flag =
        (C.secpRecover msgHash (normalizeSig sig) flag).map bytesToHex) ∧
    (recoverPublicKey C msgHash sig flag = none ↔
      C.secpRecover msgHash sig (flag ^^^ 1) = none ∧
      C.secpRecover msgHash (normalizeSig sig) flag = none) ∧
    (∀ tags : List TagData,
      tags.find? (fun t => match t with | .payee _ => true | _ => false) = none →
      resolvePayeeKey C msgHash sig flag tags =
        recoverPublicKey C msgHash sig flag) := by
  have hrec : recoverPublicKey C msgHash sig flag =
      match C.secpRecover msgHash sig (flag ^^^ 1) with
      | some pub => some (bytesToHex pub)
      | none => (C.secpRecover msgHash (normalizeSig sig) flag).map bytesToHex := by
    simp only [recoverPublicKey, if_pos hs]
  refine ⟨?_, ?_, ?_, ?_⟩
  · intro pub hp
    rw [hrec, hp]
  · intro hn
    rw [hrec, hn]
  · rw [hrec]
    rcases h1 : C.secpRecover msgHash sig (flag ^^^ 1) with _ | pub
    · rcases h2 : C.secpRecover msgHash (normalizeSig sig) flag with _ | pub2 <;>
        simp [h2]
    · simp
  · intro tags ht
    unfold resolvePayeeKey
    rw [ht]

/-- Witness for C2 at the concrete high-S input: the failure
characterization holds for `strictProvider` on `highSSig` with id 0. -/
theorem C2_high_s_recovery_witness :
    HALF_N < bytesToBigInt (highSSig.drop 32) ∧
      (recoverPublicKey strictProvider [] highSSig 0 = none ↔
        strictProvider.secpRecover [] highSSig (0 ^^^ 1) = none ∧
        strictProvider.secpRecover [] (normalizeSig highSSig) 0 = none) :=
  ⟨by decide,
    (C2_high_s_recovery strictProvider [] highSSig 0 (by decide)).2.2.1⟩

theorem findIdx_some_lt (p : Char → Bool) :
    ∀ (l : List Char) (s i : Nat), List.findIdx? p l s = some i → i < s + l.length := by
  intro l
  induction l with
  | nil =>
    intro s i h
    simp [List.findIdx?] at h
  | cons a t ih =>
    intro s i h
    rw [List.findIdx?] at h
    by_cases hp : p a
    · rw [if_pos hp] at h
      cases h
      simp
    · rw [if_neg hp] at h
      have := ih (s + 1) i h
      simp only [List.length_cons]
      omega

theorem charsetIndexOf_lt (c : Char) (i : Nat) (h : charsetIndexOf c = some i) :
    i < 32 := by
  have h2 : List.findIdx? (· == c) charsetList 0 = some i := h
  have h3 := findIdx_some_lt (· == c) charsetList 0 i h2
  have hlen : charsetList.length = 32 := by decide
  omega

theorem mapCharset_lt : ∀ (s : List Char) (ws : List Nat),
    mapCharset s = Except.ok ws → ∀ v ∈ ws, v < 32 := by
  intro s
  induction s with
  | nil =>
    intro ws h v hv
    cases h
    cases hv
  | cons c cs ih =>
    intro ws h v hv
    simp only [mapCharset] at h
    rcases hc : charsetIndexOf c with _ | i <;> rw [hc] at h
    · cases h
    · rcases hm : mapCharset cs with e | tail <;> rw [hm] at h
      · cases h
      · simp only [Except.map] at h
        cases h
        rcases List.mem_cons.mp hv with hv | hv
        · subst hv
          exact charsetIndexOf_lt c v hc
        · exact ih tail hm v hv

theorem except_bind_ok_inv {ε α β : Type} (x : Except ε α) (f : α → Except ε β)
    (b : β) (h : x >>= f = Except.ok b) :
    ∃ a, x = Except.ok a ∧ f a = Except.ok b := by
  cases x with
  | error e => exact absurd h (by simp [Bind.bind, Except.bind])
  | ok a => exact ⟨a, rfl, by simpa [Bind.bind, Except.bind] using h⟩

theorem bech32Decode_words_lt (s hrp : List Char) (data : List Nat)
    (h : bech32Decode s = Except.ok (hrp, data)) : ∀ v ∈ data, v < 32 := by
  simp only [bech32Decode] at h
  split at h
  · cases h
  · split_ifs at h
    obtain ⟨ws, hm, h⟩ := except_bind_ok_inv _ _ _ h
    split_ifs at h
    all_goals try cases h
    all_goals intro v hvmem
    all_goals exact mapCharset_lt _ ws hm v (List.mem_of_mem_take hvmem)

set_option maxRecDepth 10000 in
/-- C6 counterexample: `decode` accepts the invoice built from seven
zero timestamp words and a 104-word signature envelope whose last word
is 4, and reports recoveryFlag 4 — outside 0..3. -/
theorem C6_recovery_flag_counterexample :
    decode nullCrypto c6Invoice = Except.ok c6Record ∧
      3 < c6Record.recoveryFlag := by
  refine ⟨by decide, by decide⟩

/-- C6 (amended): the recovery flag of every accepted invoice is the
RAW 104th word of the signature envelope — an arbitrary base-32 digit,
so only `< 32` is guaranteed, not `≤ 3`. -/
theorem C6_recovery_flag (C : Crypto) (s : List Char)
    (rec : PaymentRequestObject) (h : decode C s = Except.ok rec) :
    rec.recoveryFlag < 32 ∧
    ∃ hrp data, bech32Decode s = Except.ok (hrp, data) ∧
      rec.recoveryFlag = (data.drop (data.length - 104)).getD 103 0 := by
  unfold decode at h
  obtain ⟨pd, hb, h⟩ := except_bind_ok_inv _ _ _ h
  obtain ⟨hrp, data⟩ := pd
  obtain ⟨ph, hp, h⟩ := except_bind_ok_inv _ _ _ h
  split at h
  · cases h
  · obtain ⟨tags, ht, h⟩ := except_bind_ok_inv _ _ _ h
    have hrec : rec.recoveryFlag =
        (data.drop (data.length - 104)).getD 103 0 := by
      cases h
      rfl
    refine ⟨?_, hrp, data, hb, hrec⟩
    rw [hrec]
    have hall := bech32Decode_words_lt s hrp data hb
    rcases le_or_lt (data.drop (data.length - 104)).length 103 with hle | hlt
    · rw [List.getD_eq_default _ _ hle]
      omega
    · have hmem : (data.drop (data.length - 104)).getD 103 0 ∈
          data.drop (data.length - 104) := by
        rw [List.getD_eq_getElem _ _ hlt]
        exact List.getElem_mem _
      exact hall _ (List.mem_of_mem_drop hmem)

set_option maxRecDepth 10000 in
/-- Witness for C6: the concrete accepted invoice with recovery word 4
has recoveryFlag < 32. -/
theorem C6_recovery_flag_witness :
    decode nullCrypto c6Invoice = Except.ok c6Record ∧
      c6Record.recoveryFlag < 32 :=
  ⟨by decide, (C6_recovery_flag nullCrypto c6Invoice c6Record (by decide)).1⟩

theorem toNat_ofNat_valid (n : Nat) (h : n < 0xD800) : (Char.ofNat n).toNat = n := by
  have hv : Nat.isValidChar n := Or.inl h
  simp [Char.ofNat, hv, Char.toNat]
  rfl

theorem toLowerChar_toUpperChar (c : Char) :
    toLowerChar (toUpperChar c) = toLowerChar c := by
  unfold toUpperChar
  by_cases hc : 97 ≤ c.toNat ∧ c.toNat ≤ 122
  · rw [if_pos hc]
    have ht : (Char.ofNat (c.toNat - 32)).toNat = c.toNat - 32 :=
      toNat_ofNat_valid _ (by omega)
    unfold toLowerChar
    rw [if_pos (by rw [ht]; omega), if_neg (by omega), ht]
    have h32 : c.toNat - 32 + 32 = c.toNat := by omega
    rw [h32]
    exact Char.ofNat_toNat c
  · rw [if_neg hc]

theorem toLowerChar_idem (c : Char) :
    toLowerChar (toLowerChar c) = toLowerChar c := by
  unfold toLowerChar
  by_cases hc : 65 ≤ c.toNat ∧ c.toNat ≤ 90
  · rw [if_pos hc]
    have ht : (Char.ofNat (c.toNat + 32)).toNat = c.toNat + 32 :=
      toNat_ofNat_valid _ (by omega)
    rw [if_neg (by omega)]
  · rw [if_neg hc, if_neg hc]

theorem toLowerStr_toUpperStr (s : List Char) :
    toLowerStr (toUpperStr s) = toLowerStr s := by
  unfold toLowerStr toUpperStr
  rw [List.map_map]
  exact List.map_congr_left (fun c _ => toLowerChar_toUpperChar c)

theorem toLowerStr_idem (s : List Char) :
    toLowerStr (toLowerStr s) = toLowerStr s := by
  unfold toLowerStr
  rw [List.map_map]
  exact List.map_congr_left (fun c _ => toLowerChar_idem c)

theorem except_bind_ok {ε α β : Type} (a : α) (f : α → Except ε β) :
    (Except.ok a : Except ε α) >>= f = f a := rfl

theorem except_bind_err {ε α β : Type} (e : ε) (f : α → Except ε β) :
    (Except.error e : Except ε α) >>= f = Except.error e := rfl

/-- `decode` looks at its input only through `toLowerStr` — except for
the verbatim `paymentRequest` field of the result. -/
theorem decode_lower_congr (C : Crypto) (s t : List Char)
    (h : toLowerStr s = toLowerStr t) :
    decode C s = (decode C t).map
      (fun r => { r with paymentRequest := some s }) := by
  have hb : bech32Decode s = bech32Decode t := by
    simp only [bech32Decode, h]
  unfold decode
  rcases hbt : bech32Decode t with e | ⟨hrp, data⟩
  · simp only [hb, hbt, except_bind_err]
    rfl
  · simp only [hb, hbt, except_bind_ok]
    rcases hp : parseHRP hrp with e | ph
    · simp only [hp, except_bind_err]
      rfl
    · simp only [hp, except_bind_ok]
      by_cases hlen : data.length < 7 + 104
      · simp only [if_pos hlen]
        rfl
      · simp only [if_neg hlen]
        rcases ht : parseTags ((data.drop 7).take (data.length - 104 - 7)) with e | tags
        · simp only [ht, except_bind_err]
          rfl
        · simp only [ht, except_bind_ok]
          rfl

set_option maxRecDepth 10000 in
/-- C9 counterexample: the uppercase and lowercase forms of a valid
invoice both decode successfully but to DIFFERENT records — the
`paymentRequest` field embeds the input verbatim. -/
theorem C9_case_counterexample :
    decode nullCrypto (toUpperStr c6Invoice) =
      Except.ok { c6Record with paymentRequest := some (toUpperStr c6Invoice) } ∧
    decode nullCrypto (toLowerStr c6Invoice) = Except.ok c6Record ∧
    decode nullCrypto (toUpperStr c6Invoice) ≠
      decode nullCrypto (toLowerStr c6Invoice) := by
  refine ⟨by decide, by decide, by decide⟩

/-- C9 (amended): decoding the uppercase form equals decoding the
lowercase form MODULO the `paymentRequest` field, which stores the
input string verbatim; all other fields (and any error) agree. -/
theorem C9_case_insensitivity (C : Crypto) (s : List Char) :
    decode C (toUpperStr s) =
      (decode C (toLowerStr s)).map
        (fun r => { r with paymentRequest := some (toUpperStr s) }) :=
  decode_lower_congr C (toUpperStr s) (toLowerStr s)
    (by rw [toLowerStr_toUpperStr, toLowerStr_idem])

/-- C3: the three missing-tag checks do raise, in the source's order,
but an unknown network NAME never raises — `encode` uses the string as
if it were a `Network` record, reads its absent `bech32` field as
`undefined`, and returns an unsigned record whose prefix begins
"lnundefined".  This contradicts the claim's (and the repo's own
encode test's) "Unknown network" error. -/
theorem C3_encode_validation (now : Nat) (opts : EncodeOptions) :
    (¬ opts.tags.any
        (fun t => match t with | .payment_hash _ => true | _ => false) →
      encode now opts = Except.error Err.missingPaymentHash) ∧
    (opts.tags.any
        (fun t => match t with | .payment_hash _ => true | _ => false) →
      ¬ opts.tags.any
        (fun t => match t with | .payment_secret _ => true | _ => false) →
      encode now opts = Except.error Err.missingPaymentSecret) ∧
    (opts.tags.any
        (fun t => match t with | .payment_hash _ => true | _ => false) →
      opts.tags.any
        (fun t => match t with | .payment_secret _ => true | _ => false) →
      ¬ opts.tags.any
        (fun t => match t with
          | .description _ => true
          | .purpose_commit_hash _ => true
          | _ => false) →
      encode now opts = Except.error Err.missingDescription) ∧
    (∀ netname : List Char, validateTags opts.tags = Except.ok () →
      ∃ rec, encode now { opts with network := some (Sum.inr netname) } =
          Except.ok rec ∧
        rec.prefixStr =
          buildHRPJS (Sum.inr netname) opts.satoshis opts.millisatoshis) := by
  refine ⟨?_, ?_, ?_, ?_⟩
  · intro h1
    have hv : validateTags opts.tags = Except.error Err.missingPaymentHash := by
      unfold validateTags
      rw [if_pos h1]
    unfold encode
    simp only [hv, except_bind_err]
  · intro h1 h2
    have hv : validateTags opts.tags = Except.error Err.missingPaymentSecret := by
      unfold validateTags
      rw [if_neg (by simpa using h1), if_pos h2]
    unfold encode
    simp only [hv, except_bind_err]
  · intro h1 h2 h3
    have hv : validateTags opts.tags = Except.error Err.missingDescription := by
      unfold validateTags
      rw [if_neg (by simpa using h1), if_neg (by simpa using h2), if_pos h3]
    unfold encode
    simp only [hv, except_bind_err]
  · intro netname hv
    unfold encode
    simp only [hv, except_bind_ok]
    exact ⟨_, rfl, rfl⟩

/-- Witness for C3 at the repo test's inputs: the empty tag list
raises, and the full tag list with network name "unknown_net" returns
an unsigned record with prefix "lnundefined10u" instead of raising. -/
theorem C3_encode_validation_witness :
    encode 0 { network := none, satoshis := none, millisatoshis := none,
               timestamp := none, tags := ([] : List TagData) } =
      Except.error Err.missingPaymentHash ∧
    ∃ rec, encode 0 { network := some (Sum.inr c3NetName),
                      satoshis := some 1000, millisatoshis := none,
                      timestamp := none, tags := c3Tags } = Except.ok rec ∧
      rec.prefixStr = buildHRPJS (Sum.inr c3NetName) (some 1000) none :=
  ⟨(C3_encode_validation 0
      { network := none, satoshis := none, millisatoshis := none,
        timestamp := none, tags := [] }).1 (by decide),
   (C3_encode_validation 0
      { network := none, satoshis := some 1000, millisatoshis := none,
        timestamp := none, tags := c3Tags }).2.2.2 c3NetName (by decide)⟩

/-! ## Word/number helpers (towards C1) -/

theorem wordsToInt_concat (A : List Nat) (b : Nat) :
    wordsToInt (A ++ [b]) = wordsToInt A * 32 + b := by
  unfold wordsToInt
  rw [List.foldl_append]
  rfl

theorem intToWords_length (n len : Nat) : (intToWords n len).length = len := by
  induction len generalizing n with
  | zero => rfl
  | succ l ih =>
    show (intToWords (n >>> 5) l ++ [n &&& 31]).length = l + 1
    rw [List.length_append, ih]
    rfl

theorem intToWords_lt (n len : Nat) : ∀ w ∈ intToWords n len, w < 32 := by
  induction len generalizing n with
  | zero => intro w hw; cases hw
  | succ l ih =>
    intro w hw
    rcases List.mem_append.mp hw with hw | hw
    · exact ih (n >>> 5) w hw
    · rcases List.mem_singleton.mp hw with rfl
      have : n &&& 31 ≤ 31 := Nat.and_le_right
      omega

theorem wordsToInt_intToWords (len n : Nat) (h : n < 2 ^ (5 * len)) :
    wordsToInt (intToWords n len) = n := by
  induction len generalizing n with
  | zero =>
    have : n = 0 := by simpa using h
    subst this
    rfl
  | succ l ih =>
    show wordsToInt (intToWords (n >>> 5) l ++ [n &&& 31]) = n
    rw [wordsToInt_concat]
    have hs : n >>> 5 = n / 2 ^ 5 := Nat.shiftRight_eq_div_pow n 5
    have hb : n >>> 5 < 2 ^ (5 * l) := by
      rw [hs]
      apply Nat.div_lt_of_lt_mul
      calc n < 2 ^ (5 * (l + 1)) := h
        _ = 2 ^ 5 * 2 ^ (5 * l) := by rw [← pow_add]; ring_nf
    rw [ih (n >>> 5) hb, hs,
      show n &&& 31 = n % 2 ^ 5 by
        rw [show (31 : Nat) = 2 ^ 5 - 1 by norm_num, Nat.and_pow_two_sub_one_eq_mod]]
    omega

theorem intToMinWordsF_sound : ∀ fuel n, n ≤ fuel →
    wordsToInt (intToMinWordsF fuel n) = n ∧
      ∀ w ∈ intToMinWordsF fuel n, w < 32 := by
  intro fuel
  induction fuel with
  | zero =>
    intro n hn
    have : n = 0 := by omega
    subst this
    exact ⟨rfl, by intro w hw; cases hw⟩
  | succ f ih =>
    intro n hn
    by_cases h0 : n = 0
    · subst h0
      exact ⟨rfl, by intro w hw; cases hw⟩
    · have hstep : intToMinWordsF (f + 1) n =
          intToMinWordsF f (n >>> 5) ++ [n &&& 31] := by
        rw [intToMinWordsF, if_neg h0]
      have hrec : n >>> 5 ≤ f := by
        have : n >>> 5 = n / 2 ^ 5 := Nat.shiftRight_eq_div_pow n 5
        have : n / 2 ^ 5 ≤ n / 2 := Nat.div_le_div_left (by norm_num) (by norm_num)
        omega
      obtain ⟨ihv, ihw⟩ := ih (n >>> 5) hrec
      constructor
      · rw [hstep, wordsToInt_concat, ihv,
          Nat.shiftRight_eq_div_pow,
          show n &&& 31 = n % 2 ^ 5 by
            rw [show (31 : Nat) = 2 ^ 5 - 1 by norm_num,
              Nat.and_pow_two_sub_one_eq_mod]]
        omega
      · rw [hstep]
        intro w hw
        rcases List.mem_append.mp hw with hw | hw
        · exact ihw w hw
        · rcases List.mem_singleton.mp hw with rfl
          have : n &&& 31 ≤ 31 := Nat.and_le_right
          omega

theorem intToMinWordsF_len : ∀ (k : Nat) (fuel n : Nat), n < 32 ^ k →
    (intToMinWordsF fuel n).length ≤ k := by
  intro k
  induction k with
  | zero =>
    intro fuel n h
    have : n = 0 := by simpa using h
    subst this
    rcases fuel with _ | f <;> simp [intToMinWordsF]
  | succ k ih =>
    intro fuel n h
    by_cases h0 : n = 0
    · subst h0
      rcases fuel with _ | f <;> simp [intToMinWordsF]
    · rcases fuel with _ | f
      · simp [intToMinWordsF, h0]
      · rw [intToMinWordsF, if_neg h0]
        simp only [List.length_append, List.length_singleton]
        have hb : n >>> 5 < 32 ^ k := by
          rw [Nat.shiftRight_eq_div_pow]
          apply Nat.div_lt_of_lt_mul
          calc n < 32 ^ (k + 1) := h
            _ = 2 ^ 5 * 32 ^ k := by rw [pow_succ]; ring_nf
        have := ih f (n >>> 5) hb
        omega

theorem intToMinWords_props (n : Nat) (h : n < 2 ^ 35) :
    wordsToInt (intToMinWords n) = n ∧ (intToMinWords n).length ≤ 7 ∧
      ∀ w ∈ intToMinWords n, w < 32 := by
  unfold intToMinWords
  by_cases h0 : n = 0
  · subst h0
    refine ⟨rfl, by decide, ?_⟩
    intro w hw
    rcases List.mem_singleton.mp hw with rfl
    norm_num
  · rw [if_neg h0]
    unfold intToMinWordsAux
    obtain ⟨hv, hw⟩ := intToMinWordsF_sound n n (le_refl n)
    refine ⟨hv, ?_, hw⟩
    exact intToMinWordsF_len 7 n n (by norm_num at h ⊢; omega)

theorem bytesToInt_four (f : Nat) (h : f < 2 ^ 32) :
    bytesToInt
      [(f >>> 24) &&& 0xff, (f >>> 16) &&& 0xff, (f >>> 8) &&& 0xff, f &&& 0xff] =
      f := by
  have h255 : ∀ x : Nat, x &&& 0xff = x % 256 := fun x => by
    rw [show (0xff : Nat) = 2 ^ 8 - 1 by norm_num, Nat.and_pow_two_sub_one_eq_mod]
  show (((0 * 256 + ((f >>> 24) &&& 0xff)) * 256 + ((f >>> 16) &&& 0xff)) * 256 +
      ((f >>> 8) &&& 0xff)) * 256 + (f &&& 0xff) = f
  rw [h255, h255, h255, h255,
    Nat.shiftRight_eq_div_pow, Nat.shiftRight_eq_div_pow, Nat.shiftRight_eq_div_pow]
  norm_num
  omega

theorem bytesToInt_two (c : Nat) (h : c < 2 ^ 16) :
    bytesToInt [(c >>> 8) &&& 0xff, c &&& 0xff] = c := by
  have h255 : ∀ x : Nat, x &&& 0xff = x % 256 := fun x => by
    rw [show (0xff : Nat) = 2 ^ 8 - 1 by norm_num, Nat.and_pow_two_sub_one_eq_mod]
  show (0 * 256 + ((c >>> 8) &&& 0xff)) * 256 + (c &&& 0xff) = c
  rw [h255, h255, Nat.shiftRight_eq_div_pow]
  norm_num
  omega

/-! ## Hex string round-trip (towards C1) -/

theorem hexDigitVal_of_lower (c : Char) (h : isLowerHexDigit c = true) :
    ∃ v, hexDigitVal c = some v ∧ v < 16 ∧ hexDigitChar v = c := by
  unfold isLowerHexDigit at h
  simp only [Bool.or_eq_true, Bool.and_eq_true, decide_eq_true_eq] at h
  rcases h with ⟨h1, h2⟩ | ⟨h1, h2⟩
  · refine ⟨c.toNat - 48, ?_, by omega, ?_⟩
    · unfold hexDigitVal
      rw [if_pos ⟨h1, h2⟩]
    · unfold hexDigitChar
      rw [if_pos (by omega), show 48 + (c.toNat - 48) = c.toNat by omega]
      exact Char.ofNat_toNat c
  · refine ⟨c.toNat - 87, ?_, by omega, ?_⟩
    · unfold hexDigitVal
      rw [if_neg (by omega), if_pos ⟨h1, h2⟩]
    · unfold hexDigitChar
      rw [if_neg (by omega), show 87 + (c.toNat - 87) = c.toNat by omega]
      exact Char.ofNat_toNat c

theorem hexPair_roundtrip (c1 c2 : Char) (h1 : isLowerHexDigit c1 = true)
    (h2 : isLowerHexDigit c2 = true) :
    hexPairVal c1 c2 < 256 ∧
      hexDigitChar (hexPairVal c1 c2 / 16 % 16) = c1 ∧
      hexDigitChar (hexPairVal c1 c2 % 16) = c2 := by
  obtain ⟨v1, hv1, hb1, hc1⟩ := hexDigitVal_of_lower c1 h1
  obtain ⟨v2, hv2, hb2, hc2⟩ := hexDigitVal_of_lower c2 h2
  have hp : hexPairVal c1 c2 = 16 * v1 + v2 := by
    unfold hexPairVal
    rw [hv1, hv2]
  rw [hp]
  refine ⟨by omega, ?_, ?_⟩
  · rw [show (16 * v1 + v2) / 16 % 16 = v1 by omega]
    exact hc1
  · rw [show (16 * v1 + v2) % 16 = v2 by omega]
    exact hc2

theorem bytesToHex_cons (b : Nat) (bs : List Nat) :
    bytesToHex (b :: bs) =
      hexDigitChar (b / 16 % 16) :: hexDigitChar (b % 16) :: bytesToHex bs := rfl

theorem hexToBytesAux_roundtrip : ∀ (n : Nat) (s : List Char), s.length ≤ n →
    (∀ c ∈ s, isLowerHexDigit c = true) → s.length % 2 = 0 →
    bytesToHex (hexToBytesAux s) = s ∧ (hexToBytesAux s).length * 2 = s.length ∧
      ∀ b ∈ hexToBytesAux s, b < 256 := by
  intro n
  induction n with
  | zero =>
    intro s hn _ _
    have : s = [] := List.eq_nil_of_length_eq_zero (by omega)
    subst this
    exact ⟨rfl, rfl, by intro b hb; cases hb⟩
  | succ n ih =>
    intro s hn hhex hev
    match s with
    | [] => exact ⟨rfl, rfl, by intro b hb; cases hb⟩
    | [c] => simp at hev
    | c1 :: c2 :: r =>
      have hr := ih r (by simp at hn; omega)
        (fun c hc => hhex c (by simp [hc]))
        (by simp [List.length_cons] at hev ⊢; omega)
      obtain ⟨hpl, hpc1, hpc2⟩ := hexPair_roundtrip c1 c2
        (hhex c1 (by simp)) (hhex c2 (by simp))
      refine ⟨?_, ?_, ?_⟩
      · show bytesToHex (hexPairVal c1 c2 :: hexToBytesAux r) = c1 :: c2 :: r
        rw [bytesToHex_cons, hpc1, hpc2, hr.1]
      · show (hexPairVal c1 c2 :: hexToBytesAux r).length * 2 = (c1 :: c2 :: r).length
        simp only [List.length_cons]
        have := hr.2.1
        omega
      · intro b hb
        rcases List.mem_cons.mp hb with rfl | hb
        · exact hpl
        · exact hr.2.2 b hb

theorem hexToBytes_wf (s : List Char) (n : Nat) (h : WfHexStr s n) :
    hexToBytes s = Except.ok (hexToBytesAux s) ∧ (hexToBytesAux s).length = n ∧
      bytesToHex (hexToBytesAux s) = s ∧ ∀ b ∈ hexToBytesAux s, b < 256 := by
  obtain ⟨hlen, hhex⟩ := h
  obtain ⟨h1, h2, h3⟩ := hexToBytesAux_roundtrip s.length s (le_refl _) hhex
    (by omega)
  refine ⟨?_, by omega, h1, h3⟩
  unfold hexToBytes
  rw [if_neg (by omega)]

/-! ## eightToFive sizes and bounds (towards C1) -/

theorem chunksExact_length (w : Nat) (hw : 0 < w) :
    ∀ (n : Nat) (l : List Bool), l.length ≤ n →
      (chunksExact w l).length = l.length / w := by
  intro n
  induction n with
  | zero =>
    intro l hl
    have : l = [] := List.eq_nil_of_length_eq_zero (by omega)
    subst this
    rw [chunksExact_of_lt w [] (Or.inl hw)]
    simp
  | succ n ih =>
    intro l hl
    rcases Nat.lt_or_ge l.length w with h | h
    · rw [chunksExact_of_lt w l (Or.inl h), Nat.div_eq_of_lt h]
      rfl
    · rw [chunksExact_step w l hw h]
      simp only [List.length_cons]
      rw [ih (l.drop w) (by rw [List.length_drop]; omega), List.length_drop]
      rw [Nat.div_eq_sub_div hw h]

theorem eightToFive_length (bs : List Nat) (h : ∀ b ∈ bs, b < 256) :
    (eightToFive bs).length = (8 * bs.length + 4) / 5 := by
  rw [eightToFive_eq bs h]
  unfold chunksPad
  rw [chunksExact_length 5 (by norm_num) (padBits 5 (streamOf 8 bs)).length _
    (le_refl _)]
  unfold padBits
  rw [List.length_append, List.length_replicate, streamOf_length]
  omega

theorem eightToFive_lt (bs : List Nat) (h : ∀ b ∈ bs, b < 256) :
    ∀ w ∈ eightToFive bs, w < 32 := by
  rw [eightToFive_eq bs h]
  intro w hw
  have := chunksExact_mem_lt 5 (padBits 5 (streamOf 8 bs)).length _ (le_refl _) w hw
  simpa using this

/-! ## Tag stream reconstruction (towards C1) -/

theorem tagCodeToName_tagNameToCode (t : TagData) :
    tagCodeToName (tagNameToCode t) = some (nameOf t) := by
  cases t <;> rfl

theorem tagNameToCode_lt (t : TagData) : tagNameToCode t < 32 := by
  cases t <;> norm_num [tagNameToCode]

theorem len_header_split (len : Nat) (h : len < 1024) :
    ((len >>> 5) &&& 0x1f) * 32 + (len &&& 0x1f) = len := by
  rw [Nat.shiftRight_eq_div_pow,
    show (0x1f : Nat) = 2 ^ 5 - 1 by norm_num,
    Nat.and_pow_two_sub_one_eq_mod, Nat.and_pow_two_sub_one_eq_mod]
  have : len / 2 ^ 5 % 2 ^ 5 = len / 2 ^ 5 := by
    apply Nat.mod_eq_of_lt
    omega
  rw [this]
  omega

theorem tag_bind_some (t : TagData) (x : Except Err (List TagData)) :
    (do
      let parsed ← (Except.ok (some t) : Except Err (Option TagData))
      let tl ← x
      match parsed with
      | some u => pure (u :: tl)
      | none => pure tl) = x.map (fun tl => t :: tl) := by
  cases x <;> rfl

/-- A header-plus-payload block whose `parseTagData` yields a tag
contributes that tag in front of the rest of the walk. -/
theorem parseTags_keep_step (code hi lo : Nat) (payload rest : List Nat)
    (t : TagData) (name : TagName)
    (hlen : payload.length = hi * 32 + lo)
    (hname : tagCodeToName code = some name)
    (hparse : parseTagData name payload (hi * 32 + lo) = Except.ok (some t)) :
    parseTags (code :: hi :: lo :: (payload ++ rest)) =
      (parseTags rest).map (fun tl => t :: tl) := by
  set ws := code :: hi :: lo :: (payload ++ rest) with hws
  have hlenws : ws.length = 3 + payload.length + rest.length := by
    rw [hws]
    simp [List.length_append]
    omega
  have h3 : 3 ≤ ws.length := by omega
  have hg0 : ws.getD 0 0 = code := rfl
  have hg1 : ws.getD 1 0 = hi := rfl
  have hg2 : ws.getD 2 0 = lo := rfl
  have hdrop3 : ws.drop 3 = payload ++ rest := rfl
  have htag : (ws.drop 3).take (hi * 32 + lo) = payload := by
    rw [hdrop3]
    exact List.take_left' hlen
  have hrest : ws.drop (3 + (hi * 32 + lo)) = rest := by
    rw [hws, show 3 + (hi * 32 + lo) = (hi * 32 + lo) + 3 by omega]
    rw [List.drop_succ_cons, List.drop_succ_cons, List.drop_succ_cons]
    exact List.drop_left' hlen
  rw [parseTags_step ws h3, hg0, hg1, hg2, if_neg (by omega), htag, hrest, hname]
  simp only
  rw [hparse]
  exact tag_bind_some t (parseTags rest)

theorem except_map_map {ε α β γ : Type} (x : Except ε α) (f : α → β) (g : β → γ) :
    (x.map f).map g = x.map (fun a => g (f a)) := by
  cases x <;> rfl

/-! ## Route hints (towards C1) -/

theorem hopBytes_wf (h : RoutingInfo) (hw : WfRoutingInfo h) :
    ∃ bytes, hopBytes h = Except.ok bytes ∧ bytes.length = 51 ∧
      (∀ b ∈ bytes, b < 256) ∧ parseHopBlock bytes = h := by
  obtain ⟨hpk, hsc, hfb, hfp, hcl⟩ := hw
  obtain ⟨hpk1, hpk2, hpk3, hpk4⟩ := hexToBytes_wf h.pubkey 33 hpk
  obtain ⟨hsc1, hsc2, hsc3, hsc4⟩ := hexToBytes_wf h.short_channel_id 8 hsc
  set hb := hexToBytesAux h.pubkey with hhb
  set sc := hexToBytesAux h.short_channel_id with hsc0
  set f := h.fee_base_msat
  set p := h.fee_proportional_millionths
  set c := h.cltv_expiry_delta
  set tl : List Nat :=
    [(f >>> 24) &&& 0xff, (f >>> 16) &&& 0xff, (f >>> 8) &&& 0xff, f &&& 0xff] ++
    ([(p >>> 24) &&& 0xff, (p >>> 16) &&& 0xff, (p >>> 8) &&& 0xff, p &&& 0xff] ++
     [(c >>> 8) &&& 0xff, c &&& 0xff]) with htl
  have henc : hopBytes h = Except.ok (hb ++ (sc ++ tl)) := by
    unfold hopBytes
    rw [hpk1, except_bind_ok, hsc1, except_bind_ok]
    simp only [htl, List.append_assoc]
    rfl
  have hand : ∀ x : Nat, x &&& 0xff < 256 := fun x => by
    have : x &&& 0xff ≤ 0xff := Nat.and_le_right
    omega
  refine ⟨hb ++ (sc ++ tl), henc, ?_, ?_, ?_⟩
  · rw [List.length_append, List.length_append, hpk2, hsc2, htl]
    rfl
  · intro b hb2
    rcases List.mem_append.mp hb2 with hmem | hmem
    · exact hpk4 b hmem
    rcases List.mem_append.mp hmem with hmem | hmem
    · exact hsc4 b hmem
    · rw [htl] at hmem
      simp only [List.mem_append, List.mem_cons, List.not_mem_nil, or_false] at hmem
      rcases hmem with (rfl | rfl | rfl | rfl) |
        ((rfl | rfl | rfl | rfl) | (rfl | rfl)) <;> exact hand _
  · have htake33 : (hb ++ (sc ++ tl)).take 33 = hb := by
      rw [List.take_append_of_le_length (by omega), List.take_of_length_le (by omega)]
    have hdrop33 : (hb ++ (sc ++ tl)).drop 33 = sc ++ tl := by
      rw [List.drop_append_of_le_length (by omega),
        List.drop_eq_nil_of_le (by omega), List.nil_append]
    have htake8 : (sc ++ tl).take 8 = sc := by
      rw [List.take_append_of_le_length (by omega), List.take_of_length_le (by omega)]
    have hdrop41 : (hb ++ (sc ++ tl)).drop 41 = tl := by
      rw [show (41 : Nat) = 33 + 8 by norm_num, ← List.drop_drop, hdrop33,
        List.drop_append_of_le_length (by omega),
        List.drop_eq_nil_of_le (by omega), List.nil_append]
    have hdrop45 : (hb ++ (sc ++ tl)).drop 45 = tl.drop 4 := by
      rw [show (45 : Nat) = 41 + 4 by norm_num, ← List.drop_drop, hdrop41]
    have hdrop49 : (hb ++ (sc ++ tl)).drop 49 = tl.drop 8 := by
      rw [show (49 : Nat) = 41 + 8 by norm_num, ← List.drop_drop, hdrop41]
    unfold parseHopBlock
    rw [htake33, hdrop33, htake8, hdrop41, hdrop45, hdrop49, hpk3, hsc3]
    have : tl.take 4 =
        [(f >>> 24) &&& 0xff, (f >>> 16) &&& 0xff, (f >>> 8) &&& 0xff, f &&& 0xff] :=
      rfl
    rw [this, bytesToInt_four f (by omega)]
    have : (tl.drop 4).take 4 =
        [(p >>> 24) &&& 0xff, (p >>> 16) &&& 0xff, (p >>> 8) &&& 0xff, p &&& 0xff] :=
      rfl
    rw [this, bytesToInt_four p (by omega)]
    have : (tl.drop 8).take 2 = [(c >>> 8) &&& 0xff, c &&& 0xff] := rfl
    rw [this, bytesToInt_two c (by omega)]

theorem parseRouteHintF_blocks :
    ∀ (blocks : List (List Nat)) (fuel : Nat),
      (∀ b ∈ blocks, b.length = 51) → blocks.length ≤ fuel →
      parseRouteHintF fuel blocks.flatten = blocks.map parseHopBlock := by
  intro blocks
  induction blocks with
  | nil =>
    intro fuel _ _
    rcases fuel with _ | f <;>
      simp [parseRouteHintF]
  | cons bl rest ih =>
    intro fuel hlen hfuel
    have hbl : bl.length = 51 := hlen bl (List.mem_cons_self bl rest)
    rcases fuel with _ | f
    · simp at hfuel
    have hflat : (bl :: rest).flatten = bl ++ rest.flatten := rfl
    rw [hflat, parseRouteHintF, if_pos (by rw [List.length_append]; omega)]
    have htake33 : (bl ++ rest.flatten).take 33 = bl.take 33 :=
      List.take_append_of_le_length (by omega)
    have hdroptake : ∀ k n : Nat, k + n ≤ 51 →
        ((bl ++ rest.flatten).drop k).take n = (bl.drop k).take n := by
      intro k n hkn
      rw [List.drop_append_of_le_length (by omega),
        List.take_append_of_le_length (by rw [List.length_drop]; omega)]
    have hdrop51 : (bl ++ rest.flatten).drop 51 = rest.flatten := by
      rw [← hbl]
      exact List.drop_left bl rest.flatten
    rw [htake33, hdroptake 33 8 (by norm_num), hdroptake 41 4 (by norm_num),
      hdroptake 45 4 (by norm_num), hdroptake 49 2 (by norm_num), hdrop51,
      ih f (fun b hb => hlen b (List.mem_cons_of_mem bl hb)) (by simp at hfuel ⊢; omega)]
    rfl

theorem routeHint_roundtrip (hops : List RoutingInfo)
    (hw : ∀ h ∈ hops, WfRoutingInfo h) :
    ∃ blocks : List (List Nat), hops.mapM hopBytes = Except.ok blocks ∧
      blocks.flatten.length = 51 * hops.length ∧
      (∀ b ∈ blocks.flatten, b < 256) ∧
      parseRouteHintAux blocks.flatten = hops := by
  have main : ∀ hops : List RoutingInfo, (∀ h ∈ hops, WfRoutingInfo h) →
      ∃ blocks : List (List Nat), hops.mapM hopBytes = Except.ok blocks ∧
        (∀ b ∈ blocks, b.length = 51) ∧ blocks.length = hops.length ∧
        (∀ b ∈ blocks.flatten, b < 256) ∧
        blocks.map parseHopBlock = hops := by
    intro hops
    induction hops with
    | nil => exact fun _ => ⟨[], rfl, (by intro b hb; cases hb), rfl,
        (by intro b hb; cases hb), rfl⟩
    | cons h t ih =>
      intro hwf
      obtain ⟨bytes, hb1, hb2, hb3, hb4⟩ :=
        hopBytes_wf h (hwf h (List.mem_cons_self h t))
      obtain ⟨blocks, ht1, ht2, ht3, ht4, ht5⟩ :=
        ih (fun x hx => hwf x (List.mem_cons_of_mem h hx))
      refine ⟨bytes :: blocks, ?_, ?_, ?_, ?_, ?_⟩
      · rw [List.mapM_cons, hb1, except_bind_ok, ht1, except_bind_ok]
        rfl
      · intro b hb
        rcases List.mem_cons.mp hb with rfl | hb
        · exact hb2
        · exact ht2 b hb
      · simp only [List.length_cons, ht3]
      · intro b hb
        have hb' : b ∈ bytes ++ blocks.flatten := by
          simpa using hb
        rcases List.mem_append.mp hb' with hb2m | hb2m
        · exact hb3 b hb2m
        · exact ht4 b hb2m
      · rw [List.map_cons, hb4, ht5]
  obtain ⟨blocks, h1, h2, h3, h4, h5⟩ := main hops hw
  have hflatlen : blocks.flatten.length = 51 * hops.length := by
    rw [List.length_flatten]
    have : ∀ blocks : List (List Nat), (∀ b ∈ blocks, b.length = 51) →
        (blocks.map List.length).sum = 51 * blocks.length := by
      intro blocks
      induction blocks with
      | nil => intro _; rfl
      | cons b t ihh =>
        intro hlen
        rw [List.map_cons, List.sum_cons, hlen b (List.mem_cons_self b t),
          ihh (fun x hx => hlen x (List.mem_cons_of_mem b hx))]
        simp only [List.length_cons]
        ring
    rw [this blocks h2, h3]
  refine ⟨blocks, h1, hflatlen, h4, ?_⟩
  unfold parseRouteHintAux
  rw [parseRouteHintF_blocks blocks blocks.flatten.length h2
    (by rw [hflatlen, h3]; omega), h5]

/-! ## Feature bits (towards C1) -/

theorem foldl_or_testBit (Q : Nat → Prop) [DecidablePred Q] :
    ∀ (L : List Nat) (acc j : Nat),
      (L.foldl (fun val b => if Q b then val ||| (1 <<< b) else val) acc).testBit j =
        (acc.testBit j || (L.contains j && decide (Q j))) := by
  intro L
  induction L with
  | nil =>
    intro acc j
    simp
  | cons b t ih =>
    intro acc j
    show (t.foldl _ (if Q b then acc ||| (1 <<< b) else acc)).testBit j = _
    rw [ih]
    have h1 : (1 <<< b).testBit j = decide (j = b) := by
      rw [Nat.testBit_shiftLeft]
      by_cases hj : j = b
      · subst hj
        simp
      · rcases Nat.lt_or_ge j b with hlt | hge
        · simp [Nat.not_le.2 hlt, hj]
        · have : (1 : Nat).testBit (j - b) = false :=
            Nat.testBit_lt_two_pow (by have : 1 ≤ j - b := by omega
                                       calc (1 : Nat) < 2 ^ 1 := by norm_num
                                         _ ≤ 2 ^ (j - b) :=
                                           Nat.pow_le_pow_right (by norm_num) this)
          simp [hge, this, hj]
    by_cases hq : Q b
    · rw [if_pos hq, Nat.testBit_or, h1]
      by_cases hj : j = b
      · subst hj
        simp [hq]
      · simp [hj, Ne.symm hj]
    · rw [if_neg hq]
      by_cases hj : j = b
      · subst hj
        simp [hq]
      · simp [hj, Ne.symm hj]

theorem foldl_or_lt (Q : Nat → Prop) [DecidablePred Q] :
    ∀ (L : List Nat) (acc : Nat), (∀ b ∈ L, b < 5) → acc < 32 →
      L.foldl (fun val b => if Q b then val ||| (1 <<< b) else val) acc < 32 := by
  intro L
  induction L with
  | nil => intro acc _ hacc; exact hacc
  | cons b t ih =>
    intro acc hb hacc
    show t.foldl _ (if Q b then acc ||| (1 <<< b) else acc) < 32
    apply ih _ (fun x hx => hb x (List.mem_cons_of_mem b hx))
    by_cases hq : Q b
    · rw [if_pos hq]
      have hb5 : b < 5 := hb b (List.mem_cons_self b t)
      have h2 : (1 <<< b) < 2 ^ 5 := by
        rw [Nat.shiftLeft_eq, one_mul]
        calc (2 : Nat) ^ b < 2 ^ 5 := Nat.pow_lt_pow_right (by norm_num) hb5
          _ ≤ 2 ^ 5 := le_refl _
      exact Nat.or_lt_two_pow hacc h2
    · rw [if_neg hq]
      exact hacc

theorem map_range_getD (f : Nat → Nat) (n w : Nat) (hw : w < n) :
    ((List.range n).map f).getD w 0 = f w := by
  rw [List.getD_eq_getElem _ _ (by simpa using hw)]
  simp

theorem featureWords_length (fb : FeatureBits) :
    (featureWords fb).length = fb.word_length := by
  unfold featureWords
  simp

theorem featureWords_lt (fb : FeatureBits) : ∀ w ∈ featureWords fb, w < 32 := by
  intro w hw
  unfold featureWords at hw
  simp only [List.mem_map, List.mem_range] at hw
  obtain ⟨i, _, rfl⟩ := hw
  exact foldl_or_lt _ (List.range 5) 0 (by intro b hb; simpa using hb) (by norm_num)

theorem decide_and_one_shiftRight (x i : Nat) :
    decide ((x >>> i) &&& 1 = 1) = x.testBit i := by
  simp only [and_one_shiftRight, Bool.decide_coe]

theorem fbDecodedBit_featureWords (fb : FeatureBits) (i : Nat) :
    fbDecodedBit (featureWords fb) i =
      (decide (i < fb.word_length * 5) && fbEncodedBit fb i) := by
  have hlen : (featureWords fb).length = fb.word_length := featureWords_length fb
  simp only [fbDecodedBit, hlen]
  by_cases hi : i < fb.word_length * 5
  · rw [if_pos hi]
    have hw : (fb.word_length * 5 - 1 - i) / 5 < fb.word_length := by omega
    simp only [featureWords]
    rw [decide_and_one_shiftRight, map_range_getD _ fb.word_length _ hw,
      foldl_or_testBit]
    have hidx : fb.word_length * 5 - 1 -
        ((fb.word_length * 5 - 1 - i) / 5 * 5 +
          (4 - (4 - (fb.word_length * 5 - 1 - i) % 5))) = i := by
      omega
    rw [hidx]
    have hcon : (List.range 5).contains (4 - (fb.word_length * 5 - 1 - i) % 5) =
        true := by
      have : 4 - (fb.word_length * 5 - 1 - i) % 5 < 5 := by omega
      simpa using this
    rw [hcon]
    simp [hi]
  · rw [if_neg hi]
    simp [hi]

theorem filter_range_sorted :
    ∀ (n : Nat) (l : List Nat), List.Pairwise (· < ·) l → (∀ x ∈ l, x < n) →
      (List.range n).filter (fun i => l.contains i) = l := by
  intro n
  induction n with
  | zero =>
    intro l _ hb
    cases l with
    | nil => rfl
    | cons a t => exact absurd (hb a (List.mem_cons_self a t)) (by omega)
  | succ n ih =>
    intro l hp hb
    by_cases hn : n ∈ l
    · obtain ⟨s, t, rfl⟩ := List.append_of_mem hn
      rw [List.pairwise_append] at hp
      obtain ⟨hs, hnt, hst⟩ := hp
      have ht : t = [] := by
        cases t with
        | nil => rfl
        | cons b u =>
          have h1 : n < b := (List.pairwise_cons.mp hnt).1 b (List.mem_cons_self b u)
          have h2 : b < n + 1 := hb b (by simp)
          omega
      subst ht
      rw [List.range_succ, List.filter_append]
      have hcongr : (List.range n).filter (fun i => (s ++ [n]).contains i) =
          (List.range n).filter (fun i => s.contains i) := by
        apply List.filter_congr
        intro i hi
        have hilt : i < n := List.mem_range.mp hi
        by_cases hsi : i ∈ s
        · simp [hsi]
        · simp [hsi, show i ≠ n by omega]
      have hsb : ∀ x ∈ s, x < n := fun x hx => hst x hx n (by simp)
      have hfn : [n].filter (fun i => (s ++ [n]).contains i) = [n] := by simp
      rw [hcongr, ih s hs hsb, hfn]
    · have hb2 : ∀ x ∈ l, x < n := by
        intro x hx
        have hxn := hb x hx
        rcases Nat.lt_or_ge x n with h | h
        · exact h
        · exact absurd hx (by have : x = n := by omega
                              subst this
                              exact hn)
      rw [List.range_succ, List.filter_append, ih l hp hb2]
      have hend : [n].filter (fun i => l.contains i) = [] := by simp [hn]
      rw [hend, List.append_nil]

theorem pair_entry_false (i k : Nat) (o : Option FeaturePair) (h1 : i ≠ k)
    (h2 : i ≠ k + 1) :
    (match o with
     | some f => (i = k && f.required) || (i = k + 1 && f.supported)
     | none => false) = false := by
  cases o with
  | none => rfl
  | some f => simp [h1, h2]

theorem option_match_const (o : Option FeaturePair) :
    (match o with | some _ => false | none => false) = false := by
  cases o <;> rfl

theorem or_of_imp_bool (r s : Bool) (h : r = true → s = true) : (s || r) = s := by
  cases r
  · simp
  · simp [h rfl]

theorem parseFeatureBits_featureWords (fb : FeatureBits) (hwf : WfFeatureBits fb) :
    parseFeatureBits (featureWords fb) = fb := by
  obtain ⟨hw0, hw2, hw4, hw6, hw8, hw10, hw12, hw14, hw16, hw18,
    eb, heb, hsb, hchain, hrange, hreq⟩ := hwf
  have hcont : ∀ j : Nat, j ≤ 19 → j ∉ eb.bits := by
    intro j hj hmem
    have := (hrange j hmem).1
    omega
  have hlen : (featureWords fb).length = fb.word_length := featureWords_length fb
  have hdec := fbDecodedBit_featureWords fb
  have e0 : fbEncodedBit fb 0 = (match fb.option_data_loss_protect with
      | some f => f.required | none => false) := by
    unfold fbEncodedBit
    simp only [List.any_cons, List.any_nil, heb]
    norm_num [option_match_const, hcont 0 (by omega)]
  have e1 : fbEncodedBit fb 1 = (match fb.option_data_loss_protect with
      | some f => f.supported | none => false) := by
    unfold fbEncodedBit
    simp only [List.any_cons, List.any_nil, heb]
    norm_num [option_match_const, hcont 1 (by omega)]
  have e2 : fbEncodedBit fb 2 = (match fb.initial_routing_sync with
      | some f => f.required | none => false) := by
    unfold fbEncodedBit
    simp only [List.any_cons, List.any_nil, heb]
    norm_num [option_match_const, hcont 2 (by omega)]
  have e3 : fbEncodedBit fb 3 = (match fb.initial_routing_sync with
      | some f => f.supported | none => false) := by
    unfold fbEncodedBit
    simp only [List.any_cons, List.any_nil, heb]
    norm_num [option_match_const, hcont 3 (by omega)]
  have e4 : fbEncodedBit fb 4 = (match fb.option_upfront_shutdown_script with
      | some f => f.required | none => false) := by
    unfold fbEncodedBit
    simp only [List.any_cons, List.any_nil, heb]
    norm_num [option_match_const, hcont 4 (by omega)]
  have e5 : fbEncodedBit fb 5 = (match fb.option_upfront_shutdown_script with
      | some f => f.supported | none => false) := by
    unfold fbEncodedBit
    simp only [List.any_cons, List.any_nil, heb]
    norm_num [option_match_const, hcont 5 (by omega)]
  have e6 : fbEncodedBit fb 6 = (match fb.gossip_queries with
      | some f => f.required | none => false) := by
    unfold fbEncodedBit
    simp only [List.any_cons, List.any_nil, heb]
    norm_num [option_match_const, hcont 6 (by omega)]
  have e7 : fbEncodedBit fb 7 = (match fb.gossip_queries with
      | some f => f.supported | none => false) := by
    unfold fbEncodedBit
    simp only [List.any_cons, List.any_nil, heb]
    norm_num [option_match_const, hcont 7 (by omega)]
  have e8 : fbEncodedBit fb 8 = (match fb.var_onion_optin with
      | some f => f.required | none => false) := by
    unfold fbEncodedBit
    simp only [List.any_cons, List.any_nil, heb]
    norm_num [option_match_const, hcont 8 (by omega)]
  have e9 : fbEncodedBit fb 9 = (match fb.var_onion_optin with
      | some f => f.supported | none => false) := by
    unfold fbEncodedBit
    simp only [List.any_cons, List.any_nil, heb]
    norm_num [option_match_const, hcont 9 (by omega)]
  have e10 : fbEncodedBit fb 10 = (match fb.gossip_queries_ex with
      | some f => f.required | none => false) := by
    unfold fbEncodedBit
    simp only [List.any_cons, List.any_nil, heb]
    norm_num [option_match_const, hcont 10 (by omega)]
  have e11 : fbEncodedBit fb 11 = (match fb.gossip_queries_ex with
      | some f => f.supported | none => false) := by
    unfold fbEncodedBit
    simp only [List.any_cons, List.any_nil, heb]
    norm_num [option_match_const, hcont 11 (by omega)]
  have e12 : fbEncodedBit fb 12 = (match fb.option_static_remotekey with
      | some f => f.required | none => false) := by
    unfold fbEncodedBit
    simp only [List.any_cons, List.any_nil, heb]
    norm_num [option_match_const, hcont 12 (by omega)]
  have e13 : fbEncodedBit fb 13 = (match fb.option_static_remotekey with
      | some f => f.supported | none => false) := by
    unfold fbEncodedBit
    simp only [List.any_cons, List.any_nil, heb]
    norm_num [option_match_const, hcont 13 (by omega)]
  have e14 : fbEncodedBit fb 14 = (match fb.payment_secret with
      | some f => f.required | none => false) := by
    unfold fbEncodedBit
    simp only [List.any_cons, List.any_nil, heb]
    norm_num [option_match_const, hcont 14 (by omega)]
  have e15 : fbEncodedBit fb 15 = (match fb.payment_secret with
      | some f => f.supported | none => false) := by
    unfold fbEncodedBit
    simp only [List.any_cons, List.any_nil, heb]
    norm_num [option_match_const, hcont 15 (by omega)]
  have e16 : fbEncodedBit fb 16 = (match fb.basic_mpp with
      | some f => f.required | none => false) := by
    unfold fbEncodedBit
    simp only [List.any_cons, List.any_nil, heb]
    norm_num [option_match_const, hcont 16 (by omega)]
  have e17 : fbEncodedBit fb 17 = (match fb.basic_mpp with
      | some f => f.supported | none => false) := by
    unfold fbEncodedBit
    simp only [List.any_cons, List.any_nil, heb]
    norm_num [option_match_const, hcont 17 (by omega)]
  have e18 : fbEncodedBit fb 18 = (match fb.option_support_large_channel with
      | some f => f.required | none => false) := by
    unfold fbEncodedBit
    simp only [List.any_cons, List.any_nil, heb]
    norm_num [option_match_const, hcont 18 (by omega)]
  have e19 : fbEncodedBit fb 19 = (match fb.option_support_large_channel with
      | some f => f.supported | none => false) := by
    unfold fbEncodedBit
    simp only [List.any_cons, List.any_nil, heb]
    norm_num [option_match_const, hcont 19 (by omega)]
  have f0 : fbFeature (featureWords fb) 0 = fb.option_data_loss_protect := by
    rcases hx : fb.option_data_loss_protect with _ | fp
    · simp [fbFeature, hdec, e0, e1, hx]
    · have hp := hw0
      rw [hx] at hp
      obtain ⟨himp, hor, hlt⟩ := hp
      simp only [fbFeature, hdec, e0, e1, hx]
      simp [show (0 : Nat) < fb.word_length * 5 from by omega,
        show (0 + 1 : Nat) < fb.word_length * 5 from by omega, hor]
      have hsup : (fp.supported || fp.required) = fp.supported := by
        cases hr : fp.required
        · simp
        · simp [himp hr]
      rw [hsup]
  have f2 : fbFeature (featureWords fb) 2 = fb.initial_routing_sync := by
    rcases hx : fb.initial_routing_sync with _ | fp
    · simp [fbFeature, hdec, e2, e3, hx]
    · have hp := hw2
      rw [hx] at hp
      obtain ⟨himp, hor, hlt⟩ := hp
      simp only [fbFeature, hdec, e2, e3, hx]
      simp [show (2 : Nat) < fb.word_length * 5 from by omega,
        show (2 + 1 : Nat) < fb.word_length * 5 from by omega, hor]
      have hsup : (fp.supported || fp.required) = fp.supported := by
        cases hr : fp.required
        · simp
        · simp [himp hr]
      rw [hsup]
  have f4 : fbFeature (featureWords fb) 4 = fb.option_upfront_shutdown_script := by
    rcases hx : fb.option_upfront_shutdown_script with _ | fp
    · simp [fbFeature, hdec, e4, e5, hx]
    · have hp := hw4
      rw [hx] at hp
      obtain ⟨himp, hor, hlt⟩ := hp
      simp only [fbFeature, hdec, e4, e5, hx]
      simp [show (4 : Nat) < fb.word_length * 5 from by omega,
        show (4 + 1 : Nat) < fb.word_length * 5 from by omega, hor]
      have hsup : (fp.supported || fp.required) = fp.supported := by
        cases hr : fp.required
        · simp
        · simp [himp hr]
      rw [hsup]
  have f6 : fbFeature (featureWords fb) 6 = fb.gossip_queries := by
    rcases hx : fb.gossip_queries with _ | fp
    · simp [fbFeature, hdec, e6, e7, hx]
    · have hp := hw6
      rw [hx] at hp
      obtain ⟨himp, hor, hlt⟩ := hp
      simp only [fbFeature, hdec, e6, e7, hx]
      simp [show (6 : Nat) < fb.word_length * 5 from by omega,
        show (6 + 1 : Nat) < fb.word_length * 5 from by omega, hor]
      have hsup : (fp.supported || fp.required) = fp.supported := by
        cases hr : fp.required
        · simp
        · simp [himp hr]
      rw [hsup]
  have f8 : fbFeature (featureWords fb) 8 = fb.var_onion_optin := by
    rcases hx : fb.var_onion_optin with _ | fp
    · simp [fbFeature, hdec, e8, e9, hx]
    · have hp := hw8
      rw [hx] at hp
      obtain ⟨himp, hor, hlt⟩ := hp
      simp only [fbFeature, hdec, e8, e9, hx]
      simp [show (8 : Nat) < fb.word_length * 5 from by omega,
        show (8 + 1 : Nat) < fb.word_length * 5 from by omega, hor]
      have hsup : (fp.supported || fp.required) = fp.supported := by
        cases hr : fp.required
        · simp
        · simp [himp hr]
      rw [hsup]
  have f10 : fbFeature (featureWords fb) 10 = fb.gossip_queries_ex := by
    rcases hx : fb.gossip_queries_ex with _ | fp
    · simp [fbFeature, hdec, e10, e11, hx]
    · have hp := hw10
      rw [hx] at hp
      obtain ⟨himp, hor, hlt⟩ := hp
      simp only [fbFeature, hdec, e10, e11, hx]
      simp [show (10 : Nat) < fb.word_length * 5 from by omega,
        show (10 + 1 : Nat) < fb.word_length * 5 from by omega, hor]
      have hsup : (fp.supported || fp.required) = fp.supported := by
        cases hr : fp.required
        · simp
        · simp [himp hr]
      rw [hsup]
  have f12 : fbFeature (featureWords fb) 12 = fb.option_static_remotekey := by
    rcases hx : fb.option_static_remotekey with _ | fp
    · simp [fbFeature, hdec, e12, e13, hx]
    · have hp := hw12
      rw [hx] at hp
      obtain ⟨himp, hor, hlt⟩ := hp
      simp only [fbFeature, hdec, e12, e13, hx]
      simp [show (12 : Nat) < fb.word_length * 5 from by omega,
        show (12 + 1 : Nat) < fb.word_length * 5 from by omega, hor]
      have hsup : (fp.supported || fp.required) = fp.supported := by
        cases hr : fp.required
        · simp
        · simp [himp hr]
      rw [hsup]
  have f14 : fbFeature (featureWords fb) 14 = fb.payment_secret := by
    rcases hx : fb.payment_secret with _ | fp
    · simp [fbFeature, hdec, e14, e15, hx]
    · have hp := hw14
      rw [hx] at hp
      obtain ⟨himp, hor, hlt⟩ := hp
      simp only [fbFeature, hdec, e14, e15, hx]
      simp [show (14 : Nat) < fb.word_length * 5 from by omega,
        show (14 + 1 : Nat) < fb.word_length * 5 from by omega, hor]
      have hsup : (fp.supported || fp.required) = fp.supported := by
        cases hr : fp.required
        · simp
        · simp [himp hr]
      rw [hsup]
  have f16 : fbFeature (featureWords fb) 16 = fb.basic_mpp := by
    rcases hx : fb.basic_mpp with _ | fp
    · simp [fbFeature, hdec, e16, e17, hx]
    · have hp := hw16
      rw [hx] at hp
      obtain ⟨himp, hor, hlt⟩ := hp
      simp only [fbFeature, hdec, e16, e17, hx]
      simp [show (16 : Nat) < fb.word_length * 5 from by omega,
        show (16 + 1 : Nat) < fb.word_length * 5 from by omega, hor]
      have hsup : (fp.supported || fp.required) = fp.supported := by
        cases hr : fp.required
        · simp
        · simp [himp hr]
      rw [hsup]
  have f18 : fbFeature (featureWords fb) 18 = fb.option_support_large_channel := by
    rcases hx : fb.option_support_large_channel with _ | fp
    · simp [fbFeature, hdec, e18, e19, hx]
    · have hp := hw18
      rw [hx] at hp
      obtain ⟨himp, hor, hlt⟩ := hp
      simp only [fbFeature, hdec, e18, e19, hx]
      simp [show (18 : Nat) < fb.word_length * 5 from by omega,
        show (18 + 1 : Nat) < fb.word_length * 5 from by omega, hor]
      have hsup : (fp.supported || fp.required) = fp.supported := by
        cases hr : fp.required
        · simp
        · simp [himp hr]
      rw [hsup]
  have hext : (List.range (fb.word_length * 5)).filter
      (fun i => 20 ≤ i && fbDecodedBit (featureWords fb) i) = eb.bits := by
    have hstep1 : ∀ i ∈ List.range (fb.word_length * 5),
        (20 ≤ i && fbDecodedBit (featureWords fb) i) = eb.bits.contains i := by
      intro i hi
      have hiTB : i < fb.word_length * 5 := List.mem_range.mp hi
      rw [hdec i]
      by_cases h20 : 20 ≤ i
      · have hhigh : fbEncodedBit fb i = eb.bits.contains i := by
          unfold fbEncodedBit
          simp only [List.any_cons, List.any_nil, heb]
          rw [pair_entry_false i 0 _ (by omega) (by omega),
            pair_entry_false i 2 _ (by omega) (by omega),
            pair_entry_false i 4 _ (by omega) (by omega),
            pair_entry_false i 6 _ (by omega) (by omega),
            pair_entry_false i 8 _ (by omega) (by omega),
            pair_entry_false i 10 _ (by omega) (by omega),
            pair_entry_false i 12 _ (by omega) (by omega),
            pair_entry_false i 14 _ (by omega) (by omega),
            pair_entry_false i 16 _ (by omega) (by omega),
            pair_entry_false i 18 _ (by omega) (by omega)]
          simp
        rw [hhigh]
        simp [h20, hiTB]
      · have hnm : i ∉ eb.bits := hcont i (by omega)
        simp [h20, hnm]
    rw [List.filter_congr hstep1]
    exact filter_range_sorted (fb.word_length * 5) eb.bits
      (List.chain'_iff_pairwise.mp hchain) (fun x hx => (hrange x hx).2)
  have hebeq : (⟨20, eb.bits, eb.bits.any (· % 2 = 0)⟩ : ExtraBits) = eb := by
    rcases eb with ⟨sb, bits, hr⟩
    simp only at hsb hreq ⊢
    rw [hsb, hreq]
  simp only [parseFeatureBits, hlen, f0, f2, f4, f6, f8, f10, f12, f14, f16, f18,
    hext, hebeq, ← heb]

/-! ## Per-tag encode/decode round-trip (towards C1) -/

theorem encodeTagData_roundtrip (t : TagData) (h : WfTag t) :
    ∃ tagWords, encodeTagData t = Except.ok tagWords ∧
      tagWords.length < 1024 ∧ (∀ v ∈ tagWords, v < 32) ∧
      parseTagData (nameOf t) tagWords tagWords.length = Except.ok (some t) := by
  cases t with
  | payment_hash d =>
    obtain ⟨h1, h2, h3, h4⟩ := hexToBytes_wf d 32 h
    have hlen52 : (eightToFive (hexToBytesAux d)).length = 52 := by
      rw [eightToFive_length _ h4, h2]
    refine ⟨eightToFive (hexToBytesAux d), ?_, by omega, eightToFive_lt _ h4, ?_⟩
    · show (hexToBytes d).map eightToFive = _
      rw [h1]
      rfl
    · simp only [nameOf, parseTagData]
      rw [hlen52, if_neg (by omega), bitpack_roundtrip _ h4, h3]
  | payment_secret d =>
    obtain ⟨h1, h2, h3, h4⟩ := hexToBytes_wf d 32 h
    have hlen52 : (eightToFive (hexToBytesAux d)).length = 52 := by
      rw [eightToFive_length _ h4, h2]
    refine ⟨eightToFive (hexToBytesAux d), ?_, by omega, eightToFive_lt _ h4, ?_⟩
    · show (hexToBytes d).map eightToFive = _
      rw [h1]
      rfl
    · simp only [nameOf, parseTagData]
      rw [hlen52, if_neg (by omega), bitpack_roundtrip _ h4, h3]
  | purpose_commit_hash d =>
    obtain ⟨h1, h2, h3, h4⟩ := hexToBytes_wf d 32 h
    have hlen52 : (eightToFive (hexToBytesAux d)).length = 52 := by
      rw [eightToFive_length _ h4, h2]
    refine ⟨eightToFive (hexToBytesAux d), ?_, by omega, eightToFive_lt _ h4, ?_⟩
    · show (hexToBytes d).map eightToFive = _
      rw [h1]
      rfl
    · simp only [nameOf, parseTagData]
      rw [hlen52, if_neg (by omega), bitpack_roundtrip _ h4, h3]
  | payee d =>
    obtain ⟨h1, h2, h3, h4⟩ := hexToBytes_wf d 33 h
    have hlen53 : (eightToFive (hexToBytesAux d)).length = 53 := by
      rw [eightToFive_length _ h4, h2]
    refine ⟨eightToFive (hexToBytesAux d), ?_, by omega, eightToFive_lt _ h4, ?_⟩
    · show (hexToBytes d).map eightToFive = _
      rw [h1]
      rfl
    · simp only [nameOf, parseTagData]
      rw [hlen53, if_neg (by omega), bitpack_roundtrip _ h4, h3]
  | metadata d =>
    obtain ⟨n, hwf, hn⟩ := h
    obtain ⟨h1, h2, h3, h4⟩ := hexToBytes_wf d n hwf
    refine ⟨eightToFive (hexToBytesAux d), ?_, ?_, eightToFive_lt _ h4, ?_⟩
    · show (hexToBytes d).map eightToFive = _
      rw [h1]
      rfl
    · rw [eightToFive_length _ h4, h2]
      omega
    · simp only [nameOf, parseTagData]
      rw [bitpack_roundtrip _ h4, h3]
  | description d =>
    obtain ⟨hlt, hlen⟩ := h
    refine ⟨eightToFive d, rfl, ?_, eightToFive_lt _ hlt, ?_⟩
    · rw [eightToFive_length _ hlt]
      omega
    · simp only [nameOf, parseTagData]
      rw [bitpack_roundtrip _ hlt]
  | expire_time n =>
    obtain ⟨hv, hl, hw⟩ := intToMinWords_props n (by
      have h2 : n < 2 ^ 31 := h
      have h3 : (2 : Nat) ^ 31 < 2 ^ 35 := by norm_num
      omega)
    refine ⟨intToMinWords n, rfl, by omega, hw, ?_⟩
    simp only [nameOf, parseTagData]
    rw [hv]
  | min_final_cltv_expiry n =>
    obtain ⟨hv, hl, hw⟩ := intToMinWords_props n (by
      have h2 : n < 2 ^ 31 := h
      have h3 : (2 : Nat) ^ 31 < 2 ^ 35 := by norm_num
      omega)
    refine ⟨intToMinWords n, rfl, by omega, hw, ?_⟩
    simp only [nameOf, parseTagData]
    rw [hv]
  | fallback_address f =>
    obtain ⟨hcode, haddr, n, hwf, hn⟩ := h
    obtain ⟨h1, h2, h3, h4⟩ := hexToBytes_wf f.addressHash n hwf
    refine ⟨f.code :: eightToFive (hexToBytesAux f.addressHash), ?_, ?_, ?_, ?_⟩
    · show (hexToBytes f.addressHash).map _ = _
      rw [h1]
      rfl
    · simp only [List.length_cons]
      rw [eightToFive_length _ h4, h2]
      omega
    · intro v hv
      rcases List.mem_cons.mp hv with rfl | hv
      · exact hcode
      · exact eightToFive_lt _ h4 v hv
    · simp only [nameOf, parseTagData, parseFallbackAddress]
      rw [bitpack_roundtrip _ h4, h3]
      rcases f with ⟨code, addr, ah⟩
      simp only at haddr
      rw [haddr]
      rfl
  | route_hint hops =>
    obtain ⟨hwh, hlen⟩ := h
    obtain ⟨blocks, hb1, hb2, hb3, hb4⟩ := routeHint_roundtrip hops hwh
    refine ⟨eightToFive blocks.flatten, ?_, ?_, eightToFive_lt _ hb3, ?_⟩
    · show (hops.mapM hopBytes).map _ = _
      rw [hb1]
      rfl
    · rw [eightToFive_length _ hb3, hb2]
      omega
    · simp only [nameOf, parseTagData]
      unfold parseRouteHint
      rw [bitpack_roundtrip _ hb3, hb4]
  | feature_bits fb =>
    obtain ⟨hwf, hlen⟩ := h
    refine ⟨featureWords fb, rfl, ?_, featureWords_lt fb, ?_⟩
    · rw [featureWords_length]
      omega
    · simp only [nameOf, parseTagData]
      rw [parseFeatureBits_featureWords fb hwf]

theorem encodeTag_roundtrip (t : TagData) (h : WfTag t) :
    ∃ words, encodeTag t = Except.ok words ∧ (∀ v ∈ words, v < 32) ∧
      ∀ rest, parseTags (words ++ rest) =
        (parseTags rest).map (fun tl => t :: tl) := by
  obtain ⟨tagWords, h1, h2, h3, h4⟩ := encodeTagData_roundtrip t h
  refine ⟨tagNameToCode t :: ((tagWords.length >>> 5) &&& 0x1f) ::
      (tagWords.length &&& 0x1f) :: tagWords, ?_, ?_, ?_⟩
  · unfold encodeTag
    rw [h1, except_bind_ok]
    rfl
  · intro v hv
    have hhi : (tagWords.length >>> 5) &&& 0x1f ≤ 0x1f := Nat.and_le_right
    have hlo : tagWords.length &&& 0x1f ≤ 0x1f := Nat.and_le_right
    rcases List.mem_cons.mp hv with rfl | hv
    · exact tagNameToCode_lt t
    rcases List.mem_cons.mp hv with rfl | hv
    · omega
    rcases List.mem_cons.mp hv with rfl | hv
    · omega
    · exact h3 v hv
  · intro rest
    have hassoc : (tagNameToCode t :: ((tagWords.length >>> 5) &&& 0x1f) ::
        (tagWords.length &&& 0x1f) :: tagWords) ++ rest =
        tagNameToCode t :: ((tagWords.length >>> 5) &&& 0x1f) ::
          (tagWords.length &&& 0x1f) :: (tagWords ++ rest) := rfl
    rw [hassoc]
    exact parseTags_keep_step (tagNameToCode t) _ _ tagWords rest t (nameOf t)
      (len_header_split tagWords.length h2).symm
      (tagCodeToName_tagNameToCode t)
      (by rw [len_header_split tagWords.length h2]; exact h4)

theorem encodeAllTags_roundtrip (tags : List TagData)
    (h : ∀ t ∈ tags, WfTag t) :
    ∃ ws, encodeAllTags tags = Except.ok ws ∧ (∀ v ∈ ws, v < 32) ∧
      ∀ rest, parseTags (ws ++ rest) =
        (parseTags rest).map (fun tl => tags ++ tl) := by
  have main : ∀ tags : List TagData, (∀ t ∈ tags, WfTag t) →
      ∃ blocks : List (List Nat), tags.mapM encodeTag = Except.ok blocks ∧
        (∀ v ∈ blocks.flatten, v < 32) ∧
        ∀ rest, parseTags (blocks.flatten ++ rest) =
          (parseTags rest).map (fun tl => tags ++ tl) := by
    intro tags
    induction tags with
    | nil =>
      intro _
      refine ⟨[], rfl, (by intro v hv; cases hv), ?_⟩
      intro rest
      show parseTags rest = _
      cases hrest : parseTags rest <;> rfl
    | cons t ts ih =>
      intro hwf
      obtain ⟨w, hw1, hw2, hw3⟩ :=
        encodeTag_roundtrip t (hwf t (List.mem_cons_self t ts))
      obtain ⟨blocks, hb1, hb2, hb3⟩ :=
        ih (fun x hx => hwf x (List.mem_cons_of_mem t hx))
      refine ⟨w :: blocks, ?_, ?_, ?_⟩
      · rw [List.mapM_cons, hw1, except_bind_ok, hb1, except_bind_ok]
        rfl
      · intro v hv
        have hv' : v ∈ w ++ blocks.flatten := by simpa using hv
        rcases List.mem_append.mp hv' with hm | hm
        · exact hw2 v hm
        · exact hb2 v hm
      · intro rest
        have hflat : (w :: blocks).flatten = w ++ blocks.flatten := rfl
        rw [hflat, List.append_assoc, hw3, hb3, except_map_map]
        cases parseTags rest <;> rfl
  obtain ⟨blocks, h1, h2, h3⟩ := main tags h
  refine ⟨blocks.flatten, ?_, h2, h3⟩
  unfold encodeAllTags
  rw [h1]
  rfl

/-! ## Amount and HRP parsing (towards C1) -/

theorem parseAmount_main (v : Nat) (suf : Char) (sufVal : Nat)
    (hsuf : suf = 'm' ∨ suf = 'u' ∨ suf = 'n' ∨ suf = 'p')
    (hval : sufVal = (if suf = 'm' then v * 100000000
      else if suf = 'u' then v * 100000
      else if suf = 'n' then v * 100
      else if suf = 'p' then v / 10
      else v * 100000000000))
    (hpico : ¬ (suf = 'p' ∧ v % 10 ≠ 0)) :
    parseAmount (natToDigits v ++ [suf]) =
      Except.ok
        { satoshis := if sufVal % 1000 = 0 then some (sufVal / 1000) else none,
          millisatoshis := some sufVal } := by
  obtain ⟨hne, hdig, hhead⟩ := natToDigits_props v
  have hlast : (natToDigits v ++ [suf]).getLast? = some suf := by
    simp [List.getLast?_append]
  have hdroplast : (natToDigits v ++ [suf]).dropLast = natToDigits v :=
    List.dropLast_concat
  have hhassuf : (some suf = some 'm' ∨ some suf = some 'u' ∨
      some suf = some 'n' ∨ some suf = some 'p') := by
    rcases hsuf with rfl | rfl | rfl | rfl <;> simp
  have hvalid : ¬ ((natToDigits v).isEmpty = true ∨
      ¬ (natToDigits v).all isDigitChar = true ∨
      (1 < (natToDigits v).length ∧ (natToDigits v).head? = some '0')) := by
    push_neg
    refine ⟨?_, ?_, ?_⟩
    · rcases hcase : natToDigits v with _ | _
      · exact absurd hcase hne
      · simp [List.isEmpty]
    · simp only [List.all_eq_true]
      exact fun c hc => hdig c hc
    · intro hgt1
      have hv1 : 1 ≤ v := by
        by_contra hv0
        push_neg at hv0
        have : v = 0 := by omega
        subst this
        rw [natToDigits_small 0 (by norm_num)] at hgt1
        simp at hgt1
      exact hhead hv1
  have hpico2 : ¬ (some suf = some 'p' ∧
      digitsToNat (natToDigits v) % 10 ≠ 0) := by
    rw [digitsToNat_natToDigits]
    intro hcon
    exact hpico ⟨Option.some.inj hcon.1, hcon.2⟩
  unfold parseAmount
  simp only [hlast]
  rw [if_pos hhassuf, hdroplast, if_neg hvalid, if_neg hpico2,
    digitsToNat_natToDigits, hval]
  rcases hsuf with rfl | rfl | rfl | rfl <;> norm_num

theorem parseAmount_encodeAmount (msat : Nat) :
    parseAmount (encodeAmountFromMsat msat) =
      Except.ok
        { satoshis := if msat % 1000 = 0 then some (msat / 1000) else none,
          millisatoshis := some msat } := by
  by_cases hm : msat % 100000000 = 0 ∧ 1 ≤ msat / 100000000
  · rw [show encodeAmountFromMsat msat = natToDigits (msat / 100000000) ++ ['m'] from
      by unfold encodeAmountFromMsat; rw [if_pos hm]]
    rw [parseAmount_main _ 'm' (msat / 100000000 * 100000000) (Or.inl rfl)
      (by norm_num) (by intro hcon; exact absurd hcon.1 (by decide)),
      show msat / 100000000 * 100000000 = msat from by omega]
  · by_cases hu : msat % 100000 = 0 ∧ 1 ≤ msat / 100000
    · rw [show encodeAmountFromMsat msat = natToDigits (msat / 100000) ++ ['u'] from
        by unfold encodeAmountFromMsat; rw [if_neg hm, if_pos hu]]
      rw [parseAmount_main _ 'u' (msat / 100000 * 100000) (Or.inr (Or.inl rfl))
        (by rw [if_neg (by decide), if_pos rfl])
        (by intro hcon; exact absurd hcon.1 (by decide)),
        show msat / 100000 * 100000 = msat from by omega]
    · by_cases hn : msat % 100 = 0 ∧ 1 ≤ msat / 100
      · rw [show encodeAmountFromMsat msat = natToDigits (msat / 100) ++ ['n'] from
          by unfold encodeAmountFromMsat; rw [if_neg hm, if_neg hu, if_pos hn]]
        rw [parseAmount_main _ 'n' (msat / 100 * 100) (Or.inr (Or.inr (Or.inl rfl)))
          (by rw [if_neg (by decide), if_neg (by decide), if_pos rfl])
          (by intro hcon; exact absurd hcon.1 (by decide)),
          show msat / 100 * 100 = msat from by omega]
      · rw [show encodeAmountFromMsat msat = natToDigits (msat * 10) ++ ['p'] from
          by unfold encodeAmountFromMsat; rw [if_neg hm, if_neg hu, if_neg hn]]
        rw [parseAmount_main _ 'p' (msat * 10 / 10) (Or.inr (Or.inr (Or.inr rfl)))
          (by rw [if_neg (by decide), if_neg (by decide), if_neg (by decide),
            if_pos rfl])
          (by intro hcon; exact hcon.2 (by omega)),
          show msat * 10 / 10 = msat from by omega]

theorem isPrefixOf_digit_head (p : Char) (ps amt : List Char)
    (hp : isDigitChar p = false)
    (hamt : ∀ c, amt.head? = some c → isDigitChar c = true) :
    List.isPrefixOf (p :: ps) amt = false := by
  cases amt with
  | nil => rfl
  | cons c r =>
    have hd := hamt c rfl
    show ((p == c) && _) = false
    have hne : (p == c) = false := by
      apply beq_eq_false_iff_ne.mpr
      intro hpc
      subst hpc
      rw [hd] at hp
      cases hp
    rw [hne]
    rfl

theorem findNetwork_buildHRP (net : Network) (hnet : net ∈ NETWORKS)
    (amt : List Char)
    (hamt : ∀ c, amt.head? = some c → isDigitChar c = true) :
    findNetwork ('l' :: 'n' :: (net.bech32 ++ amt)) sortedNetworkPrefixes =
      some (net, 'l' :: 'n' :: net.bech32) := by
  have hrt : List.isPrefixOf ['l', 'n', 'b', 'c', 'r', 't']
      ('l' :: 'n' :: 'b' :: 'c' :: amt) = false := by
    show List.isPrefixOf ['r', 't'] amt = false
    exact isPrefixOf_digit_head 'r' ['t'] amt (by decide) hamt
  have hsg : List.isPrefixOf ['l', 'n', 't', 'b', 's']
      ('l' :: 'n' :: 't' :: 'b' :: amt) = false := by
    show List.isPrefixOf ['s'] amt = false
    exact isPrefixOf_digit_head 's' [] amt (by decide) hamt
  fin_cases hnet
  · show findNetwork ('l' :: 'n' :: 'b' :: 'c' :: amt) _ = _
    have h2 : List.isPrefixOf ['l', 'n', 't', 'b', 's']
        ('l' :: 'n' :: 'b' :: 'c' :: amt) = false := rfl
    have h3 : List.isPrefixOf ['l', 'n', 'b', 'c']
        ('l' :: 'n' :: 'b' :: 'c' :: amt) = true := by
      rw [List.isPrefixOf_iff_prefix]
      exact List.prefix_append ['l', 'n', 'b', 'c'] amt
    simp [findNetwork, sortedNetworkPrefixes, hrt, h2, h3, bitcoinNet]
  · show findNetwork ('l' :: 'n' :: 't' :: 'b' :: amt) _ = _
    have h1 : List.isPrefixOf ['l', 'n', 'b', 'c', 'r', 't']
        ('l' :: 'n' :: 't' :: 'b' :: amt) = false := rfl
    have h3 : List.isPrefixOf ['l', 'n', 'b', 'c']
        ('l' :: 'n' :: 't' :: 'b' :: amt) = false := rfl
    have h4 : List.isPrefixOf ['l', 'n', 't', 'b']
        ('l' :: 'n' :: 't' :: 'b' :: amt) = true := by
      rw [List.isPrefixOf_iff_prefix]
      exact List.prefix_append ['l', 'n', 't', 'b'] amt
    simp [findNetwork, sortedNetworkPrefixes, h1, hsg, h3, h4, testnetNet]
  · show findNetwork ('l' :: 'n' :: 't' :: 'b' :: 's' :: amt) _ = _
    have h1 : List.isPrefixOf ['l', 'n', 'b', 'c', 'r', 't']
        ('l' :: 'n' :: 't' :: 'b' :: 's' :: amt) = false := rfl
    have h2 : List.isPrefixOf ['l', 'n', 't', 'b', 's']
        ('l' :: 'n' :: 't' :: 'b' :: 's' :: amt) = true := by
      rw [List.isPrefixOf_iff_prefix]
      exact List.prefix_append ['l', 'n', 't', 'b', 's'] amt
    simp [findNetwork, sortedNetworkPrefixes, h1, h2, signetNet]
  · show findNetwork ('l' :: 'n' :: 'b' :: 'c' :: 'r' :: 't' :: amt) _ = _
    have h1 : List.isPrefixOf ['l', 'n', 'b', 'c', 'r', 't']
        ('l' :: 'n' :: 'b' :: 'c' :: 'r' :: 't' :: amt) = true := by
      rw [List.isPrefixOf_iff_prefix]
      exact List.prefix_append ['l', 'n', 'b', 'c', 'r', 't'] amt
    simp [findNetwork, sortedNetworkPrefixes, h1, regtestNet]
  · show findNetwork ('l' :: 'n' :: 's' :: 'b' :: amt) _ = _
    have h1 : List.isPrefixOf ['l', 'n', 'b', 'c', 'r', 't']
        ('l' :: 'n' :: 's' :: 'b' :: amt) = false := rfl
    have h2 : List.isPrefixOf ['l', 'n', 't', 'b', 's']
        ('l' :: 'n' :: 's' :: 'b' :: amt) = false := rfl
    have h3 : List.isPrefixOf ['l', 'n', 'b', 'c']
        ('l' :: 'n' :: 's' :: 'b' :: amt) = false := rfl
    have h4 : List.isPrefixOf ['l', 'n', 't', 'b']
        ('l' :: 'n' :: 's' :: 'b' :: amt) = false := rfl
    have h5 : List.isPrefixOf ['l', 'n', 's', 'b']
        ('l' :: 'n' :: 's' :: 'b' :: amt) = true := by
      rw [List.isPrefixOf_iff_prefix]
      exact List.prefix_append ['l', 'n', 's', 'b'] amt
    simp [findNetwork, sortedNetworkPrefixes, h1, h2, h3, h4, h5, simnetNet]

theorem encodeAmount_head_digit (m : Nat) :
    ∀ c, (encodeAmountFromMsat m).head? = some c → isDigitChar c = true := by
  intro c hc
  unfold encodeAmountFromMsat at hc
  split_ifs at hc <;>
  · rename_i hcond
    first
    | (obtain ⟨hne, hdig, _⟩ := natToDigits_props (m / 100000000)
       rcases hA : natToDigits (m / 100000000) with _ | ⟨d, t⟩
       · exact absurd hA hne
       · rw [hA] at hc
         simp at hc
         rw [← hc]
         exact hdig d (by rw [hA]; exact List.mem_cons_self d t))
    | (obtain ⟨hne, hdig, _⟩ := natToDigits_props (m / 100000)
       rcases hA : natToDigits (m / 100000) with _ | ⟨d, t⟩
       · exact absurd hA hne
       · rw [hA] at hc
         simp at hc
         rw [← hc]
         exact hdig d (by rw [hA]; exact List.mem_cons_self d t))
    | (obtain ⟨hne, hdig, _⟩ := natToDigits_props (m / 100)
       rcases hA : natToDigits (m / 100) with _ | ⟨d, t⟩
       · exact absurd hA hne
       · rw [hA] at hc
         simp at hc
         rw [← hc]
         exact hdig d (by rw [hA]; exact List.mem_cons_self d t))
    | (obtain ⟨hne, hdig, _⟩ := natToDigits_props (m * 10)
       rcases hA : natToDigits (m * 10) with _ | ⟨d, t⟩
       · exact absurd hA hne
       · rw [hA] at hc
         simp at hc
         rw [← hc]
         exact hdig d (by rw [hA]; exact List.mem_cons_self d t))

theorem encodeAmount_not_empty (m : Nat) :
    (encodeAmountFromMsat m).isEmpty = false := by
  unfold encodeAmountFromMsat
  split_ifs <;> simp

theorem parseHRP_with_amount (net : Network) (hnet : net ∈ NETWORKS) (m : Nat) :
    parseHRP ('l' :: 'n' :: (net.bech32 ++ encodeAmountFromMsat m)) = Except.ok
      { prefixStr := 'l' :: 'n' :: (net.bech32 ++ encodeAmountFromMsat m),
        network := some net,
        amount := some
          { satoshis := if m % 1000 = 0 then some (m / 1000) else none,
            millisatoshis := some m } } := by
  have hamt := encodeAmount_head_digit m
  have hpre : ['l', 'n'].isPrefixOf
      ('l' :: 'n' :: (net.bech32 ++ encodeAmountFromMsat m)) = true := by
    rw [List.isPrefixOf_iff_prefix]
    exact List.prefix_append ['l', 'n'] (net.bech32 ++ encodeAmountFromMsat m)
  unfold parseHRP
  rw [if_neg (by simp [hpre]), findNetwork_buildHRP net hnet _ hamt]
  have hdrop : ('l' :: 'n' :: (net.bech32 ++ encodeAmountFromMsat m)).drop
      ('l' :: 'n' :: net.bech32).length = encodeAmountFromMsat m := by
    simp only [List.length_cons]
    rw [show net.bech32.length + 1 + 1 = (net.bech32.length + 1) + 1 from rfl,
      List.drop_succ_cons, List.drop_succ_cons]
    exact List.drop_left net.bech32 (encodeAmountFromMsat m)
  simp only [hdrop]
  rw [if_neg (by simp [encodeAmount_not_empty m]),
    parseAmount_encodeAmount m, except_bind_ok]
  rfl

theorem parseHRP_no_amount (net : Network) (hnet : net ∈ NETWORKS) :
    parseHRP ('l' :: 'n' :: (net.bech32 ++ [])) = Except.ok
      { prefixStr := 'l' :: 'n' :: (net.bech32 ++ []),
        network := some net, amount := none } := by
  have hpre : ['l', 'n'].isPrefixOf ('l' :: 'n' :: (net.bech32 ++ [])) = true := by
    rw [List.isPrefixOf_iff_prefix]
    exact List.prefix_append ['l', 'n'] (net.bech32 ++ [])
  unfold parseHRP
  rw [if_neg (by simp [hpre]),
    findNetwork_buildHRP net hnet [] (by intro c hc; cases hc)]
  have hdrop : ('l' :: 'n' :: (net.bech32 ++ [])).drop
      ('l' :: 'n' :: net.bech32).length = ([] : List Char) := by
    simp only [List.length_cons]
    rw [show net.bech32.length + 1 + 1 = (net.bech32.length + 1) + 1 from rfl,
      List.drop_succ_cons, List.drop_succ_cons]
    exact List.drop_left net.bech32 []
  simp only [hdrop]
  rfl

/-! ## Assembling the full round-trip (towards C1) -/

theorem concat_getD (A : List Nat) (b : Nat) :
    (A ++ [b]).getD A.length 0 = b := by
  induction A with
  | nil => rfl
  | cons a t ih => exact ih

theorem digit_char_wf (c : Char) (h : isDigitChar c = true) :
    33 ≤ c.toNat ∧ c.toNat ≤ 126 ∧ toLowerChar c = c := by
  unfold isDigitChar at h
  simp only [Bool.and_eq_true, decide_eq_true_eq] at h
  refine ⟨by omega, by omega, ?_⟩
  unfold toLowerChar
  rw [if_neg (by omega)]

theorem encodeAmount_chars (m : Nat) :
    ∀ c ∈ encodeAmountFromMsat m,
      33 ≤ c.toNat ∧ c.toNat ≤ 126 ∧ toLowerChar c = c := by
  intro c hc
  unfold encodeAmountFromMsat at hc
  split_ifs at hc <;>
  · rcases List.mem_append.mp hc with hd | hs
    · exact digit_char_wf c ((natToDigits_props _).2.1 c hd)
    · rcases List.mem_singleton.mp hs with rfl
      refine ⟨by decide, by decide, by decide⟩

theorem wfHrp_buildHRP (net : Network) (hnet : net ∈ NETWORKS) (amt : List Char)
    (hamt : ∀ c ∈ amt, 33 ≤ c.toNat ∧ c.toNat ≤ 126 ∧ toLowerChar c = c) :
    WfHrp ('l' :: 'n' :: (net.bech32 ++ amt)) := by
  constructor
  · simp
  · intro c hc
    simp only [List.mem_cons, List.mem_append] at hc
    rcases hc with rfl | rfl | hc | hc
    · refine ⟨by decide, by decide, by decide⟩
    · refine ⟨by decide, by decide, by decide⟩
    · fin_cases hnet <;>
      · simp only [bitcoinNet, testnetNet, signetNet, regtestNet, simnetNet,
          List.mem_cons, List.not_mem_nil, or_false] at hc
        rcases hc with rfl | rfl | rfl | rfl <;>
          refine ⟨by decide, by decide, by decide⟩
    · exact hamt c hc

/-- Inverting `decode` on the exact word stream `sign` emits. -/
theorem decode_of_parts (C : Crypto) (hrp : List Char) (ph : ParsedHRP)
    (ts : Nat) (tags : List TagData) (tws sig : List Nat) (flag : Nat)
    (hWf : WfHrp hrp)
    (hph : parseHRP hrp = Except.ok ph)
    (hts : ts < 2 ^ 31)
    (htws : ∀ v ∈ tws, v < 32)
    (htags : ∀ rest, parseTags (tws ++ rest) =
      (parseTags rest).map (fun tl => tags ++ tl))
    (hsiglen : sig.length = 64) (hsigb : ∀ b ∈ sig, b < 256)
    (hflag : flag < 32) :
    decode C (bech32Encode hrp
        ((intToWords ts 7 ++ tws) ++ (eightToFive sig ++ [flag]))) =
      Except.ok
        { paymentRequest := some (bech32Encode hrp
            ((intToWords ts 7 ++ tws) ++ (eightToFive sig ++ [flag]))),
          complete := true,
          prefixStr := ph.prefixStr,
          wordsTemp := [],
          network := ph.network.map Sum.inl,
          satoshis := ph.amount.bind (fun a => a.satoshis),
          millisatoshis := ph.amount.bind (fun a => a.millisatoshis),
          timestamp := ts,
          timeExpireDate := ts + (buildTagsObject tags).expire_time.getD 3600,
          payeeNodeKey := resolvePayeeKey C
            (C.sha256 (stringToBytes hrp ++
              fiveToEight (intToWords ts 7 ++ tws) true))
            sig flag tags,
          signature := bytesToHex sig,
          recoveryFlag := flag,
          tags := tags,
          tagsObject := buildTagsObject tags } := by
  set D := intToWords ts 7 ++ tws with hD
  set S := eightToFive sig ++ [flag] with hS
  have helen : (eightToFive sig).length = 103 := by
    rw [eightToFive_length sig hsigb, hsiglen]
  have hDlen : D.length = 7 + tws.length := by
    rw [hD, List.length_append, intToWords_length]
  have hSlen : S.length = 104 := by
    rw [hS, List.length_append, helen]
    rfl
  set data := D ++ S with hdata
  have hdatalen : data.length = 7 + tws.length + 104 := by
    rw [hdata, List.length_append, hDlen, hSlen]
  have hall : ∀ v ∈ data, v < 32 := by
    intro v hv
    rcases List.mem_append.mp hv with hv | hv
    · rcases List.mem_append.mp hv with hv | hv
      · exact intToWords_lt ts 7 v hv
      · exact htws v hv
    · rcases List.mem_append.mp hv with hv | hv
      · exact eightToFive_lt sig hsigb v hv
      · rcases List.mem_singleton.mp hv with rfl
        exact hflag
  have hb32 : bech32Decode (bech32Encode hrp data) = Except.ok (hrp, data) :=
    bech32_decode_encode hrp data hWf hall
  have hsigstart : data.length - 104 = D.length := by omega
  have htake7 : data.take 7 = intToWords ts 7 := by
    rw [hdata, List.take_append_of_le_length (by omega), hD,
      List.take_append_of_le_length (by rw [intToWords_length]),
      List.take_of_length_le (by rw [intToWords_length])]
  have hwtake7 : wordsToInt (data.take 7) = ts := by
    rw [htake7]
    exact wordsToInt_intToWords 7 ts (by
      have : (2 : Nat) ^ 31 ≤ 2 ^ (5 * 7) := Nat.pow_le_pow_right (by norm_num) (by norm_num)
      omega)
  have hdrop7 : data.drop 7 = tws ++ S := by
    rw [hdata, List.drop_append_of_le_length (by omega), hD,
      List.drop_append_of_le_length (by rw [intToWords_length]),
      List.drop_eq_nil_of_le (by rw [intToWords_length]), List.nil_append]
  have htagws : (data.drop 7).take (data.length - 104 - 7) = tws := by
    rw [hdrop7, hdatalen, show 7 + tws.length + 104 - 104 - 7 = tws.length by omega]
    exact List.take_left' rfl
  have hpt : parseTags tws = Except.ok tags := by
    have := htags []
    rw [List.append_nil] at this
    rw [this, parseTags_short [] (by simp)]
    show Except.ok (tags ++ []) = Except.ok tags
    rw [List.append_nil]
  have hdropS : data.drop (data.length - 104) = S := by
    rw [hsigstart, hdata]
    exact List.drop_left D S
  have htakeD : data.take (data.length - 104) = D := by
    rw [hsigstart, hdata]
    exact List.take_left D S
  have hsig103 : S.take 103 = eightToFive sig := by
    rw [hS]
    exact List.take_left' helen
  have hsigbytes : fiveToEightTrim (S.take 103) = sig := by
    rw [hsig103]
    exact bitpack_roundtrip sig hsigb
  have hgetflag : S.getD 103 0 = flag := by
    rw [hS, ← helen]
    exact concat_getD (eightToFive sig) flag
  unfold decode
  simp only [hb32, except_bind_ok, hph, except_bind_ok]
  rw [if_neg (by omega)]
  simp only [htagws, hpt, except_bind_ok]
  rw [hwtake7, hdropS, htakeD, hsigbytes, hgetflag]
  rfl

theorem encode_ok (now : Nat) (opts : EncodeOptions)
    (hv : validateTags opts.tags = Except.ok ()) :
    encode now opts = Except.ok
      { paymentRequest := none,
        complete := false,
        prefixStr := buildHRPJS (opts.network.getD (Sum.inl bitcoinNet))
          opts.satoshis opts.millisatoshis,
        wordsTemp := [],
        network := some (opts.network.getD (Sum.inl bitcoinNet)),
        satoshis := opts.satoshis,
        millisatoshis := opts.millisatoshis,
        timestamp := opts.timestamp.getD now,
        timeExpireDate := opts.timestamp.getD now +
          (buildTagsObject opts.tags).expire_time.getD 3600,
        payeeNodeKey := none,
        signature := [],
        recoveryFlag := 0,
        tags := opts.tags,
        tagsObject := buildTagsObject opts.tags } := by
  unfold encode
  rw [hv, except_bind_ok]
  rfl

theorem sign_parts (C : Crypto) (pr : PaymentRequestObject) (keyHex : List Char)
    (privKey tws sig : List Nat) (flag : Nat) (hrp : List Char) (ts : Nat)
    (hkey : hexToBytes keyHex = Except.ok privKey)
    (htw : encodeAllTags pr.tags = Except.ok tws)
    (hhrp : buildHRPJS (pr.network.getD (Sum.inl bitcoinNet))
      pr.satoshis pr.millisatoshis = hrp)
    (hts : pr.timestamp = ts)
    (hsign : C.secpSign (C.sha256 (stringToBytes hrp ++
      fiveToEight (intToWords ts 7 ++ tws) true)) privKey = (sig, flag))
    (hsiglen : sig.length = 64) (hsigb : ∀ b ∈ sig, b < 256) :
    sign C pr keyHex = Except.ok
      { pr with
        paymentRequest := some (bech32Encode hrp
          ((intToWords ts 7 ++ tws) ++ (eightToFive sig ++ [flag]))),
        complete := true,
        signature := bytesToHex sig,
        recoveryFlag := flag,
        payeeNodeKey := some (getPublicKey C privKey) } := by
  have helen : (eightToFive sig).length = 103 := by
    rw [eightToFive_length sig hsigb, hsiglen]
  unfold sign
  simp only [hkey, htw, except_bind_ok, signCompact, hhrp, hts, hsign]
  rw [helen, show (103 : Nat) - 103 = 0 from rfl, List.replicate_zero,
    List.append_nil]
  rfl

theorem resolvePayeeKey_no_payee (C : Crypto) (H sig : List Nat) (flag : Nat)
    (tags : List TagData) (hnp : ∀ d, TagData.payee d ∉ tags)
    (hlow : ¬ HALF_N < bytesToBigInt (sig.drop 32))
    (pub : List Nat) (hrec : C.secpRecover H sig flag = some pub) :
    resolvePayeeKey C H sig flag tags = some (bytesToHex pub) := by
  unfold resolvePayeeKey
  have hfind : tags.find?
      (fun t => match t with | .payee _ => true | _ => false) = none := by
    apply List.find?_eq_none.mpr
    intro t ht
    cases t with
    | payee d => exact absurd ht (hnp d)
    | _ => simp
  rw [hfind]
  show recoverPublicKey C H sig flag = _
  simp only [recoverPublicKey, if_neg hlow]
  rw [hrec]
  rfl

theorem buildHRPNet_amtOf (net : Network) (sat msat : Option Nat) :
    buildHRPNet net sat msat = 'l' :: 'n' :: (net.bech32 ++ amtOf sat msat) := rfl

theorem amount_package (sat msat : Option Nat) (net : Network)
    (hnet : net ∈ NETWORKS) :
    ∃ pha : Option ParsedAmount,
      parseHRP ('l' :: 'n' :: (net.bech32 ++ amtOf sat msat)) = Except.ok
        { prefixStr := 'l' :: 'n' :: (net.bech32 ++ amtOf sat msat),
          network := some net, amount := pha } ∧
      (∀ c ∈ amtOf sat msat, 33 ≤ c.toNat ∧ c.toNat ≤ 126 ∧ toLowerChar c = c) ∧
      (∀ s, sat = some s →
        pha.bind (fun a => a.satoshis) = some s ∧
        pha.bind (fun a => a.millisatoshis) = some (s * 1000)) ∧
      (sat = none → ∀ m, msat = some m →
        pha.bind (fun a => a.millisatoshis) = some m ∧
        pha.bind (fun a => a.satoshis) =
          (if m % 1000 = 0 then some (m / 1000) else none)) ∧
      (sat = none → msat = none →
        pha.bind (fun a => a.satoshis) = none ∧
        pha.bind (fun a => a.millisatoshis) = none) := by
  rcases sat with _ | s
  · rcases msat with _ | m
    · refine ⟨none, ?_, ?_, ?_, ?_, ?_⟩
      · show parseHRP ('l' :: 'n' :: (net.bech32 ++ [])) = _
        exact parseHRP_no_amount net hnet
      · intro c hc
        cases hc
      · intro s hs
        cases hs
      · intro _ m hm
        cases hm
      · intro _ _
        exact ⟨rfl, rfl⟩
    · refine ⟨some { satoshis := if m % 1000 = 0 then some (m / 1000) else none,
                     millisatoshis := some m }, ?_, ?_, ?_, ?_, ?_⟩
      · show parseHRP ('l' :: 'n' :: (net.bech32 ++ encodeAmountFromMsat m)) = _
        exact parseHRP_with_amount net hnet m
      · intro c hc
        exact encodeAmount_chars m c hc
      · intro s hs
        cases hs
      · intro _ m' hm'
        cases hm'
        exact ⟨rfl, rfl⟩
      · intro _ hm
        cases hm
  · refine ⟨some { satoshis := some s, millisatoshis := some (s * 1000) },
      ?_, ?_, ?_, ?_, ?_⟩
    · show parseHRP ('l' :: 'n' ::
        (net.bech32 ++ encodeAmountFromMsat (s * 1000))) = _
      have hwa := parseHRP_with_amount net hnet (s * 1000)
      rw [if_pos (by omega), show s * 1000 / 1000 = s from by omega] at hwa
      exact hwa
    · intro c hc
      exact encodeAmount_chars (s * 1000) c hc
    · intro s' hs'
      cases hs'
      exact ⟨rfl, rfl⟩
    · intro hcon
      cases hcon
    · intro hcon
      cases hcon

/-- C1: for well-formed invoice fields (with amounts and timestamps
inside the JS-number-exact envelopes of `WfOptions`, where the
exact-Nat amount pipeline is faithful to the source's binary64
arithmetic) and a private key whose provider obeys the §6.4 contract,
`decode` applied to the payment request built by
`sign (encode fields) key` reproduces the resolved network, the
timestamp (defaulted to `now` when absent), the tag list (and derived
tags object), the exact signature words, and the amount — and the
decoded payee node key is the signer's compressed public key. -/
theorem C1_sign_encode_decode_roundtrip (C : Crypto) (now : Nat)
    (opts : EncodeOptions) (keyHex : List Char) (privKey : List Nat)
    (hkey : hexToBytes keyHex = Except.ok privKey)
    (hC : ProviderOk C)
    (hopts : WfOptions opts)
    (hnow : opts.timestamp.getD now < 2 ^ 31) :
    ∃ pr sp req rec,
      encode now opts = Except.ok pr ∧
      sign C pr keyHex = Except.ok sp ∧
      sp.paymentRequest = some req ∧
      decode C req = Except.ok rec ∧
      rec.network = some (Sum.inl (netOf opts)) ∧
      rec.timestamp = opts.timestamp.getD now ∧
      rec.tags = opts.tags ∧
      rec.tagsObject = buildTagsObject opts.tags ∧
      rec.payeeNodeKey = some (getPublicKey C privKey) ∧
      rec.signature = sp.signature ∧
      rec.recoveryFlag = sp.recoveryFlag ∧
      (∀ s, opts.satoshis = some s →
        rec.satoshis = some s ∧ rec.millisatoshis = some (s * 1000)) ∧
      (opts.satoshis = none → ∀ m, opts.millisatoshis = some m →
        rec.millisatoshis = some m ∧
        rec.satoshis = (if m % 1000 = 0 then some (m / 1000) else none)) ∧
      (opts.satoshis = none → opts.millisatoshis = none →
        rec.satoshis = none ∧ rec.millisatoshis = none) := by
  obtain ⟨hwtags, hvalid, hnopayee, hnetopt, hamtopt, htsopt⟩ := hopts
  have hnet0 : opts.network.getD (Sum.inl bitcoinNet) = Sum.inl (netOf opts) := by
    unfold netOf
    rcases honet : opts.network with _ | x
    · rfl
    · rcases x with n | str
      · rfl
      · rw [honet] at hnetopt
        exact hnetopt.elim
  have hnetmem : netOf opts ∈ NETWORKS := by
    unfold netOf
    rcases honet : opts.network with _ | x
    · show bitcoinNet ∈ NETWORKS
      simp [NETWORKS]
    · rcases x with n | str
      · rw [honet] at hnetopt
        exact hnetopt
      · rw [honet] at hnetopt
        exact hnetopt.elim
  set net := netOf opts with hnetdef
  set ts := opts.timestamp.getD now with htsdef
  obtain ⟨tws, htw, htwlt, htwparse⟩ := encodeAllTags_roundtrip opts.tags hwtags
  obtain ⟨pha, hph, hamtchars, hfact1, hfact2, hfact3⟩ :=
    amount_package opts.satoshis opts.millisatoshis net hnetmem
  set amt := amtOf opts.satoshis opts.millisatoshis with hamtdef
  set hrp := 'l' :: 'n' :: (net.bech32 ++ amt) with hhrpdef
  have hjs : buildHRPJS (opts.network.getD (Sum.inl bitcoinNet))
      opts.satoshis opts.millisatoshis = hrp := by
    rw [hnet0]
    show buildHRPNet net opts.satoshis opts.millisatoshis = hrp
    rw [buildHRPNet_amtOf]
  set H := C.sha256 (stringToBytes hrp ++
    fiveToEight (intToWords ts 7 ++ tws) true) with hHdef
  obtain ⟨hslen, hsb, hlow, hfl, hrec⟩ := hC H privKey
  set sig := (C.secpSign H privKey).1 with hsigdef
  set flag := (C.secpSign H privKey).2 with hflagdef
  have hsign : C.secpSign H privKey = (sig, flag) := rfl
  have hpr := encode_ok now opts hvalid
  have hsp := sign_parts C
    { paymentRequest := none,
      complete := false,
      prefixStr := buildHRPJS (opts.network.getD (Sum.inl bitcoinNet))
        opts.satoshis opts.millisatoshis,
      wordsTemp := [],
      network := some (opts.network.getD (Sum.inl bitcoinNet)),
      satoshis := opts.satoshis,
      millisatoshis := opts.millisatoshis,
      timestamp := ts,
      timeExpireDate := ts + (buildTagsObject opts.tags).expire_time.getD 3600,
      payeeNodeKey := none,
      signature := [],
      recoveryFlag := 0,
      tags := opts.tags,
      tagsObject := buildTagsObject opts.tags }
    keyHex privKey tws sig flag hrp ts hkey htw hjs rfl hsign hslen hsb
  have hWfhrp : WfHrp hrp := wfHrp_buildHRP net hnetmem amt hamtchars
  have hdec := decode_of_parts C hrp
    { prefixStr := hrp, network := some net, amount := pha }
    ts opts.tags tws sig flag hWfhrp hph hnow htwlt htwparse hslen hsb hfl
  have hpayee : resolvePayeeKey C H sig flag opts.tags =
      some (getPublicKey C privKey) :=
    resolvePayeeKey_no_payee C H sig flag opts.tags hnopayee
      (by omega) (C.secpGetPublicKey privKey) hrec
  exact ⟨_, _, _, _, hpr, hsp, rfl, hdec, rfl, rfl, rfl, rfl, hpayee, rfl, rfl,
    hfact1, hfact2, hfact3⟩

set_option maxRecDepth 10000 in
/-- Witness for C1: the round-trip instantiated with the constant
provider, a zero key, bitcoin/1000 sat options and the three mandatory
tags. -/
theorem C1_sign_encode_decode_roundtrip_witness :
    hexToBytes c1KeyHex = Except.ok (List.replicate 32 0) ∧
    ∃ pr sp req rec,
      encode 0 c1Opts = Except.ok pr ∧
      sign c1Crypto pr c1KeyHex = Except.ok sp ∧
      sp.paymentRequest = some req ∧
      decode c1Crypto req = Except.ok rec ∧
      rec.network = some (Sum.inl (netOf c1Opts)) ∧
      rec.timestamp = c1Opts.timestamp.getD 0 ∧
      rec.tags = c1Opts.tags ∧
      rec.tagsObject = buildTagsObject c1Opts.tags ∧
      rec.payeeNodeKey = some (getPublicKey c1Crypto (List.replicate 32 0)) ∧
      rec.signature = sp.signature ∧
      rec.recoveryFlag = sp.recoveryFlag ∧
      (∀ s, c1Opts.satoshis = some s →
        rec.satoshis = some s ∧ rec.millisatoshis = some (s * 1000)) ∧
      (c1Opts.satoshis = none → ∀ m, c1Opts.millisatoshis = some m →
        rec.millisatoshis = some m ∧
        rec.satoshis = (if m % 1000 = 0 then some (m / 1000) else none)) ∧
      (c1Opts.satoshis = none → c1Opts.millisatoshis = none →
        rec.satoshis = none ∧ rec.millisatoshis = none) :=
  ⟨by decide,
   C1_sign_encode_decode_roundtrip c1Crypto 0 c1Opts c1KeyHex
     (List.replicate 32 0)
     (by decide)
     (fun hm k =>
       ⟨by show (List.replicate 64 (0 : Nat)).length = 64; decide,
        by show ∀ b ∈ List.replicate 64 (0 : Nat), b < 256; decide,
        by
          show bytesToBigInt ((List.replicate 64 (0 : Nat)).drop 32) ≤ HALF_N
          decide,
        by show (0 : Nat) < 32; decide,
        rfl⟩)
     ⟨by
        intro t ht
        simp only [c1Opts, c3Tags, List.mem_cons, List.not_mem_nil,
          or_false] at ht
        rcases ht with rfl | rfl | rfl
        · exact ⟨by decide, by decide⟩
        · exact ⟨by decide, by decide⟩
        · exact ⟨by decide, by decide⟩,
      by decide,
      by
        intro d hd
        simp [c1Opts, c3Tags] at hd,
      by show bitcoinNet ∈ NETWORKS; exact List.mem_cons_self _ _,
      by show (1 : Nat) ≤ 1000 ∧ 1000 * 1000 < 2 ^ 53; norm_num,
      fun ts h => by
        cases h
        norm_num⟩
     (by decide)⟩

end Bolt11
